import Mathlib

/-!
The growable vector of `seminar3/tasks/vector/vector.go`

A shallow embedding of the Go type `Vector[T]` and of its operations, followed by
the properties of the container that are established from the code.

Modelling conventions.

* A Go slice is a backing array together with a length; its capacity is the length
  of the backing array.  Every slice of the program starts at offset 0 of its array,
  and no two vectors ever share an array (all constructors copy), so a slice is
  modelled by value.
* The Go type `int` is modelled by `Int`; lengths of arrays are natural numbers.
* An operation that can panic in Go (slice bounds, index, `make`, `append`) returns in
  `Except Panic`.
* The program is read twice.  The first reading (`New`, `Vector.PushBack`, ...) is over
  unbounded integers and unbounded memory: `make` panics only on a negative length or
  a capacity below the length, `append` always returns, and `capacity * 2` is exact.
  It is what the program does as long as no array comes near the limits of the
  machine, and the properties that need no more are stated on it.  The second reading
  (`Machine`) has the limits of a 64-bit target: `int` arithmetic wraps around, `make`
  panics beyond the largest array the allocator provides for the element type, and
  `append` panics when the length overflows `int` or the new array is too large.  The
  properties that speak of arbitrary sizes and capacities are stated on it.  Running
  out of physical memory below the allocator's limit ends the program with a fatal
  error, not a panic; it is outside both readings.
* The capacity `append` picks when it has to reallocate is not fixed by the Go
  language; it is a parameter (`Runtime`).
* A Go `error` is `Option String`: `none` is `nil`, `some msg` is `errors.New(msg)`.
-/

namespace vector

/-- The run-time panics the operations of the vector can raise. -/
inductive Panic where
  | makeslice
  | growslice
  | sliceBounds
  | indexRange
deriving DecidableEq, Repr

/-- What the Go run time decides on its own: the capacity of the array `append`
allocates when the old array (capacity `c`) cannot hold the `n` elements needed.
The language guarantees only that the new array is large enough. -/
structure Runtime where
  appendCap : Nat → Nat → Nat
  appendCap_ge : ∀ c n, n ≤ appendCap c n

/-- A run time whose `append` allocates exactly the number of elements needed. -/
def exactRuntime : Runtime where
  appendCap := fun _ n => n
  appendCap_ge := fun _ _ => Nat.le_refl _

/-- The small size classes, in bytes, of the allocator of the gc tool chain. -/
def sizeClasses : List Nat := [8, 16, 24, 32, 48, 64, 80, 96, 112, 128]

/-- Number of 8-byte elements in the smallest size class that holds `n` of them;
requests larger than the table are kept exact. -/
def roundUpCap (n : Nat) : Nat :=
  match sizeClasses.find? (fun c => decide (8 * n ≤ c)) with
  | some c => c / 8
  | none => n

/-- A run time whose `append` rounds an allocation of 8-byte elements up to the
allocator's size class, as the gc tool chain does on 64-bit targets when it appends
up to 16 elements to a nil `[]int`; it is used below only for such appends. -/
def sizeClassRuntime : Runtime where
  appendCap := fun _ n => roundUpCap n
  appendCap_ge := by
    intro _ n
    show n ≤ roundUpCap n
    unfold roundUpCap
    cases h : sizeClasses.find? (fun c => decide (8 * n ≤ c)) with
    | none => exact Nat.le_refl _
    | some c =>
      have hc := List.find?_some h
      simp only [decide_eq_true_eq] at hc
      show n ≤ c / 8
      omega

/-- A Go slice: the backing array from the start of the slice, and the length. -/
structure Slice (α : Type) where
  arr : List α
  len : Nat
deriving DecidableEq, Repr

/-- A slice expression `s[lo:hi]` used as an operand of `copy`: the positions
`[lo, hi)` of the backing array. -/
structure Window where
  lo : Nat
  hi : Nat
deriving DecidableEq, Repr

/-- Overwrite `arr` from position `off` on with the elements `xs`. -/
def writeAt {α : Type} (arr : List α) (off : Nat) (xs : List α) : List α :=
  arr.take off ++ xs ++ arr.drop (off + xs.length)

namespace Slice

variable {α : Type}

/-- The built-in `cap(s)`. -/
def cap (s : Slice α) : Nat := s.arr.length

/-- The elements `s[0], ..., s[len(s)-1]`. -/
def elems (s : Slice α) : List α := s.arr.take s.len

/-- The nil slice `[]T(nil)`. -/
def nil : Slice α := ⟨[], 0⟩

/-- The built-in `make([]T, len, cap)`: a zeroed array of `cap` elements.  This is the
unbounded reading; `Machine.make` adds the limit of the allocator. -/
def make [Inhabited α] (len cap : Int) : Except Panic (Slice α) :=
  if len < 0 ∨ cap < len then .error .makeslice
  else .ok ⟨List.replicate cap.toNat default, len.toNat⟩

/-- The built-in `append(s, vs...)`: in place when the array has room, otherwise
into a new zeroed array of the capacity the run time picks.  This is the unbounded
reading; `Machine.append` adds the limits of `int` and of the allocator. -/
def append [Inhabited α] (rt : Runtime) (s : Slice α) (vs : List α) : Slice α :=
  if s.len + vs.length ≤ s.cap then
    ⟨writeAt s.arr s.len vs, s.len + vs.length⟩
  else
    let n := s.len + vs.length
    ⟨s.elems ++ vs ++ List.replicate (rt.appendCap s.cap n - n) default, n⟩

/-- The slice expression `s[:hi]`. -/
def reslice (s : Slice α) (hi : Int) : Except Panic (Slice α) :=
  if 0 ≤ hi ∧ hi ≤ s.cap then .ok ⟨s.arr, hi.toNat⟩ else .error .sliceBounds

/-- The bounds check of the slice expression `s[lo:hi]`. -/
def window (s : Slice α) (lo hi : Int) : Except Panic Window :=
  if 0 ≤ lo ∧ lo ≤ hi ∧ hi ≤ s.cap then .ok ⟨lo.toNat, hi.toNat⟩
  else .error .sliceBounds

/-- The elements a window of the array of `s` holds. -/
def read (s : Slice α) (w : Window) : List α :=
  (s.arr.drop w.lo).take (w.hi - w.lo)

/-- The built-in `copy(dst, src)` for a destination window of the array of `s`:
as many elements as both sides have, the source being read before anything is
written (the two may overlap). -/
def copyInto (s : Slice α) (dst : Window) (src : List α) : Slice α :=
  ⟨writeAt s.arr dst.lo (src.take (dst.hi - dst.lo)), s.len⟩

/-- The index expression `s[i]`. -/
def index (s : Slice α) (i : Int) : Except Panic α :=
  if i < 0 then .error .indexRange
  else
    match s.elems[i.toNat]? with
    | some x => .ok x
    | none => .error .indexRange

/-- The assignment `s[i] = x`. -/
def setIndex (s : Slice α) (i : Int) (x : α) : Except Panic (Slice α) :=
  if 0 ≤ i ∧ i < s.len ∧ i < s.cap then .ok ⟨s.arr.set i.toNat x, s.len⟩
  else .error .indexRange

/-- The loop `for i := lo; i < hi; i++ { s[i] = x }`, run for its `hi - lo`
iterations. -/
def fillLoop (x : α) : Nat → Int → Slice α → Except Panic (Slice α)
  | 0, _, s => .ok s
  | k + 1, i, s => do
    let s1 ← s.setIndex i x
    fillLoop x k (i + 1) s1

end Slice

/-- The struct `Vector[T]`. -/
structure Vector (α : Type) where
  data : Slice α
  size : Int
  capacity : Int
deriving DecidableEq, Repr

/-- The type `Option[T]`: a function that updates the vector under construction. -/
abbrev VOption (α : Type) := Vector α → Except Panic (Vector α)

/-- The message of the error of `At`, `Insert` and `Erase`. -/
def errOutOfRange : String := "выход за пределы вектора"

/-- The message of the error of `Front`, `Back` and `PopBack`. -/
def errEmpty : String := "вектор пуст"

variable {α : Type} [Inhabited α]

set_option linter.unusedSectionVars false

def WithCapacity (capacity : Int) : VOption α := fun _ => do
  let capacity := if capacity < 0 then 0 else capacity
  let d ← Slice.make 0 capacity
  pure ⟨d, 0, capacity⟩

def WithValues (rt : Runtime) (values : List α) : VOption α := fun _ =>
  let copy := Slice.nil.append rt values
  pure ⟨copy, copy.len, copy.len⟩

def WithSize (size : Int) (defaultValue : α) : VOption α := fun _ => do
  let size := if size < 0 then 0 else size
  let d ← Slice.make size size
  let d ← Slice.fillLoop defaultValue (size - 0).toNat 0 d
  pure ⟨d, size, size⟩

def WithFill (count : Int) (value : α) : VOption α := fun _ => do
  let count := if count < 0 then 0 else count
  let d ← Slice.make count count
  let d ← Slice.fillLoop value (count - 0).toNat 0 d
  pure ⟨d, count, count⟩

def FromSlice (rt : Runtime) (slice : List α) : VOption α := fun _ =>
  let copy := Slice.nil.append rt slice
  pure ⟨copy, copy.len, copy.len⟩

def New (options : List (VOption α)) : Except Panic (Vector α) := do
  let d ← Slice.make 0 0
  options.foldlM (fun v option => option v) ⟨d, 0, 0⟩

namespace Vector

def Size (v : Vector α) : Int := v.size

def Capacity (v : Vector α) : Int := v.capacity

def Empty (v : Vector α) : Bool := decide (v.size = 0)

def At (v : Vector α) (index : Int) : Except Panic (α × Option String) :=
  if index < 0 ∨ index ≥ v.size then pure (default, some errOutOfRange)
  else do
    let x ← v.data.index index
    pure (x, none)

def Front (v : Vector α) : Except Panic (α × Option String) :=
  if v.size = 0 then pure (default, some errEmpty)
  else do
    let x ← v.data.index 0
    pure (x, none)

def Back (v : Vector α) : Except Panic (α × Option String) :=
  if v.size = 0 then pure (default, some errEmpty)
  else do
    let x ← v.data.index (v.size - 1)
    pure (x, none)

def Data (v : Vector α) : Except Panic (Slice α) :=
  v.data.reslice v.size

/-- The method `growCapacity` in the unbounded reading: `capacity * 2` is exact;
`Machine.growCapacity` computes it in 64-bit `int`. -/
def growCapacity (v : Vector α) : Int :=
  if v.capacity = 0 then 1 else v.capacity * 2

def reserve (v : Vector α) (newCapacity : Int) : Except Panic (Vector α) :=
  if newCapacity ≤ v.capacity then pure v
  else do
    let newData ← Slice.make v.size newCapacity
    let src ← v.data.window 0 v.size
    let newData := newData.copyInto ⟨0, newData.len⟩ (v.data.read src)
    pure ⟨newData, v.size, newCapacity⟩

def Reserve (v : Vector α) (newCapacity : Int) : Except Panic (Vector α) :=
  if newCapacity ≤ v.capacity then pure v
  else v.reserve newCapacity

def PushBack (rt : Runtime) (v : Vector α) (value : α) : Except Panic (Vector α) := do
  let v ← if v.size = v.capacity then v.Reserve v.growCapacity else pure v
  let data := v.data.append rt [value]
  pure ⟨data, v.size + 1, data.cap⟩

def PopBack (v : Vector α) : Except Panic (Vector α × Option String) :=
  if v.size = 0 then pure (v, some errEmpty)
  else do
    let size := v.size - 1
    let data ← v.data.reslice size
    pure (⟨data, size, v.capacity⟩, none)

def Insert (rt : Runtime) (v : Vector α) (index : Int) (value : α) :
    Except Panic (Vector α × Option String) :=
  if index < 0 ∨ index > v.size then pure (v, some errOutOfRange)
  else do
    let v ← if v.size = v.capacity then v.Reserve v.growCapacity else pure v
    let data := v.data.append rt [default]
    let dst ← data.window (index + 1) data.len
    let src ← data.window index v.size
    let data := data.copyInto dst (data.read src)
    let data ← data.setIndex index value
    pure (⟨data, v.size + 1, v.capacity⟩, none)

def Erase (v : Vector α) (index : Int) : Except Panic (Vector α × Option String) :=
  if index < 0 ∨ index ≥ v.size then pure (v, some errOutOfRange)
  else do
    let dst ← v.data.window index v.data.len
    let src ← v.data.window (index + 1) v.size
    let data := v.data.copyInto dst (v.data.read src)
    let size := v.size - 1
    let data ← data.reslice size
    pure (⟨data, size, v.capacity⟩, none)

def Clear (v : Vector α) : Except Panic (Vector α) := do
  let data ← v.data.reslice 0
  pure ⟨data, 0, v.capacity⟩

def Resize (v : Vector α) (newSize : Int) (value : α) : Except Panic (Vector α) := do
  let newSize := if newSize < 0 then 0 else newSize
  if newSize ≤ v.size then
    let data ← v.data.reslice newSize
    pure ⟨data, newSize, v.capacity⟩
  else
    let v ← if newSize > v.capacity then v.Reserve newSize else pure v
    let oldSize := v.size
    let data ← v.data.reslice newSize
    let data ← Slice.fillLoop value (newSize - oldSize).toNat oldSize data
    pure ⟨data, newSize, v.capacity⟩

/-- The method `Swap`: the pair is the receiver and `other` after the call. -/
def Swap (v other : Vector α) : Vector α × Vector α :=
  (⟨other.data, other.size, other.capacity⟩, ⟨v.data, v.size, v.capacity⟩)

def Assign (rt : Runtime) (_v : Vector α) (values : List α) : Vector α :=
  let copy := Slice.nil.append rt values
  ⟨copy, copy.len, copy.len⟩

def Begin (_v : Vector α) : Int := 0

def End (v : Vector α) : Int := v.size

/-- The representation invariant of the vector: the backing slice has exactly
`size` elements, and the recorded capacity lies between the size and the capacity
of the backing array. -/
def Inv (v : Vector α) : Prop :=
  (v.data.len : Int) = v.size ∧ v.size ≤ v.capacity ∧ v.capacity ≤ (v.data.cap : Int)

/-- The calls `PushBack(x_0)`, ..., `PushBack(x_{n-1})` in order. -/
def pushAll (rt : Runtime) (v : Vector α) (xs : List α) : Except Panic (Vector α) :=
  xs.foldlM (fun w x => w.PushBack rt x) v

/-- The capacities `Capacity()` reports after each of the calls `PushBack(x_0)`, ...,
`PushBack(x_{n-1})`. -/
def capacityTrace (rt : Runtime) : Vector α → List α → Except Panic (List Int)
  | _, [] => pure []
  | v, x :: xs => do
    let w ← v.PushBack rt x
    let cs ← capacityTrace rt w xs
    pure (w.Capacity :: cs)

/-- The live sequence: the elements of the slice `Data()` returns. -/
def live (v : Vector α) : Except Panic (List α) :=
  v.Data.map Slice.elems

/-- The recorded capacity is that of the array, and it is 0 on the empty vector or
else a power of two less than twice the size. -/
def Doubled (v : Vector α) : Prop :=
  v.capacity = (v.data.cap : Int) ∧
    ((v.size = 0 ∧ v.capacity = 0) ∨ ∃ k : Nat, v.capacity = 2 ^ k ∧ v.capacity < 2 * v.size)

end Vector

/-- The options the package offers. -/
inductive Builtin (rt : Runtime) : VOption α → Prop
  | withCapacity (capacity : Int) : Builtin rt (WithCapacity capacity)
  | withValues (values : List α) : Builtin rt (WithValues rt values)
  | withSize (size : Int) (defaultValue : α) : Builtin rt (WithSize size defaultValue)
  | withFill (count : Int) (value : α) : Builtin rt (WithFill count value)
  | fromSlice (slice : List α) : Builtin rt (FromSlice rt slice)

/-- The vectors a program can hold: the results of `New` on options of the package,
and what the mutating methods make of such vectors.  A method that returns an error
returns the vector it leaves behind as well. -/
inductive Reachable (rt : Runtime) : Vector α → Prop
  | new (options : List (VOption α)) (v : Vector α) :
      (∀ o ∈ options, Builtin rt o) → New options = .ok v → Reachable rt v
  | pushBack (v w : Vector α) (x : α) :
      Reachable rt v → v.PushBack rt x = .ok w → Reachable rt w
  | popBack (v w : Vector α) (e : Option String) :
      Reachable rt v → v.PopBack = .ok (w, e) → Reachable rt w
  | insert (v w : Vector α) (index : Int) (x : α) (e : Option String) :
      Reachable rt v → v.Insert rt index x = .ok (w, e) → Reachable rt w
  | erase (v w : Vector α) (index : Int) (e : Option String) :
      Reachable rt v → v.Erase index = .ok (w, e) → Reachable rt w
  | clear (v w : Vector α) : Reachable rt v → v.Clear = .ok w → Reachable rt w
  | reserve (v w : Vector α) (n : Int) :
      Reachable rt v → v.Reserve n = .ok w → Reachable rt w
  | resize (v w : Vector α) (n : Int) (x : α) :
      Reachable rt v → v.Resize n x = .ok w → Reachable rt w
  | assign (v : Vector α) (values : List α) :
      Reachable rt v → Reachable rt (v.Assign rt values)
  | swapReceiver (v other : Vector α) :
      Reachable rt v → Reachable rt other → Reachable rt (v.Swap other).1
  | swapOther (v other : Vector α) :
      Reachable rt v → Reachable rt other → Reachable rt (v.Swap other).2

/-! ## The operations on a 64-bit machine

The definitions above read the program over unbounded integers and unbounded memory.
The definitions below add the limits of a 64-bit target: `capacity * 2` wraps around,
`make` refuses a capacity beyond what the allocator can address, and `append` refuses a
length that `int` cannot hold or an array the allocator cannot address.  The methods
that neither allocate nor multiply (`At`, `Front`, `Back`, `Data`, `PopBack`, `Erase`,
`Clear`, `Swap`) are the same under both readings. -/

/-- The largest value of the Go type `int` on a 64-bit target, `2^63 - 1`. -/
def maxInt : Int := 9223372036854775807

/-- Two's-complement wrap-around of 64-bit `int` arithmetic. -/
def wrapInt (x : Int) : Int :=
  (x + 9223372036854775808) % 18446744073709551616 - 9223372036854775808

/-- A 64-bit target for one element type: the policy of `append`, and the largest
number of elements an array of that type may have (the allocator's limit divided by
the element size; every length `int` can hold for elements of size zero).  `make`
and `append` panic on a request beyond it.  Running out of physical memory below
that limit is a fatal error of the run time, not a panic, and is not modelled. -/
structure Machine extends Runtime where
  maxElems : Nat
  maxElems_pos : 1 ≤ maxElems
  maxElems_le : (maxElems : Int) ≤ maxInt

/-- Elements of size zero, such as `struct{}`: an array may have any length `int` can
hold, and `append` allocates exactly the length needed. -/
def unitMachine : Machine where
  toRuntime := exactRuntime
  maxElems := 9223372036854775807
  maxElems_pos := by decide
  maxElems_le := by decide

/-- Elements of 8 bytes, such as `int`, on linux/amd64: an array may not exceed
`2^48` bytes, that is `2^45` elements. -/
def intMachine : Machine where
  toRuntime := sizeClassRuntime
  maxElems := 35184372088832
  maxElems_pos := by decide
  maxElems_le := by decide

namespace Machine

/-- The built-in `make([]T, len, cap)` with the limit of the allocator. -/
def make (m : Machine) (len cap : Int) : Except Panic (Slice α) :=
  if len < 0 ∨ cap < len ∨ cap > (m.maxElems : Int) then .error .makeslice
  else .ok ⟨List.replicate cap.toNat default, len.toNat⟩

/-- The built-in `append(s, vs...)` with the limits of `int` and of the allocator. -/
def append (m : Machine) (s : Slice α) (vs : List α) : Except Panic (Slice α) :=
  if s.len + vs.length ≤ s.cap then
    .ok ⟨writeAt s.arr s.len vs, s.len + vs.length⟩
  else
    let n := s.len + vs.length
    if (n : Int) > maxInt ∨ m.appendCap s.cap n > m.maxElems then .error .growslice
    else .ok ⟨s.elems ++ vs ++ List.replicate (m.appendCap s.cap n - n) default, n⟩

/-- The option `WithCapacity(capacity)`, with the `make` of the machine. -/
def WithCapacity (m : Machine) (capacity : Int) : VOption α := fun _ => do
  let capacity := if capacity < 0 then 0 else capacity
  let d ← m.make 0 capacity
  pure ⟨d, 0, capacity⟩

/-- The option `WithValues(values...)`, with the `append` of the machine. -/
def WithValues (m : Machine) (values : List α) : VOption α := fun _ => do
  let copy ← m.append Slice.nil values
  pure ⟨copy, copy.len, copy.len⟩

/-- The option `WithSize(size, defaultValue)`, with the `make` of the machine. -/
def WithSize (m : Machine) (size : Int) (defaultValue : α) : VOption α := fun _ => do
  let size := if size < 0 then 0 else size
  let d ← m.make size size
  let d ← Slice.fillLoop defaultValue (size - 0).toNat 0 d
  pure ⟨d, size, size⟩

/-- The option `WithFill(count, value)`, with the `make` of the machine. -/
def WithFill (m : Machine) (count : Int) (value : α) : VOption α := fun _ => do
  let count := if count < 0 then 0 else count
  let d ← m.make count count
  let d ← Slice.fillLoop value (count - 0).toNat 0 d
  pure ⟨d, count, count⟩

/-- The option `FromSlice(slice)`, with the `append` of the machine. -/
def FromSlice (m : Machine) (slice : List α) : VOption α := fun _ => do
  let copy ← m.append Slice.nil slice
  pure ⟨copy, copy.len, copy.len⟩

/-- The constructor `New(options...)`: the options are applied in order, and a panic
of one of them ends the construction. -/
def New (m : Machine) (options : List (VOption α)) : Except Panic (Vector α) := do
  let d ← m.make 0 0
  options.foldlM (fun v option => option v) ⟨d, 0, 0⟩

/-- The method `growCapacity`: `capacity * 2` is computed in 64-bit `int` and wraps
around. -/
def growCapacity (_m : Machine) (v : Vector α) : Int :=
  if v.capacity = 0 then 1 else wrapInt (v.capacity * 2)

/-- The method `reserve`, with the `make` of the machine. -/
def reserve (m : Machine) (v : Vector α) (newCapacity : Int) : Except Panic (Vector α) :=
  if newCapacity ≤ v.capacity then pure v
  else do
    let newData ← m.make v.size newCapacity
    let src ← v.data.window 0 v.size
    let newData := newData.copyInto ⟨0, newData.len⟩ (v.data.read src)
    pure ⟨newData, v.size, newCapacity⟩

/-- The method `Reserve`. -/
def Reserve (m : Machine) (v : Vector α) (newCapacity : Int) : Except Panic (Vector α) :=
  if newCapacity ≤ v.capacity then pure v
  else m.reserve v newCapacity

/-- The method `PushBack`: `Reserve` when full, `append`, `size++`, and the capacity
read back from the array. -/
def PushBack (m : Machine) (v : Vector α) (value : α) : Except Panic (Vector α) := do
  let v ← if v.size = v.capacity then m.Reserve v (m.growCapacity v) else pure v
  let data ← m.append v.data [value]
  pure ⟨data, wrapInt (v.size + 1), data.cap⟩

/-- The method `Insert`: `Reserve` when full, `append` of a zero value, the shift of
the tail by `copy`, the store at `index`, and `size++`; the capacity is not read
back. -/
def Insert (m : Machine) (v : Vector α) (index : Int) (value : α) :
    Except Panic (Vector α × Option String) :=
  if index < 0 ∨ index > v.size then pure (v, some errOutOfRange)
  else do
    let v ← if v.size = v.capacity then m.Reserve v (m.growCapacity v) else pure v
    let data ← m.append v.data [default]
    let dst ← data.window (wrapInt (index + 1)) data.len
    let src ← data.window index v.size
    let data := data.copyInto dst (data.read src)
    let data ← data.setIndex index value
    pure (⟨data, wrapInt (v.size + 1), v.capacity⟩, none)

/-- The method `Resize`, with the `Reserve` of the machine. -/
def Resize (m : Machine) (v : Vector α) (newSize : Int) (value : α) :
    Except Panic (Vector α) := do
  let newSize := if newSize < 0 then 0 else newSize
  if newSize ≤ v.size then
    let data ← v.data.reslice newSize
    pure ⟨data, newSize, v.capacity⟩
  else
    let v ← if newSize > v.capacity then m.Reserve v newSize else pure v
    let oldSize := v.size
    let data ← v.data.reslice newSize
    let data ← Slice.fillLoop value (newSize - oldSize).toNat oldSize data
    pure ⟨data, newSize, v.capacity⟩

/-- The method `Assign`, with the `append` of the machine. -/
def Assign (m : Machine) (_v : Vector α) (values : List α) : Except Panic (Vector α) := do
  let copy ← m.append Slice.nil values
  pure ⟨copy, copy.len, copy.len⟩

/-- What holds of every vector a program on the machine can hold: the backing slice
has exactly `size` elements, and the recorded capacity is at most the capacity of the
array, which is within the limit of the allocator. -/
def Inv (m : Machine) (v : Vector α) : Prop :=
  (v.data.len : Int) = v.size ∧ v.data.len ≤ v.data.cap ∧ 0 ≤ v.capacity ∧
    v.capacity ≤ (v.data.cap : Int) ∧ v.data.cap ≤ m.maxElems

/-- The options the package offers, on the machine. -/
inductive Builtin (m : Machine) : VOption α → Prop
  | withCapacity (capacity : Int) : Builtin m (m.WithCapacity capacity)
  | withValues (values : List α) : Builtin m (m.WithValues values)
  | withSize (size : Int) (defaultValue : α) : Builtin m (m.WithSize size defaultValue)
  | withFill (count : Int) (value : α) : Builtin m (m.WithFill count value)
  | fromSlice (slice : List α) : Builtin m (m.FromSlice slice)

/-- The options whose array is within the limit of the allocator. -/
inductive Fits (m : Machine) : VOption α → Prop
  | withCapacity (capacity : Int) :
      capacity ≤ (m.maxElems : Int) → Fits m (m.WithCapacity capacity)
  | withValues (values : List α) :
      m.appendCap 0 values.length ≤ m.maxElems → Fits m (m.WithValues values)
  | withSize (size : Int) (defaultValue : α) :
      size ≤ (m.maxElems : Int) → Fits m (m.WithSize size defaultValue)
  | withFill (count : Int) (value : α) :
      count ≤ (m.maxElems : Int) → Fits m (m.WithFill count value)
  | fromSlice (slice : List α) :
      m.appendCap 0 slice.length ≤ m.maxElems → Fits m (m.FromSlice slice)

/-- The vectors a program on the machine can hold: the results of `New` on options of
the package, and what the mutating methods make of such vectors when they return. -/
inductive Reachable (m : Machine) : Vector α → Prop
  | new (options : List (VOption α)) (v : Vector α) :
      (∀ o ∈ options, Builtin m o) → m.New options = .ok v → Reachable m v
  | pushBack (v w : Vector α) (x : α) :
      Reachable m v → m.PushBack v x = .ok w → Reachable m w
  | popBack (v w : Vector α) (e : Option String) :
      Reachable m v → v.PopBack = .ok (w, e) → Reachable m w
  | insert (v w : Vector α) (index : Int) (x : α) (e : Option String) :
      Reachable m v → m.Insert v index x = .ok (w, e) → Reachable m w
  | erase (v w : Vector α) (index : Int) (e : Option String) :
      Reachable m v → v.Erase index = .ok (w, e) → Reachable m w
  | clear (v w : Vector α) : Reachable m v → v.Clear = .ok w → Reachable m w
  | reserve (v w : Vector α) (n : Int) :
      Reachable m v → m.Reserve v n = .ok w → Reachable m w
  | resize (v w : Vector α) (n : Int) (x : α) :
      Reachable m v → m.Resize v n x = .ok w → Reachable m w
  | assign (v w : Vector α) (values : List α) :
      Reachable m v → m.Assign v values = .ok w → Reachable m w
  | swapReceiver (v other : Vector α) :
      Reachable m v → Reachable m other → Reachable m (v.Swap other).1
  | swapOther (v other : Vector α) :
      Reachable m v → Reachable m other → Reachable m (v.Swap other).2

/-- The vector has room for one more element, or is full and can double: the doubled
capacity is within the limit of the allocator. -/
def CanGrow (m : Machine) (v : Vector α) : Prop :=
  v.size < v.capacity ∨ (v.size = v.capacity ∧ 2 * v.capacity ≤ (m.maxElems : Int))

end Machine

/-! ## Lemmas on arrays and slices -/

theorem length_writeAt (arr : List α) (off : Nat) (xs : List α)
    (h : off + xs.length ≤ arr.length) : (writeAt arr off xs).length = arr.length := by
  simp [writeAt]; omega

theorem getElem?_writeAt (arr : List α) (off : Nat) (xs : List α)
    (h : off + xs.length ≤ arr.length) (j : Nat) :
    (writeAt arr off xs)[j]? =
      if j < off then arr[j]? else if j < off + xs.length then xs[j - off]? else arr[j]? := by
  unfold writeAt
  by_cases h1 : j < off
  · rw [if_pos h1, List.append_assoc, List.getElem?_append_left (by simp; omega),
      List.getElem?_take_of_lt h1]
  · rw [if_neg h1]
    have hl : (List.take off arr).length = off := by simp; omega
    by_cases h2 : j < off + xs.length
    · rw [if_pos h2, List.getElem?_append_left (by simp; omega),
        List.getElem?_append_right (by simp; omega), hl]
    · rw [if_neg h2, List.getElem?_append_right (by simp; omega), List.getElem?_drop]
      congr 1
      simp
      omega

theorem Slice.append_len (rt : Runtime) (s : Slice α) (vs : List α) :
    (s.append rt vs).len = s.len + vs.length := by
  unfold Slice.append; split <;> rfl

theorem Slice.append_elems (rt : Runtime) (s : Slice α) (vs : List α) (h : s.len ≤ s.cap) :
    (s.append rt vs).elems = s.elems ++ vs := by
  unfold Slice.append Slice.elems Slice.cap at *
  split
  · rename_i h1
    simp only [writeAt]
    rw [List.append_assoc, List.take_append_eq_append_take]
    have e1 : (List.take s.len s.arr).length = s.len := by simp; omega
    rw [e1, List.take_take, Nat.min_eq_right (Nat.le_add_right _ _),
      Nat.add_sub_cancel_left, List.take_left']
    rfl
  · simp only []
    have hl : (List.take s.len s.arr ++ vs).length = s.len + vs.length := by simp; omega
    rw [List.take_append_eq_append_take, hl]
    simp

theorem Slice.append_cap_le (rt : Runtime) (s : Slice α) (vs : List α) (h : s.len ≤ s.cap) :
    s.cap ≤ (s.append rt vs).cap ∧ (s.append rt vs).len ≤ (s.append rt vs).cap := by
  unfold Slice.append Slice.elems Slice.cap at *
  have := rt.appendCap_ge s.arr.length (s.len + vs.length)
  split
  · rename_i h1
    simp only []
    rw [length_writeAt _ _ _ h1]
    omega
  · simp
    omega

theorem Slice.append_cap_room (rt : Runtime) (s : Slice α) (vs : List α)
    (h : s.len + vs.length ≤ s.cap) : (s.append rt vs).cap = s.cap := by
  unfold Slice.append Slice.cap at *
  rw [if_pos h]
  exact length_writeAt _ _ _ h

theorem Vector.reserve_spec (v : Vector α) (n : Int) (hv : v.Inv) (hn : v.capacity < n) :
    ∃ w, v.reserve n = .ok w ∧ w.size = v.size ∧ w.capacity = n ∧ (w.data.cap : Int) = n ∧
      w.data.len = v.data.len ∧ w.data.elems = v.data.elems := by
  obtain ⟨⟨A, l⟩, sz, cp⟩ := v
  obtain ⟨h1, h2, h3⟩ := hv
  simp only [Slice.cap] at h1 h2 h3 hn
  subst h1
  have hmk : ¬ ((l : Int) < 0 ∨ n < (l : Int)) := by omega
  have hw : (0 : Int) ≤ 0 ∧ (0 : Int) ≤ (l : Int) ∧ (l : Int) ≤ (A.length : Int) := by omega
  have hr : ¬ (n ≤ cp) := by omega
  refine ⟨⟨⟨writeAt (List.replicate n.toNat default) 0
      ((List.take (l - 0) (List.drop 0 A)).take (l - 0)), l⟩, l, n⟩, ?_, rfl, rfl, ?_, rfl, ?_⟩
  · simp [Vector.reserve, Slice.make, Slice.window, Slice.copyInto, Slice.read, Slice.cap,
      hmk, hw, hr, bind, Except.bind, pure, Except.pure]
  · simp only [Slice.cap]
    rw [length_writeAt]
    · simp; omega
    · simp; omega
  · simp only [Slice.elems]
    apply List.ext_getElem?
    intro j
    rw [List.getElem?_take, List.getElem?_take, getElem?_writeAt _ _ _ (by simp; omega)]
    by_cases hj : j < l
    · have hj2 : j < A.length := by omega
      simp [hj, hj2, List.getElem?_take]
    · simp [hj]

theorem Vector.Reserve_spec (v : Vector α) (n : Int) (hv : v.Inv) :
    ∃ w, v.Reserve n = .ok w ∧ w.Inv ∧ w.size = v.size ∧ w.data.elems = v.data.elems ∧
      (n ≤ v.capacity → w = v) ∧
      (v.capacity < n → w.capacity = n ∧ (w.data.cap : Int) = n) := by
  by_cases h : n ≤ v.capacity
  · refine ⟨v, ?_, hv, rfl, rfl, fun _ => rfl, fun h2 => absurd h (by omega)⟩
    simp [Vector.Reserve, h, pure, Except.pure]
  · obtain ⟨w, e, h1, h2, h3, h4, h5⟩ := Vector.reserve_spec v n hv (by omega)
    refine ⟨w, ?_, ?_, h1, h5, fun h2 => absurd h2 h, fun _ => ⟨h2, h3⟩⟩
    · simp [Vector.Reserve, h, e]
    · obtain ⟨a, b, c⟩ := hv
      refine ⟨?_, ?_, ?_⟩ <;> omega

/-- The first step of `PushBack` and `Insert`: make room when the vector is full. -/
theorem Vector.grow_spec (v : Vector α) (hv : v.Inv) :
    ∃ w, (if v.size = v.capacity then v.Reserve v.growCapacity else pure v) = Except.ok w ∧
      w.Inv ∧ w.size = v.size ∧ w.data.elems = v.data.elems ∧ w.size < w.capacity ∧
      (v.size ≠ v.capacity → w = v) ∧
      (v.size = v.capacity → w.capacity = v.growCapacity ∧ (w.data.cap : Int) = v.growCapacity) := by
  by_cases h : v.size = v.capacity
  · obtain ⟨w, e, h1, h2, h3, _, h5⟩ := Vector.Reserve_spec v v.growCapacity hv
    have hg : v.capacity < v.growCapacity := by
      obtain ⟨a, b, c⟩ := hv
      unfold Vector.growCapacity
      split <;> omega
    refine ⟨w, ?_, h1, h2, h3, ?_, fun h' => absurd h h', fun _ => h5 hg⟩
    · simp [h, e]
    · have := (h5 hg).1
      omega
  · refine ⟨v, ?_, hv, rfl, rfl, ?_, fun _ => rfl, fun h' => absurd h' h⟩
    · simp [h, pure, Except.pure]
    · obtain ⟨a, b, c⟩ := hv
      omega

theorem Vector.PushBack_eq (rt : Runtime) (v : Vector α) (x : α) :
    v.PushBack rt x =
      (if v.size = v.capacity then v.Reserve v.growCapacity else pure v) >>= fun u =>
        pure ⟨u.data.append rt [x], u.size + 1, (u.data.append rt [x]).cap⟩ := by
  unfold Vector.PushBack
  split <;> rfl

theorem Vector.PushBack_spec (rt : Runtime) (v : Vector α) (x : α) (hv : v.Inv) :
    ∃ w, v.PushBack rt x = .ok w ∧ w.Inv ∧ w.size = v.size + 1 ∧
      w.data.elems = v.data.elems ++ [x] ∧ w.capacity = (w.data.cap : Int) ∧
      (v.size = v.capacity → w.capacity = v.growCapacity) ∧
      (v.size ≠ v.capacity → w.capacity = (v.data.cap : Int)) := by
  obtain ⟨u, e, hu, h1, h2, h3, h4, h5⟩ := Vector.grow_spec v hv
  obtain ⟨a, b, c⟩ := hu
  have hroom : u.data.len + [x].length ≤ u.data.cap := by simp; omega
  have hcap := Slice.append_cap_room rt u.data [x] hroom
  have hlen := Slice.append_len rt u.data [x]
  have hel := Slice.append_elems rt u.data [x] (by omega)
  refine ⟨⟨u.data.append rt [x], u.size + 1, (u.data.append rt [x]).cap⟩, ?_, ?_, ?_, ?_, rfl, ?_, ?_⟩
  · rw [Vector.PushBack_eq, e]
    rfl
  · refine ⟨?_, ?_, ?_⟩
    · simp only [hlen]; simp; omega
    · simp only [hcap]; omega
    · exact le_refl _
  · simp only [h1]
  · simp only [hel, h2]
  · intro h
    simp only [hcap]
    have := h5 h
    omega
  · intro h
    have := h4 h
    subst this
    simp only [hcap]

theorem Vector.PopBack_spec (v : Vector α) (hv : v.Inv) (hs : v.size ≠ 0) :
    ∃ w, v.PopBack = .ok (w, none) ∧ w.Inv ∧ w.size = v.size - 1 ∧
      w.capacity = v.capacity ∧ w.data.arr = v.data.arr ∧
      w.data.elems = v.data.elems.take (v.size - 1).toNat := by
  obtain ⟨⟨A, l⟩, sz, cp⟩ := v
  obtain ⟨h1, h2, h3⟩ := hv
  simp only [Slice.cap] at h1 h2 h3 hs
  subst h1
  have hb : (0 : Int) ≤ (l : Int) - 1 ∧ (l : Int) - 1 ≤ (A.length : Int) := by omega
  refine ⟨⟨⟨A, ((l : Int) - 1).toNat⟩, (l : Int) - 1, cp⟩, ?_, ?_, rfl, rfl, rfl, ?_⟩
  · simp [Vector.PopBack, hs, Slice.reslice, Slice.cap, hb, bind, Except.bind, pure, Except.pure]
  · refine ⟨?_, ?_, ?_⟩ <;> simp only [Slice.cap] <;> omega
  · simp only [Slice.elems, List.take_take]
    congr 1
    omega

theorem Vector.Insert_eq (rt : Runtime) (v : Vector α) (index : Int) (x : α)
    (h : ¬ (index < 0 ∨ index > v.size)) :
    v.Insert rt index x =
      ((if v.size = v.capacity then v.Reserve v.growCapacity else pure v) >>= fun u => do
        let data := u.data.append rt [default]
        let dst ← data.window (index + 1) data.len
        let src ← data.window index u.size
        let data := data.copyInto dst (data.read src)
        let data ← data.setIndex index x
        pure (⟨data, u.size + 1, u.capacity⟩, none)) := by
  unfold Vector.Insert
  rw [if_neg h]
  split <;> rfl

/-- `Insert` on a full vector is `Insert` on the vector the growth step returns. -/
theorem Vector.Insert_grow (rt : Runtime) (v u : Vector α) (index : Int) (x : α)
    (h : ¬ (index < 0 ∨ index > v.size))
    (e : (if v.size = v.capacity then v.Reserve v.growCapacity else pure v) = Except.ok u)
    (h1 : u.size = v.size) (h2 : u.size < u.capacity) :
    v.Insert rt index x = u.Insert rt index x := by
  rw [Vector.Insert_eq rt v index x h, Vector.Insert_eq rt u index x (by rw [h1]; exact h), e,
    if_neg (by omega)]
  rfl

theorem Vector.Insert_room (rt : Runtime) (u : Vector α) (index : Int) (x : α) (hu : u.Inv)
    (h0 : 0 ≤ index) (h1 : index ≤ u.size) (g3 : u.size < u.capacity) :
    ∃ w, u.Insert rt index x = .ok (w, none) ∧ w.Inv ∧ w.size = u.size + 1 ∧
      w.data.elems = u.data.elems.take index.toNat ++ x :: u.data.elems.drop index.toNat ∧
      w.capacity = u.capacity := by
  rw [Vector.Insert_eq rt u index x (by omega), if_neg (by omega)]
  obtain ⟨⟨A, l⟩, sz, cp⟩ := u
  obtain ⟨a, b, c⟩ := hu
  simp only [Slice.cap] at a b c g3 h1 ⊢
  subst a
  lift index to ℕ using h0
  have hl : l < A.length := by omega
  have hi : index ≤ l := by omega
  have happ : Slice.append rt ⟨A, l⟩ [default] = ⟨writeAt A l [default], l + 1⟩ := by
    simp [Slice.append, Slice.cap]; omega
  have hlen1 : (writeAt A l [default]).length = A.length := length_writeAt _ _ _ (by simp; omega)
  have hw1 : (0 : Int) ≤ (index : Int) + 1 ∧ (index : Int) + 1 ≤ ((l : Int) + 1)
      ∧ ((l : Int) + 1) ≤ (A.length : Int) := by omega
  have hw2 : (0 : Int) ≤ (index : Int) ∧ (index : Int) ≤ (l : Int)
      ∧ (l : Int) ≤ (A.length : Int) := by omega
  have hlen2 : (writeAt (writeAt A l [default]) (index + 1)
      (List.take (l - index)
        ((List.drop index (writeAt A l [default])).take (l - index)))).length = A.length := by
    rw [length_writeAt, hlen1]
    simp [hlen1]; omega
  have hs : (index : Int) < (l : Int) + 1 ∧ (index : Int) < (A.length : Int) := by omega
  refine ⟨⟨⟨(writeAt (writeAt A l [default]) (index + 1)
      (List.take (l - index)
        ((List.drop index (writeAt A l [default])).take (l - index)))).set index x, l + 1⟩,
      (l : Int) + 1, cp⟩, ?_, ?_, ?_, ?_, ?_⟩
  · simp only [bind, Except.bind, pure, Except.pure, happ, Slice.window, Slice.cap, hlen1,
      Slice.copyInto, Slice.read, Slice.setIndex, hlen2]
    simp only [Nat.cast_add, Nat.cast_one, hw1, hw2, hs, and_self, if_true]
    simp only [Int.toNat_ofNat, Int.toNat_natCast, Nat.add_sub_add_right]
    have e1 : ((index : Int) + 1).toNat = index + 1 := by omega
    have e2 : ((l : Int) + 1).toNat = l + 1 := by omega
    simp only [e1, e2, Nat.add_sub_add_right, hlen2, hs, and_self, if_true]
  · refine ⟨?_, ?_, ?_⟩
    · simp
    · simp only []; omega
    · simp only [Slice.cap, List.length_set, hlen2]; omega
  · rfl
  · simp only [Slice.elems]
    apply List.ext_getElem?
    intro j
    simp only [Int.toNat_ofNat, Int.toNat_natCast]
    have hsrc : (List.take (l - index)
        ((List.drop index (writeAt A l [default])).take (l - index))).length = l - index := by
      simp [hlen1]; omega
    rw [List.getElem?_take, List.getElem?_set, hlen2,
      getElem?_writeAt _ _ _ (by rw [hsrc, hlen1]; omega), hsrc,
      getElem?_writeAt _ _ _ (by simp; omega), List.getElem?_append, List.getElem?_take,
      List.getElem?_take]
    simp only [List.length_take, List.length_cons, List.length_nil, List.getElem?_take,
      List.getElem?_drop, getElem?_writeAt A l [default] (by simp; omega)]
    have hm : index ⊓ (l ⊓ A.length) = index := by omega
    rw [hm]
    rcases Nat.lt_trichotomy j index with h | h | h
    · have c1 : j < l + 1 := by omega
      have c2 : ¬ index = j := by omega
      have c3 : j < index + 1 := by omega
      have c4 : j < l := by omega
      simp only [c1, c2, c3, c4, h, if_true, if_false]
    · subst h
      have c1 : j < l + 1 := by omega
      have c2 : j < A.length := by omega
      simp only [c1, c2, if_true, Nat.lt_irrefl, if_false, Nat.sub_self,
        List.getElem?_cons_zero]
    · by_cases hj : j < l + 1
      · have c2 : ¬ index = j := by omega
        have c3 : ¬ j < index + 1 := by omega
        have c4 : j < index + 1 + (l - index) := by omega
        have c5 : j - (index + 1) < l - index := by omega
        have c6 : index + (j - (index + 1)) < l := by omega
        have c7 : ¬ j < index := by omega
        obtain ⟨k, rfl⟩ : ∃ k, j = index + 1 + k := ⟨j - (index + 1), by omega⟩
        have c8 : index + 1 + k - index = k + 1 := by omega
        have c9 : index + (index + 1 + k - (index + 1)) = index + k := by omega
        have c10 : index + k < l := by omega
        simp only [hj, c2, c3, c4, c5, c6, c7, c8, c9, c10, if_true, if_false,
          List.getElem?_cons_succ, List.getElem?_drop, List.getElem?_take]
      · have c7 : ¬ j < index := by omega
        simp only [hj, c7, if_false]
        symm
        rw [List.getElem?_eq_none_iff]
        simp
        omega
  · rfl

theorem Vector.Insert_spec (rt : Runtime) (v : Vector α) (index : Int) (x : α) (hv : v.Inv)
    (h0 : 0 ≤ index) (h1 : index ≤ v.size) :
    ∃ w, v.Insert rt index x = .ok (w, none) ∧ w.Inv ∧ w.size = v.size + 1 ∧
      w.data.elems = v.data.elems.take index.toNat ++ x :: v.data.elems.drop index.toNat ∧
      (v.size = v.capacity → w.capacity = v.growCapacity) ∧
      (v.size ≠ v.capacity → w.capacity = v.capacity) := by
  obtain ⟨u, e, hu, g1, g2, g3, g4, g5⟩ := Vector.grow_spec v hv
  obtain ⟨w, e2, hw, k1, k2, k3⟩ := Vector.Insert_room rt u index x hu h0 (by omega) g3
  refine ⟨w, ?_, hw, by omega, by rw [k2, g2], ?_, ?_⟩
  · rw [Vector.Insert_grow rt v u index x (by omega) e g1 g3, e2]
  · intro h
    rw [k3, (g5 h).1]
  · intro h
    rw [k3, g4 h]

theorem Vector.Erase_spec (v : Vector α) (index : Int) (hv : v.Inv)
    (h0 : 0 ≤ index) (h1 : index < v.size) :
    ∃ w, v.Erase index = .ok (w, none) ∧ w.Inv ∧ w.size = v.size - 1 ∧
      w.data.elems = v.data.elems.eraseIdx index.toNat ∧ w.capacity = v.capacity := by
  obtain ⟨⟨A, l⟩, sz, cp⟩ := v
  obtain ⟨a, b, c⟩ := hv
  simp only [Slice.cap] at a b c h1 ⊢
  subst a
  lift index to ℕ using h0
  have hi : index < l := by omega
  have hc : ¬ ((index : Int) < 0 ∨ (index : Int) ≥ (l : Int)) := by omega
  have hw1 : (0 : Int) ≤ (index : Int) ∧ (index : Int) ≤ (l : Int)
      ∧ (l : Int) ≤ (A.length : Int) := by omega
  have hw2 : (0 : Int) ≤ (index : Int) + 1 ∧ (index : Int) + 1 ≤ (l : Int)
      ∧ (l : Int) ≤ (A.length : Int) := by omega
  have e1 : ((index : Int) + 1).toNat = index + 1 := by omega
  have e2 : ((l : Int) - 1).toNat = l - 1 := by omega
  have hsrc : (List.take (l - index)
      ((List.drop (index + 1) A).take (l - (index + 1)))).length = l - (index + 1) := by
    simp; omega
  have hlen2 : (writeAt A index (List.take (l - index)
      ((List.drop (index + 1) A).take (l - (index + 1))))).length = A.length := by
    rw [length_writeAt]
    rw [hsrc]; omega
  have hr : (0 : Int) ≤ (l : Int) - 1 ∧ (l : Int) - 1 ≤ (A.length : Int) := by omega
  refine ⟨⟨⟨writeAt A index (List.take (l - index)
      ((List.drop (index + 1) A).take (l - (index + 1)))), l - 1⟩, (l : Int) - 1, cp⟩,
      ?_, ?_, ?_, ?_, ?_⟩
  · simp only [Vector.Erase, hc, if_false, bind, Except.bind, pure, Except.pure, Slice.window,
      Slice.cap, Slice.copyInto, Slice.read, Slice.reslice, hw1, hw2, and_self, if_true,
      Int.toNat_ofNat, Int.toNat_natCast, e1, e2, hlen2, hr]
  · refine ⟨?_, ?_, ?_⟩
    · simp only []; omega
    · simp only []; omega
    · simp only [Slice.cap, hlen2]; omega
  · rfl
  · simp only [Slice.elems, Int.toNat_ofNat, Int.toNat_natCast]
    apply List.ext_getElem?
    intro j
    rw [List.getElem?_take, getElem?_writeAt _ _ _ (by rw [hsrc]; omega), hsrc,
      List.getElem?_eraseIdx]
    simp only [List.getElem?_take, List.getElem?_drop]
    by_cases hj : j < index
    · have c1 : j < l - 1 := by omega
      have c2 : j < l := by omega
      simp only [hj, c1, c2, if_true]
    · by_cases hj2 : j < l - 1
      · have c1 : j < index + (l - (index + 1)) := by omega
        have c2 : j - index < l - index := by omega
        have c3 : j - index < l - (index + 1) := by omega
        have c4 : index + 1 + (j - index) = j + 1 := by omega
        have c5 : j + 1 < l := by omega
        simp only [hj, hj2, c1, c2, c3, c4, c5, if_true, if_false]
      · have c5 : ¬ j + 1 < l := by omega
        simp only [hj, hj2, c5, if_false]
  · rfl

theorem Vector.Clear_spec (v : Vector α) (hv : v.Inv) :
    ∃ w, v.Clear = .ok w ∧ w.Inv ∧ w.size = 0 ∧ w.capacity = v.capacity ∧
      w.data.elems = [] := by
  obtain ⟨a, b, c⟩ := hv
  have hr : (0 : Int) ≤ 0 ∧ (0 : Int) ≤ (v.data.cap : Int) := by omega
  refine ⟨⟨⟨v.data.arr, 0⟩, 0, v.capacity⟩, ?_, ?_, rfl, rfl, ?_⟩
  · simp [Vector.Clear, Slice.reslice, hr, bind, Except.bind, pure, Except.pure]
  · refine ⟨?_, ?_, ?_⟩
    · simp
    · simp only []; omega
    · exact c
  · simp [Slice.elems]

theorem Slice.fillLoop_spec (x : α) (k : Nat) : ∀ (i : Nat) (s : Slice α),
    i + k ≤ s.len → s.len ≤ s.cap →
    Slice.fillLoop x k (i : Int) s = .ok ⟨writeAt s.arr i (List.replicate k x), s.len⟩ := by
  induction k with
  | zero =>
    intro i s _ _
    simp [Slice.fillLoop, writeAt]
  | succ k ih =>
    intro i s h1 h2
    have hb : (0 : Int) ≤ (i : Int) ∧ (i : Int) < (s.len : Int) ∧ (i : Int) < (s.cap : Int) := by
      omega
    have hih := ih (i + 1) ⟨s.arr.set i x, s.len⟩ (by simp only []; omega)
      (by simp only [Slice.cap, List.length_set] at *; omega)
    simp only [Slice.fillLoop, Slice.setIndex, hb, and_self, if_true, bind, Except.bind,
      Int.toNat_ofNat, Int.toNat_natCast]
    rw [show ((i : Int) + 1) = ((i + 1 : Nat) : Int) by push_cast; rfl, hih]
    congr 2
    simp only [Slice.cap] at h2
    apply List.ext_getElem?
    intro j
    rw [getElem?_writeAt _ _ _ (by simp; omega), getElem?_writeAt _ _ _ (by simp; omega)]
    simp only [List.getElem?_set, List.length_replicate, List.getElem?_replicate]
    by_cases c1 : j < i
    · have c2 : j < i + 1 := by omega
      have c3 : ¬ i = j := by omega
      simp only [c1, c2, c3, if_true, if_false]
    · by_cases c2 : j = i
      · subst c2
        have c3 : j < j + 1 := by omega
        have c4 : j < s.arr.length := by omega
        have c5 : j < j + (k + 1) := by omega
        have c6 : j - j < k + 1 := by omega
        simp only [c3, c4, c5, c6, if_true, Nat.lt_irrefl, if_false]
      · have c3 : ¬ j < i + 1 := by omega
        have c4 : ¬ i = j := by omega
        by_cases c5 : j < i + 1 + k
        · have c6 : j < i + (k + 1) := by omega
          have c7 : j - (i + 1) < k := by omega
          have c8 : j - i < k + 1 := by omega
          simp only [c1, c3, c4, c5, c6, c7, c8, if_true, if_false]
        · have c6 : ¬ j < i + (k + 1) := by omega
          simp only [c1, c3, c4, c5, c6, if_false]

theorem Vector.Resize_shrink (v : Vector α) (n : Int) (x : α) (hv : v.Inv)
    (h : (if n < 0 then 0 else n) ≤ v.size) :
    v.Resize n x = .ok ⟨⟨v.data.arr, (if n < 0 then 0 else n).toNat⟩,
      (if n < 0 then 0 else n), v.capacity⟩ := by
  obtain ⟨a, b, c⟩ := hv
  have h0 : (0 : Int) ≤ (if n < 0 then 0 else n) := by split <;> omega
  have hr : (0 : Int) ≤ (if n < 0 then 0 else n) ∧
      (if n < 0 then 0 else n) ≤ (v.data.cap : Int) := by omega
  unfold Vector.Resize
  simp only [h, if_true, Slice.reslice, hr, and_self, bind, Except.bind, pure, Except.pure]

theorem Vector.Resize_eq (v : Vector α) (n : Int) (x : α)
    (h : ¬ (if n < 0 then 0 else n) ≤ v.size) :
    v.Resize n x =
      ((if (if n < 0 then 0 else n) > v.capacity then v.Reserve (if n < 0 then 0 else n)
        else pure v) >>= fun u => do
        let data ← u.data.reslice (if n < 0 then 0 else n)
        let data ← Slice.fillLoop x ((if n < 0 then 0 else n) - u.size).toNat u.size data
        pure ⟨data, (if n < 0 then 0 else n), u.capacity⟩) := by
  unfold Vector.Resize
  simp only [h, if_false]
  by_cases hc : (if n < 0 then 0 else n) > v.capacity
  · simp only [hc, if_true]
  · simp only [hc, if_false]

theorem Vector.Resize_grow (v : Vector α) (n : Int) (x : α) (hv : v.Inv) (h : v.size < n) :
    ∃ w, v.Resize n x = .ok w ∧ w.Inv ∧ w.size = n ∧
      w.data.elems = v.data.elems ++ List.replicate (n - v.size).toNat x ∧
      (n ≤ v.capacity → w.capacity = v.capacity) ∧ (v.capacity < n → w.capacity = n) := by
  have hv0 := hv
  obtain ⟨a, b, c⟩ := hv
  have hn : ¬ n < 0 := by omega
  have hnn : (if n < 0 then 0 else n) = n := by rw [if_neg hn]
  obtain ⟨u, e, hu, g1, g2, g3, g4⟩ := Vector.Reserve_spec v n hv0
  have e2 : (if n > v.capacity then v.Reserve n else pure v) = Except.ok u := by
    by_cases hc : n > v.capacity
    · rw [if_pos hc, e]
    · rw [if_neg hc, g3 (by omega)]; rfl
  rw [Vector.Resize_eq v n x (by rw [hnn]; omega), hnn, e2]
  have hcap : (n ≤ v.capacity → u.capacity = v.capacity) ∧ (v.capacity < n → u.capacity = n) :=
    ⟨fun h => by rw [g3 h], fun h => (g4 h).1⟩
  have hucap : n ≤ u.capacity := by
    by_cases hc : n ≤ v.capacity
    · rw [hcap.1 hc]; exact hc
    · rw [hcap.2 (by omega)]
  rw [← g2, ← g1]
  rw [← g1] at h
  clear e e2 g1 g2 g3 g4 hv0 a b c
  obtain ⟨⟨A, l⟩, sz, cp⟩ := u
  obtain ⟨a, b, c⟩ := hu
  simp only [Slice.cap] at a b c h hucap hcap ⊢
  subst a
  lift n to ℕ using (by omega)
  have hr : (0 : Int) ≤ (n : Int) ∧ (n : Int) ≤ (A.length : Int) := by omega
  have hk : ((n : Int) - (l : Int)).toNat = n - l := by omega
  have hfill := Slice.fillLoop_spec x (n - l) l ⟨A, n⟩ (by simp only []; omega)
    (by simp only [Slice.cap]; omega)
  have hlen : (writeAt A l (List.replicate (n - l) x)).length = A.length :=
    length_writeAt _ _ _ (by simp; omega)
  refine ⟨⟨⟨writeAt A l (List.replicate (n - l) x), n⟩, n, cp⟩, ?_, ?_, rfl, ?_, hcap⟩
  · simp only [bind, Except.bind, pure, Except.pure, Slice.reslice, Slice.cap, hr, and_self,
      if_true, Int.toNat_ofNat, Int.toNat_natCast, hk, hfill]
  · refine ⟨rfl, ?_, ?_⟩
    · simp only []; omega
    · simp only [Slice.cap, hlen]; omega
  · simp only [Slice.elems, hk]
    apply List.ext_getElem?
    intro j
    rw [List.getElem?_take, getElem?_writeAt _ _ _ (by simp; omega), List.getElem?_append]
    simp only [List.getElem?_take, List.length_take, List.length_replicate,
      List.getElem?_replicate]
    have hm : l ⊓ A.length = l := by omega
    rw [hm]
    by_cases c1 : j < l
    · have c2 : j < n := by omega
      simp only [c1, c2, if_true]
    · by_cases c2 : j < n
      · have c3 : j < l + (n - l) := by omega
        have c4 : j - l < n - l := by omega
        simp only [c1, c2, c3, c4, if_true, if_false]
      · have c4 : ¬ j - l < n - l := by omega
        simp only [c1, c2, c4, if_false]

theorem Vector.Resize_spec (v : Vector α) (n : Int) (x : α) (hv : v.Inv) :
    ∃ w, v.Resize n x = .ok w ∧ w.Inv ∧ v.capacity ≤ w.capacity := by
  by_cases h : (if n < 0 then 0 else n) ≤ v.size
  · refine ⟨_, Vector.Resize_shrink v n x hv h, ?_, le_refl _⟩
    obtain ⟨a, b, c⟩ := hv
    have h0 : (0 : Int) ≤ (if n < 0 then 0 else n) := by split <;> omega
    refine ⟨?_, ?_, ?_⟩
    · simp only []; omega
    · simp only []; omega
    · exact c
  · have hn : (if n < 0 then 0 else n) = n := by
      obtain ⟨a, b, c⟩ := hv
      have hneg : ¬ n < 0 := by
        intro hneg
        rw [if_pos hneg] at h
        omega
      rw [if_neg hneg]
    rw [hn] at h
    obtain ⟨w, e, hw, _, _, k1, k2⟩ := Vector.Resize_grow v n x hv (by omega)
    refine ⟨w, e, hw, ?_⟩
    by_cases hc : n ≤ v.capacity
    · rw [k1 hc]
    · rw [k2 (by omega)]; omega

theorem Slice.nil_append_inv (rt : Runtime) (vs : List α) :
    (⟨Slice.nil.append rt vs, (Slice.nil.append rt vs).len,
      (Slice.nil.append rt vs).len⟩ : Vector α).Inv := by
  refine ⟨rfl, le_refl _, ?_⟩
  have := (Slice.append_cap_le rt (Slice.nil : Slice α) vs (by simp [Slice.nil])).2
  simp only []
  omega

theorem Vector.Assign_inv (rt : Runtime) (v : Vector α) (vs : List α) : (v.Assign rt vs).Inv :=
  Slice.nil_append_inv rt vs

theorem WithCapacity_spec (c : Int) (u : Vector α) :
    WithCapacity c u = .ok ⟨⟨List.replicate (if c < 0 then 0 else c).toNat default, 0⟩, 0,
      (if c < 0 then 0 else c)⟩ := by
  have h0 : (0 : Int) ≤ (if c < 0 then 0 else c) := by split <;> omega
  have hm : ¬ ((0 : Int) < 0 ∨ (if c < 0 then 0 else c) < 0) := by omega
  simp only [WithCapacity, Slice.make, hm, if_false, bind, Except.bind, pure, Except.pure]
  rfl

theorem WithSize_spec (n : Int) (d : α) (u : Vector α) :
    WithSize n d u = .ok ⟨⟨writeAt (List.replicate (if n < 0 then 0 else n).toNat default) 0
      (List.replicate (if n < 0 then 0 else n).toNat d), (if n < 0 then 0 else n).toNat⟩,
      (if n < 0 then 0 else n), (if n < 0 then 0 else n)⟩ := by
  have h0 : (0 : Int) ≤ (if n < 0 then 0 else n) := by split <;> omega
  unfold WithSize
  generalize (if n < 0 then 0 else n) = m at h0 ⊢
  lift m to ℕ using h0
  have hm : ¬ ((m : Int) < 0 ∨ (m : Int) < (m : Int)) := by omega
  have hf := Slice.fillLoop_spec d m 0 ⟨List.replicate m default, m⟩ (by simp)
    (by simp [Slice.cap])
  simp only [Nat.cast_zero] at hf
  simp only [WithSize, Slice.make, hm, if_false, bind, Except.bind, pure, Except.pure,
    Int.toNat_ofNat, Int.toNat_natCast, sub_zero, hf]

theorem WithFill_spec (n : Int) (d : α) (u : Vector α) :
    WithFill n d u = .ok ⟨⟨writeAt (List.replicate (if n < 0 then 0 else n).toNat default) 0
      (List.replicate (if n < 0 then 0 else n).toNat d), (if n < 0 then 0 else n).toNat⟩,
      (if n < 0 then 0 else n), (if n < 0 then 0 else n)⟩ :=
  WithSize_spec n d u

theorem fill_inv (m : Int) (d : α) (h0 : 0 ≤ m) :
    (⟨⟨writeAt (List.replicate m.toNat default) 0 (List.replicate m.toNat d), m.toNat⟩,
      m, m⟩ : Vector α).Inv := by
  refine ⟨?_, le_refl _, ?_⟩
  · simp only []; omega
  · simp only [Slice.cap]
    rw [length_writeAt _ _ _ (by simp)]
    simp

/-! ## The invariant holds in every reachable state -/

theorem Builtin.spec (rt : Runtime) (o : VOption α) (h : Builtin rt o) (u : Vector α) :
    ∃ w, o u = .ok w ∧ w.Inv := by
  cases h with
  | withCapacity c =>
    refine ⟨_, WithCapacity_spec c u, ?_⟩
    have h0 : (0 : Int) ≤ (if c < 0 then 0 else c) := by split <;> omega
    refine ⟨rfl, h0, ?_⟩
    simp only [Slice.cap, List.length_replicate]
    omega
  | withValues vs => exact ⟨_, rfl, Slice.nil_append_inv rt vs⟩
  | withSize n d =>
    exact ⟨_, WithSize_spec n d u, fill_inv _ d (by split <;> omega)⟩
  | withFill n d =>
    exact ⟨_, WithFill_spec n d u, fill_inv _ d (by split <;> omega)⟩
  | fromSlice vs => exact ⟨_, rfl, Slice.nil_append_inv rt vs⟩

theorem foldOptions_spec (rt : Runtime) (options : List (VOption α)) :
    (∀ o ∈ options, Builtin rt o) → ∀ u : Vector α, u.Inv →
    ∃ w, options.foldlM (fun v option => option v) u = Except.ok w ∧ w.Inv := by
  induction options with
  | nil =>
    intro _ u hu
    exact ⟨u, rfl, hu⟩
  | cons o os ih =>
    intro h u _
    obtain ⟨w, e, hw⟩ := Builtin.spec rt o (h o (by simp)) u
    obtain ⟨w2, e2, hw2⟩ := ih (fun o2 ho2 => h o2 (by simp [ho2])) w hw
    refine ⟨w2, ?_, hw2⟩
    rw [List.foldlM_cons, e]
    exact e2

theorem New_eq (options : List (VOption α)) :
    New options = options.foldlM (fun v option => option v) ⟨⟨[], 0⟩, 0, 0⟩ := by
  rfl

theorem New_spec (rt : Runtime) (options : List (VOption α))
    (h : ∀ o ∈ options, Builtin rt o) : ∃ w, New options = Except.ok w ∧ w.Inv := by
  rw [New_eq]
  exact foldOptions_spec rt options h _ ⟨rfl, le_refl _, le_refl _⟩

theorem Vector.PopBack_empty (v : Vector α) (h : v.size = 0) :
    v.PopBack = .ok (v, some errEmpty) := by
  simp [Vector.PopBack, h, pure, Except.pure]

theorem Vector.Insert_range (rt : Runtime) (v : Vector α) (index : Int) (x : α)
    (h : index < 0 ∨ index > v.size) : v.Insert rt index x = .ok (v, some errOutOfRange) := by
  simp [Vector.Insert, h, pure, Except.pure]

theorem Vector.Erase_range (v : Vector α) (index : Int)
    (h : index < 0 ∨ index ≥ v.size) : v.Erase index = .ok (v, some errOutOfRange) := by
  simp only [Vector.Erase, h, if_true, pure, Except.pure]

theorem Reachable.inv (rt : Runtime) (v : Vector α) (h : Reachable rt v) : v.Inv := by
  induction h with
  | new options v hb e =>
    obtain ⟨w, e2, hw⟩ := New_spec rt options hb
    rw [e2] at e
    cases e
    exact hw
  | pushBack v w x _ e ih =>
    obtain ⟨w2, e2, hw, _⟩ := Vector.PushBack_spec rt v x ih
    rw [e2] at e
    cases e
    exact hw
  | popBack v w err _ e ih =>
    by_cases hs : v.size = 0
    · rw [Vector.PopBack_empty v hs] at e
      cases e
      exact ih
    · obtain ⟨w2, e2, hw, _⟩ := Vector.PopBack_spec v ih hs
      rw [e2] at e
      cases e
      exact hw
  | insert v w index x err _ e ih =>
    by_cases hs : index < 0 ∨ index > v.size
    · rw [Vector.Insert_range rt v index x hs] at e
      cases e
      exact ih
    · obtain ⟨w2, e2, hw, _⟩ := Vector.Insert_spec rt v index x ih (by omega) (by omega)
      rw [e2] at e
      cases e
      exact hw
  | erase v w index err _ e ih =>
    by_cases hs : index < 0 ∨ index ≥ v.size
    · rw [Vector.Erase_range v index hs] at e
      cases e
      exact ih
    · obtain ⟨w2, e2, hw, _⟩ := Vector.Erase_spec v index ih (by omega) (by omega)
      rw [e2] at e
      cases e
      exact hw
  | clear v w _ e ih =>
    obtain ⟨w2, e2, hw, _⟩ := Vector.Clear_spec v ih
    rw [e2] at e
    cases e
    exact hw
  | reserve v w n _ e ih =>
    obtain ⟨w2, e2, hw, _⟩ := Vector.Reserve_spec v n ih
    rw [e2] at e
    cases e
    exact hw
  | resize v w n x _ e ih =>
    obtain ⟨w2, e2, hw, _⟩ := Vector.Resize_spec v n x ih
    rw [e2] at e
    cases e
    exact hw
  | assign v vs _ _ => exact Vector.Assign_inv rt v vs
  | swapReceiver v o _ _ _ ih2 => exact ih2
  | swapOther v o _ _ ih1 _ => exact ih1

theorem Slice.index_spec (s : Slice α) (i : Nat) (h : i < s.len) (hc : s.len ≤ s.cap) :
    ∃ x, s.index (i : Int) = .ok x ∧ s.elems[i]? = some x := by
  have hl : i < s.elems.length := by
    simp only [Slice.elems, Slice.cap, List.length_take] at *
    omega
  refine ⟨s.elems[i], ?_, List.getElem?_eq_getElem hl⟩
  have hn : ¬ ((i : Int) < 0) := by omega
  simp only [Slice.index, hn, if_false, Int.toNat_ofNat, Int.toNat_natCast,
    List.getElem?_eq_getElem hl]

theorem Vector.Data_spec (v : Vector α) (hv : v.Inv) :
    ∃ d, v.Data = .ok d ∧ d.elems = v.data.elems ∧ (d.elems.length : Int) = v.size := by
  obtain ⟨a, b, c⟩ := hv
  have hr : (0 : Int) ≤ v.size ∧ v.size ≤ (v.data.cap : Int) := by omega
  refine ⟨⟨v.data.arr, v.size.toNat⟩, ?_, ?_, ?_⟩
  · simp only [Vector.Data, Slice.reslice, hr, and_self, if_true]
  · simp only [Slice.elems, ← a, Int.toNat_ofNat, Int.toNat_natCast]
  · simp only [Slice.elems, Slice.cap, List.length_take] at *
    omega

theorem Vector.At_spec (v : Vector α) (index : Int) (hv : v.Inv)
    (h0 : 0 ≤ index) (h1 : index < v.size) :
    ∃ x, v.At index = .ok (x, none) ∧ v.data.elems[index.toNat]? = some x := by
  obtain ⟨a, b, c⟩ := hv
  lift index to ℕ using h0
  obtain ⟨x, e, hx⟩ := Slice.index_spec v.data index (by omega) (by omega)
  have hc : ¬ ((index : Int) < 0 ∨ (index : Int) ≥ v.size) := by omega
  refine ⟨x, ?_, by simpa using hx⟩
  simp only [Vector.At, hc, if_false, e, bind, Except.bind, pure, Except.pure]

theorem Vector.At_range (v : Vector α) (index : Int) (h : index < 0 ∨ index ≥ v.size) :
    v.At index = .ok (default, some errOutOfRange) := by
  simp only [Vector.At, h, if_true, pure, Except.pure]

/-! ## Sequences of pushes -/

theorem Vector.live_spec (v : Vector α) (hv : v.Inv) :
    v.live = .ok v.data.elems ∧ (v.data.elems.length : Int) = v.size := by
  obtain ⟨d, e, h1, h2⟩ := Vector.Data_spec v hv
  rw [← h1]
  exact ⟨by rw [Vector.live, e]; rfl, h2⟩

theorem Vector.pushAll_spec (rt : Runtime) (xs : List α) : ∀ v : Vector α, v.Inv →
    ∃ w, v.pushAll rt xs = .ok w ∧ w.Inv ∧ w.size = v.size + xs.length ∧
      w.data.elems = v.data.elems ++ xs := by
  induction xs with
  | nil =>
    intro v hv
    exact ⟨v, rfl, hv, by simp, by simp⟩
  | cons x xs ih =>
    intro v hv
    obtain ⟨u, e, hu, h1, h2, _⟩ := Vector.PushBack_spec rt v x hv
    obtain ⟨w, e2, hw, k1, k2⟩ := ih u hu
    refine ⟨w, ?_, hw, ?_, ?_⟩
    · rw [Vector.pushAll, List.foldlM_cons, e]
      exact e2
    · rw [k1, h1, List.length_cons]; push_cast; omega
    · rw [k2, h2]; simp

/-- One `PushBack` on a vector whose recorded capacity is that of its array. -/
theorem Vector.PushBack_exact (rt : Runtime) (v : Vector α) (x : α) (hv : v.Inv)
    (hc : v.capacity = (v.data.cap : Int)) :
    ∃ w, v.PushBack rt x = .ok w ∧ w.Inv ∧ w.capacity = (w.data.cap : Int) ∧
      w.size = v.size + 1 ∧
      w.capacity = (if v.size = v.capacity then (if v.capacity = 0 then 1 else v.capacity * 2)
        else v.capacity) := by
  obtain ⟨w, e, hw, h1, _, h3, h4, h5⟩ := Vector.PushBack_spec rt v x hv
  refine ⟨w, e, hw, h3, h1, ?_⟩
  by_cases h : v.size = v.capacity
  · rw [if_pos h, h4 h]; rfl
  · rw [if_neg h, h5 h, hc]

theorem Vector.PushBack_doubled (rt : Runtime) (v : Vector α) (x : α) (hv : v.Inv)
    (hd : v.Doubled) :
    ∃ w, v.PushBack rt x = .ok w ∧ w.Inv ∧ w.Doubled ∧ w.size = v.size + 1 := by
  obtain ⟨hc, hk⟩ := hd
  obtain ⟨w, e, hw, h1, h2, h3⟩ := Vector.PushBack_exact rt v x hv hc
  refine ⟨w, e, hw, ⟨h1, Or.inr ?_⟩, h2⟩
  obtain ⟨a, b, c⟩ := hv
  rcases hk with ⟨k1, k2⟩ | ⟨k, k1, k2⟩
  · refine ⟨0, ?_, ?_⟩
    · rw [h3, k1, k2]; simp
    · rw [h3, h2, k1, k2]; simp
  · by_cases hs : v.size = v.capacity
    · refine ⟨k + 1, ?_, ?_⟩
      · have hne : v.capacity ≠ 0 := by
          rw [k1]; positivity
        rw [h3, if_pos hs, if_neg hne, k1, pow_succ]
      · have hne : v.capacity ≠ 0 := by
          rw [k1]; positivity
        rw [h3, if_pos hs, if_neg hne, h2]
        omega
    · refine ⟨k, ?_, ?_⟩
      · rw [h3, if_neg hs, k1]
      · rw [h3, if_neg hs, h2]
        omega

theorem Vector.pushAll_doubled (rt : Runtime) (xs : List α) : ∀ v : Vector α, v.Inv →
    v.Doubled → ∃ w, v.pushAll rt xs = .ok w ∧ w.Inv ∧ w.Doubled ∧
      w.size = v.size + xs.length := by
  induction xs with
  | nil =>
    intro v hv hd
    exact ⟨v, rfl, hv, hd, by simp⟩
  | cons x xs ih =>
    intro v hv hd
    obtain ⟨u, e, hu, hd2, h1⟩ := Vector.PushBack_doubled rt v x hv hd
    obtain ⟨w, e2, hw, hd3, k1⟩ := ih u hu hd2
    refine ⟨w, ?_, hw, hd3, ?_⟩
    · rw [Vector.pushAll, List.foldlM_cons, e]
      exact e2
    · rw [k1, h1, List.length_cons]; push_cast; omega

theorem capacityTrace_five (rt : Runtime) (a b c d e : α) :
    Vector.capacityTrace rt (⟨⟨[], 0⟩, 0, 0⟩ : Vector α) [a, b, c, d, e] =
      .ok [1, 2, 4, 4, 8] := by
  have h0 : (⟨⟨[], 0⟩, 0, 0⟩ : Vector α).Inv := ⟨rfl, le_refl _, le_refl _⟩
  obtain ⟨v1, e1, i1, c1, s1, k1⟩ := Vector.PushBack_exact rt _ a h0 rfl
  obtain ⟨v2, e2, i2, c2, s2, k2⟩ := Vector.PushBack_exact rt v1 b i1 c1
  obtain ⟨v3, e3, i3, c3, s3, k3⟩ := Vector.PushBack_exact rt v2 c i2 c2
  obtain ⟨v4, e4, i4, c4, s4, k4⟩ := Vector.PushBack_exact rt v3 d i3 c3
  obtain ⟨v5, e5, i5, c5, s5, k5⟩ := Vector.PushBack_exact rt v4 e i4 c4
  simp only [Vector.capacityTrace, e1, e2, e3, e4, e5, bind, Except.bind, pure, Except.pure,
    Vector.Capacity]
  simp only [if_true] at k1 s1
  have q1 : v1.capacity = 1 := by simpa using k1
  have r1 : v1.size = 1 := by simpa using s1
  have q2 : v2.capacity = 2 := by rw [k2, q1, r1]; simp
  have r2 : v2.size = 2 := by rw [s2, r1]; rfl
  have q3 : v3.capacity = 4 := by rw [k3, q2, r2]; simp
  have r3 : v3.size = 3 := by rw [s3, r2]; rfl
  have q4 : v4.capacity = 4 := by rw [k4, q3, r3]; simp
  have r4 : v4.size = 4 := by rw [s4, r3]; rfl
  have q5 : v5.capacity = 8 := by rw [k5, q4, r4]; simp
  rw [q1, q2, q3, q4, q5]

/-! ## Access to the ends of the vector -/

theorem Vector.Front_spec (v : Vector α) (hv : v.Inv) (hs : v.size ≠ 0) :
    ∃ x, v.Front = .ok (x, none) ∧ v.data.elems[0]? = some x := by
  obtain ⟨a, b, c⟩ := hv
  obtain ⟨x, e, hx⟩ := Slice.index_spec v.data 0 (by omega) (by omega)
  refine ⟨x, ?_, hx⟩
  simp only [Nat.cast_zero] at e
  simp only [Vector.Front, hs, if_false, e, bind, Except.bind, pure, Except.pure]

theorem Vector.Back_spec (v : Vector α) (hv : v.Inv) (hs : v.size ≠ 0) :
    ∃ x, v.Back = .ok (x, none) ∧ v.data.elems[(v.size - 1).toNat]? = some x := by
  obtain ⟨a, b, c⟩ := hv
  obtain ⟨x, e, hx⟩ := Slice.index_spec v.data (v.size - 1).toNat (by omega) (by omega)
  refine ⟨x, ?_, hx⟩
  rw [Int.toNat_of_nonneg (by omega)] at e
  simp only [Vector.Back, hs, if_false, e, bind, Except.bind, pure, Except.pure]

theorem Vector.Front_empty (v : Vector α) (h : v.size = 0) :
    v.Front = .ok (default, some errEmpty) := by
  simp only [Vector.Front, h, if_true, pure, Except.pure]

theorem Vector.Back_empty (v : Vector α) (h : v.size = 0) :
    v.Back = .ok (default, some errEmpty) := by
  simp only [Vector.Back, h, if_true, pure, Except.pure]

theorem errEmpty_ne_errOutOfRange : errEmpty ≠ errOutOfRange := by decide

/-! ## Sample reachable vectors -/

/-- A vector of three integers, as `New(WithValues(1, 2, 3))` builds it. -/
theorem reachable_values :
    Reachable exactRuntime (⟨⟨[1, 2, 3], 3⟩, 3, 3⟩ : Vector Int) :=
  Reachable.new [WithValues exactRuntime [1, 2, 3]] _
    (by intro o ho; rw [List.mem_singleton.mp ho]; exact Builtin.withValues _) rfl

/-! ## The properties of the container -/

/-- C2: after `PushBack(x_0)`, ..., `PushBack(x_{n-1})` on `New()`, `Size()` is `n`
and `At(i)` returns `x_i` and no error for every `i < n`. -/
theorem C2_pushes_then_at (rt : Runtime) (xs : List α) :
    ∃ v0 v, New ([] : List (VOption α)) = .ok v0 ∧ v0.pushAll rt xs = .ok v ∧
      v.Size = (xs.length : Int) ∧
      ∀ i : Fin xs.length, v.At ((i : Nat) : Int) = .ok (xs[i], none) := by
  have h0 : (⟨⟨[], 0⟩, 0, 0⟩ : Vector α).Inv := ⟨rfl, le_refl _, le_refl _⟩
  obtain ⟨w, e, hw, k1, k2⟩ := Vector.pushAll_spec rt xs _ h0
  refine ⟨_, w, rfl, e, ?_, ?_⟩
  · rw [Vector.Size, k1]; simp
  · intro i
    obtain ⟨x, ex, hx⟩ := Vector.At_spec w ((i : Nat) : Int) hw (by omega)
      (by rw [k1]; have := i.isLt; simp)
    have hk : w.data.elems = xs := by rw [k2]; rfl
    rw [hk, Int.toNat_natCast, List.getElem?_eq_getElem i.isLt] at hx
    cases hx
    exact ex

/-- C3: starting from `New()`, after `n ≥ 1` calls of `PushBack` the capacity is the
smallest power of two that is at least `n`; five pushes show the capacities
1, 2, 4, 4, 8. -/
theorem C3_capacity_doubles (rt : Runtime) (xs : List α) (hn : 1 ≤ xs.length) :
    ∃ v0 v, New ([] : List (VOption α)) = .ok v0 ∧ v0.pushAll rt xs = .ok v ∧
      (∃ k : Nat, v.Capacity = 2 ^ k ∧ (xs.length : Int) ≤ 2 ^ k ∧
        ∀ j : Nat, (xs.length : Int) ≤ 2 ^ j → (2 : Int) ^ k ≤ 2 ^ j) ∧
      ∀ a b c d e : α, v0.capacityTrace rt [a, b, c, d, e] = .ok [1, 2, 4, 4, 8] := by
  have h0 : (⟨⟨[], 0⟩, 0, 0⟩ : Vector α).Inv := ⟨rfl, le_refl _, le_refl _⟩
  have d0 : (⟨⟨[], 0⟩, 0, 0⟩ : Vector α).Doubled := ⟨rfl, Or.inl ⟨rfl, rfl⟩⟩
  obtain ⟨w, e, hw, hd, k1⟩ := Vector.pushAll_doubled rt xs _ h0 d0
  refine ⟨_, w, rfl, e, ?_, fun a b c d e => capacityTrace_five rt a b c d e⟩
  obtain ⟨a, b, c⟩ := hw
  have hsz : w.size = (xs.length : Int) := by rw [k1]; simp
  rcases hd.2 with ⟨z1, _⟩ | ⟨k, q1, q2⟩
  · omega
  · refine ⟨k, q1, ?_, ?_⟩
    · rw [← q1, ← hsz]; exact b
    · intro j hj
      rcases Nat.lt_or_ge j k with hjk | hjk
      · have hp : (2 : Int) ^ (j + 1) ≤ 2 ^ k := pow_le_pow_right₀ (by norm_num) hjk
        rw [pow_succ] at hp
        rw [q1, hsz] at q2
        linarith
      · exact pow_le_pow_right₀ (by norm_num) hjk

/-- An instance of C3 on a concrete vector of integers. -/
theorem C3_capacity_doubles_witness :
    ∃ v0 v, New ([] : List (VOption Int)) = .ok v0 ∧
      v0.pushAll exactRuntime [5, 5, 5] = .ok v ∧
      (∃ k : Nat, v.Capacity = 2 ^ k ∧ (([5, 5, 5] : List Int).length : Int) ≤ 2 ^ k ∧
        ∀ j : Nat, (([5, 5, 5] : List Int).length : Int) ≤ 2 ^ j → (2 : Int) ^ k ≤ 2 ^ j) ∧
      ∀ a b c d e : Int, v0.capacityTrace exactRuntime [a, b, c, d, e] = .ok [1, 2, 4, 4, 8] :=
  C3_capacity_doubles exactRuntime [5, 5, 5] (by decide)

/-- C4 at a failing input: with an allocator that rounds up to size classes,
`New(WithValues(1, 2, 3, 4, 5))` has size 5 and capacity 5 over an array of 6;
after `PopBack()` the size is 4 and the capacity 5, and `PushBack(9)`, which finds
size < capacity, reports capacity 6, while `Insert(4, 9)` leaves it at 5. -/
theorem C4_pushBack_capacity_drift :
    ∃ v0 v1 v2 v3, New [WithValues sizeClassRuntime ([1, 2, 3, 4, 5] : List Int)] = .ok v0 ∧
      v0.PopBack = .ok (v1, none) ∧ v1.Size = 4 ∧ v1.Capacity = 5 ∧
      v1.PushBack sizeClassRuntime 9 = .ok v2 ∧ v2.Capacity = 6 ∧
      v1.Insert sizeClassRuntime 4 9 = .ok (v3, none) ∧ v3.Capacity = 5 ∧
      Reachable sizeClassRuntime v1 :=
  ⟨⟨⟨[1, 2, 3, 4, 5, 0], 5⟩, 5, 5⟩, ⟨⟨[1, 2, 3, 4, 5, 0], 4⟩, 4, 5⟩,
    ⟨⟨[1, 2, 3, 4, 9, 0], 5⟩, 5, 6⟩, ⟨⟨[1, 2, 3, 4, 9, 0], 5⟩, 5, 5⟩,
    rfl, rfl, rfl, rfl, rfl, rfl, rfl, rfl,
    Reachable.popBack ⟨⟨[1, 2, 3, 4, 5, 0], 5⟩, 5, 5⟩ _ none
      (Reachable.new [WithValues sizeClassRuntime [1, 2, 3, 4, 5]] _
        (by intro o ho; rw [List.mem_singleton.mp ho]; exact Builtin.withValues _) rfl) rfl⟩

/-- C5: on a reachable vector `At(index)` returns the OutOfRange error exactly when
`index < 0` or `index ≥ Size()` (so always on an empty vector), and otherwise no
error and the element at position `index` of the live sequence `Data()`. -/
theorem C5_at_checks_bounds (rt : Runtime) (v : Vector α) (h : Reachable rt v)
    (index : Int) :
    ∃ x e L, v.At index = .ok (x, e) ∧ v.live = .ok L ∧
      (e = some errOutOfRange ↔ (index < 0 ∨ index ≥ v.Size)) ∧
      (v.Size = 0 → e = some errOutOfRange) ∧
      (¬ (index < 0 ∨ index ≥ v.Size) → e = none ∧ L[index.toNat]? = some x) := by
  have hv := Reachable.inv rt v h
  obtain ⟨hl, _⟩ := Vector.live_spec v hv
  have hv0 : 0 ≤ v.size := by
    obtain ⟨a, _, _⟩ := hv
    omega
  by_cases hr : index < 0 ∨ index ≥ v.size
  · refine ⟨default, some errOutOfRange, _, Vector.At_range v index hr, hl, ?_, ?_, ?_⟩
    · exact ⟨fun _ => hr, fun _ => rfl⟩
    · intro _; rfl
    · intro hn; exact absurd hr hn
  · obtain ⟨x, e, hx⟩ := Vector.At_spec v index hv (by omega) (by omega)
    refine ⟨x, none, _, e, hl, ?_, ?_, ?_⟩
    · constructor
      · intro hc; cases hc
      · intro hc; exact absurd hc hr
    · intro hz
      simp only [Vector.Size] at hz
      omega
    · intro _; exact ⟨rfl, hx⟩

/-- An instance of C5 on a concrete vector of integers. -/
theorem C5_at_checks_bounds_witness :
    ∃ x e L, (⟨⟨[1, 2, 3], 3⟩, 3, 3⟩ : Vector Int).At 1 = .ok (x, e) ∧
      (⟨⟨[1, 2, 3], 3⟩, 3, 3⟩ : Vector Int).live = .ok L ∧
      (e = some errOutOfRange ↔
        ((1 : Int) < 0 ∨ (1 : Int) ≥ (⟨⟨[1, 2, 3], 3⟩, 3, 3⟩ : Vector Int).Size)) ∧
      ((⟨⟨[1, 2, 3], 3⟩, 3, 3⟩ : Vector Int).Size = 0 → e = some errOutOfRange) ∧
      (¬ ((1 : Int) < 0 ∨ (1 : Int) ≥ (⟨⟨[1, 2, 3], 3⟩, 3, 3⟩ : Vector Int).Size) →
        e = none ∧ L[(1 : Int).toNat]? = some x) :=
  C5_at_checks_bounds exactRuntime _ reachable_values 1

/-- C6: on a reachable vector each of `Front()`, `Back()` and `PopBack()` returns the
EmptyContainer error if and only if `Size() == 0`, an error distinct from OutOfRange;
when `Size() > 0`, `Front` returns the element at position 0, `Back` the element at
position `Size()-1`, and `PopBack` succeeds. -/
theorem C6_empty_container (rt : Runtime) (v : Vector α) (h : Reachable rt v) :
    ∃ x e1 y e2 w e3 L, v.Front = .ok (x, e1) ∧ v.Back = .ok (y, e2) ∧
      v.PopBack = .ok (w, e3) ∧ v.live = .ok L ∧
      (e1 = some errEmpty ↔ v.Size = 0) ∧ (e2 = some errEmpty ↔ v.Size = 0) ∧
      (e3 = some errEmpty ↔ v.Size = 0) ∧ errEmpty ≠ errOutOfRange ∧
      (v.Size > 0 → e1 = none ∧ L[0]? = some x ∧ e2 = none ∧
        L[(v.Size - 1).toNat]? = some y ∧ e3 = none) := by
  have hv := Reachable.inv rt v h
  obtain ⟨hl, _⟩ := Vector.live_spec v hv
  by_cases hs : v.size = 0
  · refine ⟨default, some errEmpty, default, some errEmpty, v, some errEmpty, _,
      Vector.Front_empty v hs, Vector.Back_empty v hs, Vector.PopBack_empty v hs, hl,
      ⟨fun _ => hs, fun _ => rfl⟩, ⟨fun _ => hs, fun _ => rfl⟩, ⟨fun _ => hs, fun _ => rfl⟩,
      errEmpty_ne_errOutOfRange, ?_⟩
    intro hp
    simp only [Vector.Size] at hp
    omega
  · obtain ⟨x, ex, hx⟩ := Vector.Front_spec v hv hs
    obtain ⟨y, ey, hy⟩ := Vector.Back_spec v hv hs
    obtain ⟨w, ew, _⟩ := Vector.PopBack_spec v hv hs
    have hno : (none : Option String) = some errEmpty ↔ v.Size = 0 :=
      ⟨fun hc => (by cases hc), fun hc => absurd hc hs⟩
    exact ⟨x, none, y, none, w, none, _, ex, ey, ew, hl, hno, hno, hno,
      errEmpty_ne_errOutOfRange, fun _ => ⟨rfl, hx, rfl, hy, rfl⟩⟩

/-- An instance of C6 on a concrete vector of integers. -/
theorem C6_empty_container_witness :
    ∃ x e1 y e2 w e3 L, (⟨⟨[1, 2, 3], 3⟩, 3, 3⟩ : Vector Int).Front = .ok (x, e1) ∧
      (⟨⟨[1, 2, 3], 3⟩, 3, 3⟩ : Vector Int).Back = .ok (y, e2) ∧
      (⟨⟨[1, 2, 3], 3⟩, 3, 3⟩ : Vector Int).PopBack = .ok (w, e3) ∧
      (⟨⟨[1, 2, 3], 3⟩, 3, 3⟩ : Vector Int).live = .ok L ∧
      (e1 = some errEmpty ↔ (⟨⟨[1, 2, 3], 3⟩, 3, 3⟩ : Vector Int).Size = 0) ∧
      (e2 = some errEmpty ↔ (⟨⟨[1, 2, 3], 3⟩, 3, 3⟩ : Vector Int).Size = 0) ∧
      (e3 = some errEmpty ↔ (⟨⟨[1, 2, 3], 3⟩, 3, 3⟩ : Vector Int).Size = 0) ∧
      errEmpty ≠ errOutOfRange ∧
      ((⟨⟨[1, 2, 3], 3⟩, 3, 3⟩ : Vector Int).Size > 0 → e1 = none ∧ L[0]? = some x ∧
        e2 = none ∧ L[((⟨⟨[1, 2, 3], 3⟩, 3, 3⟩ : Vector Int).Size - 1).toNat]? = some y ∧
        e3 = none) :=
  C6_empty_container exactRuntime _ reachable_values

/-- C8: on a reachable vector with live sequence `L` of size `s`, `Erase(index)`
returns the OutOfRange error and changes nothing when `index < 0` or `index ≥ s`;
otherwise it returns no error, the size becomes `s - 1`, the live sequence is `L`
without the element at position `index`, and the capacity is unchanged. -/
theorem C8_erase (rt : Runtime) (v : Vector α) (h : Reachable rt v) (index : Int) :
    ∃ L, v.live = .ok L ∧ (L.length : Int) = v.Size ∧
      ((index < 0 ∨ index ≥ v.Size) → v.Erase index = .ok (v, some errOutOfRange)) ∧
      (¬ (index < 0 ∨ index ≥ v.Size) → ∃ w, v.Erase index = .ok (w, none) ∧
        w.Size = v.Size - 1 ∧ w.live = .ok (L.eraseIdx index.toNat) ∧
        w.live = .ok (L.take index.toNat ++ L.drop (index.toNat + 1)) ∧
        w.Capacity = v.Capacity) := by
  have hv := Reachable.inv rt v h
  obtain ⟨hl, hlen⟩ := Vector.live_spec v hv
  refine ⟨_, hl, hlen, fun hr => Vector.Erase_range v index hr, ?_⟩
  intro hr
  simp only [Vector.Size] at hr
  obtain ⟨w, e, hw, k1, k2, k3⟩ := Vector.Erase_spec v index hv (by omega) (by omega)
  refine ⟨w, e, k1, ?_, ?_, k3⟩
  · rw [(Vector.live_spec w hw).1, k2]
  · rw [(Vector.live_spec w hw).1, k2, List.eraseIdx_eq_take_drop_succ]

/-- An instance of C8 on a concrete vector of integers. -/
theorem C8_erase_witness :
    (∃ L, (⟨⟨[1, 2, 3], 3⟩, 3, 3⟩ : Vector Int).live = .ok L ∧
      (L.length : Int) = (⟨⟨[1, 2, 3], 3⟩, 3, 3⟩ : Vector Int).Size ∧
      (((0 : Int) < 0 ∨ (0 : Int) ≥ (⟨⟨[1, 2, 3], 3⟩, 3, 3⟩ : Vector Int).Size) →
        (⟨⟨[1, 2, 3], 3⟩, 3, 3⟩ : Vector Int).Erase 0 =
          .ok (⟨⟨[1, 2, 3], 3⟩, 3, 3⟩, some errOutOfRange)) ∧
      (¬ ((0 : Int) < 0 ∨ (0 : Int) ≥ (⟨⟨[1, 2, 3], 3⟩, 3, 3⟩ : Vector Int).Size) →
        ∃ w, (⟨⟨[1, 2, 3], 3⟩, 3, 3⟩ : Vector Int).Erase 0 = .ok (w, none) ∧
          w.Size = (⟨⟨[1, 2, 3], 3⟩, 3, 3⟩ : Vector Int).Size - 1 ∧
          w.live = .ok (L.eraseIdx (0 : Int).toNat) ∧
          w.live = .ok (L.take (0 : Int).toNat ++ L.drop ((0 : Int).toNat + 1)) ∧
          w.Capacity = (⟨⟨[1, 2, 3], 3⟩, 3, 3⟩ : Vector Int).Capacity)) ∧
    ((⟨⟨[1, 2, 3], 3⟩, 3, 3⟩ : Vector Int).Erase 0 >>= fun r => r.1.live) = .ok [2, 3] :=
  ⟨C8_erase exactRuntime _ reachable_values 0, rfl⟩

/-! ## Resizing, construction and capacity -/

theorem clamp_eq_max (n : Int) : (if n < 0 then 0 else n) = max n 0 := by
  split <;> omega

/-- C13: after `a.Swap(b)` the live sequence, size and capacity of `a` are those `b`
had before the call, and those of `b` are those `a` had. -/
theorem C13_swap (a b : Vector α) :
    (a.Swap b).1.live = b.live ∧ (a.Swap b).1.Size = b.Size ∧
      (a.Swap b).1.Capacity = b.Capacity ∧ (a.Swap b).2.live = a.live ∧
      (a.Swap b).2.Size = a.Size ∧ (a.Swap b).2.Capacity = a.Capacity ∧
      (a.Swap b).1 = b ∧ (a.Swap b).2 = a :=
  ⟨rfl, rfl, rfl, rfl, rfl, rfl, rfl, rfl⟩

theorem Slice.nil_append_spec (rt : Runtime) (vs : List α) :
    (Slice.nil.append rt vs).elems = vs ∧ (Slice.nil.append rt vs).len = vs.length := by
  constructor
  · rw [Slice.append_elems rt Slice.nil vs (by simp [Slice.nil])]
    simp [Slice.elems, Slice.nil]
  · rw [Slice.append_len]
    simp [Slice.nil]

theorem New_single (o : VOption α) : New [o] = o ⟨⟨[], 0⟩, 0, 0⟩ := by
  rw [New_eq, List.foldlM_cons]
  cases o ⟨⟨[], 0⟩, 0, 0⟩ <;> rfl

/-- C14: after `v.Assign(v1..vk)` the vector is the one `New(WithValues(v1..vk))`
builds: `size == capacity == k` and the live sequence is `v1..vk`, whatever `v` held. -/
theorem C14_assign (rt : Runtime) (v : Vector α) (values : List α) :
    New [WithValues rt values] = .ok (v.Assign rt values) ∧
      (v.Assign rt values).Size = (values.length : Int) ∧
      (v.Assign rt values).Capacity = (values.length : Int) ∧
      (v.Assign rt values).live = .ok values := by
  obtain ⟨h1, h2⟩ := Slice.nil_append_spec rt values
  refine ⟨?_, ?_, ?_, ?_⟩
  · rw [New_single]; rfl
  · show ((Slice.nil.append rt values).len : Int) = _
    rw [h2]
  · show ((Slice.nil.append rt values).len : Int) = _
    rw [h2]
  · rw [(Vector.live_spec _ (Vector.Assign_inv rt v values)).1]
    exact congrArg Except.ok h1

/-- A vector whose array is larger than its recorded capacity:
`New(WithValues(1, 2, 3, 4, 5))` under size-class allocation, after `PopBack()`. -/
theorem reachable_overallocated :
    Reachable sizeClassRuntime (⟨⟨[1, 2, 3, 4, 5, 0], 4⟩, 4, 5⟩ : Vector Int) :=
  Reachable.popBack ⟨⟨[1, 2, 3, 4, 5, 0], 5⟩, 5, 5⟩ _ none
    (Reachable.new [WithValues sizeClassRuntime [1, 2, 3, 4, 5]] _
      (by intro o ho; rw [List.mem_singleton.mp ho]; exact Builtin.withValues _) rfl) rfl

/-- C17 at a failing input: on the vector `New(WithValues(1, 2, 3, 4, 5))` after
`PopBack()` (size 4, capacity 5, array of 6), `Insert(Size(), 9)` and `PushBack(9)`
give the same size and the same live sequence, but capacities 5 and 6. -/
theorem C17_insert_at_size_capacity :
    ∃ w1 w2, (⟨⟨[1, 2, 3, 4, 5, 0], 4⟩, 4, 5⟩ : Vector Int).Insert sizeClassRuntime
        (⟨⟨[1, 2, 3, 4, 5, 0], 4⟩, 4, 5⟩ : Vector Int).Size 9 = .ok (w1, none) ∧
      (⟨⟨[1, 2, 3, 4, 5, 0], 4⟩, 4, 5⟩ : Vector Int).PushBack sizeClassRuntime 9 = .ok w2 ∧
      Reachable sizeClassRuntime (⟨⟨[1, 2, 3, 4, 5, 0], 4⟩, 4, 5⟩ : Vector Int) ∧
      w1.Size = w2.Size ∧ w1.live = .ok [1, 2, 3, 4, 9] ∧ w2.live = .ok [1, 2, 3, 4, 9] ∧
      w1.Capacity = 5 ∧ w2.Capacity = 6 :=
  ⟨⟨⟨[1, 2, 3, 4, 9, 0], 5⟩, 5, 5⟩, ⟨⟨[1, 2, 3, 4, 9, 0], 5⟩, 5, 6⟩, rfl, rfl,
    reachable_overallocated, rfl, rfl, rfl, rfl, rfl⟩

/-! ## Lemmas on the operations of the machine -/

theorem wrapInt_eq (x : Int) (h1 : -9223372036854775808 ≤ x) (h2 : x ≤ maxInt) :
    wrapInt x = x := by
  unfold wrapInt
  unfold maxInt at h2
  omega

theorem wrapInt_double (c : Int) (h1 : 0 < c) (h2 : c ≤ maxInt) :
    (2 * c ≤ maxInt ∧ wrapInt (c * 2) = c * 2) ∨ (maxInt < 2 * c ∧ wrapInt (c * 2) < 0) := by
  unfold wrapInt
  unfold maxInt at *
  omega

theorem Machine.make_eq (m : Machine) (len cap : Int) (h : cap ≤ (m.maxElems : Int)) :
    (m.make len cap : Except Panic (Slice α)) = Slice.make len cap := by
  unfold Machine.make Slice.make
  by_cases hc : len < 0 ∨ cap < len
  · have : len < 0 ∨ cap < len ∨ cap > (m.maxElems : Int) := by omega
    rw [if_pos this, if_pos hc]
  · have : ¬ (len < 0 ∨ cap < len ∨ cap > (m.maxElems : Int)) := by omega
    rw [if_neg this, if_neg hc]

theorem Machine.make_panic (m : Machine) (len cap : Int)
    (h : len < 0 ∨ cap < len ∨ (m.maxElems : Int) < cap) :
    (m.make len cap : Except Panic (Slice α)) = .error .makeslice := by
  unfold Machine.make
  rw [if_pos (by omega)]

/-- On the machine `append` either does what `append` does without limits, or
panics because the array needed is too large. -/
theorem Machine.append_cases (m : Machine) (s : Slice α) (vs : List α) :
    (m.append s vs = .ok (s.append m.toRuntime vs) ∧
      (s.len + vs.length ≤ s.cap ∨
        m.appendCap s.cap (s.len + vs.length) ≤ m.maxElems)) ∨
    (m.append s vs = .error .growslice ∧ ¬ s.len + vs.length ≤ s.cap ∧
      (((s.len + vs.length : Nat) : Int) > maxInt ∨
        m.appendCap s.cap (s.len + vs.length) > m.maxElems)) := by
  unfold Machine.append Slice.append
  by_cases h1 : s.len + vs.length ≤ s.cap
  · left
    rw [if_pos h1, if_pos h1]
    exact ⟨rfl, Or.inl h1⟩
  · simp only [if_neg h1]
    by_cases h2 : ((s.len + vs.length : Nat) : Int) > maxInt ∨
        m.appendCap s.cap (s.len + vs.length) > m.maxElems
    · right
      rw [if_pos h2]
      exact ⟨rfl, h1, h2⟩
    · left
      rw [if_neg h2]
      refine ⟨rfl, Or.inr ?_⟩
      omega

theorem Machine.append_inplace (m : Machine) (s : Slice α) (vs : List α)
    (h : s.len + vs.length ≤ s.cap) : m.append s vs = .ok (s.append m.toRuntime vs) := by
  unfold Machine.append Slice.append
  rw [if_pos h, if_pos h]

theorem Machine.append_fits (m : Machine) (s : Slice α) (vs : List α)
    (h : m.appendCap s.cap (s.len + vs.length) ≤ m.maxElems) :
    m.append s vs = .ok (s.append m.toRuntime vs) := by
  rcases Machine.append_cases m s vs with ⟨e, _⟩ | ⟨_, _, h2⟩
  · exact e
  · exfalso
    have h3 := m.appendCap_ge s.cap (s.len + vs.length)
    have h4 := m.maxElems_le
    rcases h2 with h2 | h2
    · omega
    · omega

theorem Slice.append_cap_grow (rt : Runtime) (s : Slice α) (vs : List α)
    (h : ¬ s.len + vs.length ≤ s.cap) (hl : s.len ≤ s.cap) :
    (s.append rt vs).cap = rt.appendCap s.cap (s.len + vs.length) := by
  have := rt.appendCap_ge s.cap (s.len + vs.length)
  unfold Slice.append Slice.cap Slice.elems at *
  rw [if_neg h]
  simp
  omega

/-- What a successful `append` on the machine returns. -/
theorem Machine.append_ok (m : Machine) (s d : Slice α) (vs : List α)
    (e : m.append s vs = .ok d) (hl : s.len ≤ s.cap) (hc : s.cap ≤ m.maxElems) :
    d = s.append m.toRuntime vs ∧ d.len = s.len + vs.length ∧ d.len ≤ d.cap ∧
      s.cap ≤ d.cap ∧ d.cap ≤ m.maxElems ∧ d.elems = s.elems ++ vs := by
  rcases Machine.append_cases m s vs with ⟨e2, h2⟩ | ⟨e2, _⟩
  · rw [e2] at e
    cases e
    have hle := Slice.append_cap_le m.toRuntime s vs hl
    refine ⟨rfl, Slice.append_len _ s vs, hle.2, hle.1, ?_, Slice.append_elems _ s vs hl⟩
    by_cases h1 : s.len + vs.length ≤ s.cap
    · rw [Slice.append_cap_room _ s vs h1]; exact hc
    · rw [Slice.append_cap_grow _ s vs h1 hl]
      rcases h2 with h2 | h2
      · exact absurd h2 h1
      · exact h2
  · rw [e2] at e
    cases e

theorem Machine.Inv.toIdeal (m : Machine) (v : Vector α) (hv : m.Inv v)
    (hs : v.size ≤ v.capacity) : v.Inv := by
  obtain ⟨a, b, c, d, e⟩ := hv
  exact ⟨a, hs, d⟩

theorem Machine.Inv.ofIdeal (m : Machine) (v : Vector α) (hv : v.Inv)
    (hc : v.data.cap ≤ m.maxElems) : m.Inv v := by
  obtain ⟨a, b, c⟩ := hv
  refine ⟨a, ?_, ?_, c, hc⟩ <;> omega

/-- The copy `reserve` makes, for a vector whose slice has `size` elements, whatever the
recorded capacity is. -/
theorem Vector.reserve_weak (v : Vector α) (n : Int) (h1 : (v.data.len : Int) = v.size)
    (h2 : v.data.len ≤ v.data.cap) (hn : v.capacity < n) (hs : v.size ≤ n) :
    ∃ w, v.reserve n = .ok w ∧ w.size = v.size ∧ w.capacity = n ∧ (w.data.cap : Int) = n ∧
      w.data.len = v.data.len ∧ w.data.elems = v.data.elems := by
  obtain ⟨⟨A, l⟩, sz, cp⟩ := v
  simp only [Slice.cap] at h1 h2 hn hs
  subst h1
  have hmk : ¬ ((l : Int) < 0 ∨ n < (l : Int)) := by omega
  have hw : (0 : Int) ≤ 0 ∧ (0 : Int) ≤ (l : Int) ∧ (l : Int) ≤ (A.length : Int) := by omega
  have hr : ¬ (n ≤ cp) := by omega
  refine ⟨⟨⟨writeAt (List.replicate n.toNat default) 0
      ((List.take (l - 0) (List.drop 0 A)).take (l - 0)), l⟩, l, n⟩, ?_, rfl, rfl, ?_, rfl, ?_⟩
  · simp [Vector.reserve, Slice.make, Slice.window, Slice.copyInto, Slice.read, Slice.cap,
      hmk, hw, hr, bind, Except.bind, pure, Except.pure]
  · simp only [Slice.cap]
    rw [length_writeAt]
    · simp; omega
    · simp; omega
  · simp only [Slice.elems]
    apply List.ext_getElem?
    intro j
    rw [List.getElem?_take, List.getElem?_take, getElem?_writeAt _ _ _ (by simp; omega)]
    by_cases hj : j < l
    · have hj2 : j < A.length := by omega
      simp [hj, hj2, List.getElem?_take]
    · simp [hj]

theorem Machine.reserve_eq (m : Machine) (v : Vector α) (n : Int)
    (h : n ≤ (m.maxElems : Int)) : m.reserve v n = v.reserve n := by
  unfold Machine.reserve Vector.reserve
  rw [Machine.make_eq m _ _ h]

theorem Machine.Reserve_eq (m : Machine) (v : Vector α) (n : Int)
    (h : n ≤ (m.maxElems : Int) ∨ n ≤ v.capacity) : m.Reserve v n = v.Reserve n := by
  unfold Machine.Reserve Vector.Reserve
  by_cases hc : n ≤ v.capacity
  · rw [if_pos hc, if_pos hc]
  · rw [if_neg hc, if_neg hc, Machine.reserve_eq m v n (by omega)]

theorem Machine.reserve_panic (m : Machine) (v : Vector α) (n : Int)
    (hn : v.capacity < n) (h : v.size < 0 ∨ n < v.size ∨ (m.maxElems : Int) < n) :
    m.reserve v n = .error .makeslice := by
  unfold Machine.reserve
  rw [if_neg (by omega), Machine.make_panic m _ _ h]
  rfl

/-- What `Reserve` does on the machine, in every state the invariant allows. -/
theorem Machine.Reserve_cases (m : Machine) (v : Vector α) (n : Int) (hv : m.Inv v) :
    (∃ w, m.Reserve v n = .ok w ∧ m.Inv w ∧ w.size = v.size ∧
      w.data.elems = v.data.elems ∧ w.data.len = v.data.len ∧ v.capacity ≤ w.capacity ∧
      (n ≤ v.capacity → w = v) ∧
      (v.capacity < n → w.capacity = n ∧ (w.data.cap : Int) = n ∧ v.size ≤ n ∧
        n ≤ (m.maxElems : Int))) ∨
    (m.Reserve v n = .error .makeslice ∧ v.capacity < n ∧
      (n < v.size ∨ (m.maxElems : Int) < n)) := by
  obtain ⟨a, b, c, d, e⟩ := hv
  by_cases hc : n ≤ v.capacity
  · left
    refine ⟨v, ?_, ⟨a, b, c, d, e⟩, rfl, rfl, rfl, le_refl _, fun _ => rfl,
      fun h => absurd hc (by omega)⟩
    simp [Machine.Reserve, hc, pure, Except.pure]
  · by_cases hp : n < v.size ∨ (m.maxElems : Int) < n
    · right
      refine ⟨?_, by omega, hp⟩
      unfold Machine.Reserve
      rw [if_neg hc, Machine.reserve_panic m v n (by omega) (by omega)]
    · left
      obtain ⟨w, e1, k1, k2, k3, k4, k5⟩ :=
        Vector.reserve_weak v n a b (by omega) (by omega)
      refine ⟨w, ?_, ?_, k1, k5, k4, by omega, fun h => absurd h hc,
        fun _ => ⟨k2, k3, by omega, by omega⟩⟩
      · unfold Machine.Reserve
        rw [if_neg hc, Machine.reserve_eq m v n (by omega), e1]
      · refine ⟨by rw [k4, k1]; exact a, ?_, by omega, by omega, ?_⟩
        · rw [k4]
          omega
        · omega

/-- The first step of `PushBack` and `Insert` on the machine. -/
theorem Machine.grow_cases (m : Machine) (v : Vector α) (hv : m.Inv v) :
    (∃ u, (if v.size = v.capacity then m.Reserve v (m.growCapacity v) else pure v)
        = Except.ok u ∧ m.Inv u ∧ u.size = v.size ∧ u.data.elems = v.data.elems ∧
      u.data.len = v.data.len ∧ v.capacity ≤ u.capacity ∧
      (m.CanGrow v → u.size < u.capacity) ∧
      (v.size ≠ v.capacity → u = v)) ∨
    ((if v.size = v.capacity then m.Reserve v (m.growCapacity v) else pure v)
        = Except.error Panic.makeslice ∧ v.size = v.capacity ∧
      (m.maxElems : Int) < 2 * v.capacity) := by
  have hv2 := hv
  obtain ⟨a, b, c, d, e⟩ := hv2
  have hme := m.maxElems_le
  have hmp := m.maxElems_pos
  by_cases hs : v.size = v.capacity
  · rw [if_pos hs]
    rcases Machine.Reserve_cases m v (m.growCapacity v) hv with
      ⟨u, e1, hu, k1, k2, k3, k4, k5, k6⟩ | ⟨e1, k1, k2⟩
    · left
      refine ⟨u, e1, hu, k1, k2, k3, k4, ?_, fun h => absurd hs h⟩
      intro hg
      rcases hg with hg | ⟨_, hg⟩
      · omega
      · have hgc : v.capacity < m.growCapacity v := by
          unfold Machine.growCapacity
          split
          · omega
          · rw [wrapInt_eq _ (by omega) (by omega)]
            omega
        have := (k6 hgc).1
        omega
    · right
      refine ⟨e1, hs, ?_⟩
      unfold Machine.growCapacity at k1 k2
      split at k1
      · omega
      · rename_i hne
        rcases wrapInt_double v.capacity (by omega) (by omega) with ⟨_, hw⟩ | ⟨_, hw⟩
        · rw [hw] at k2
          omega
        · omega
  · rw [if_neg hs]
    left
    refine ⟨v, rfl, hv, rfl, rfl, rfl, le_refl _, ?_, fun _ => rfl⟩
    intro hg
    rcases hg with hg | ⟨hg, _⟩
    · exact hg
    · exact absurd hg hs

/-- The shift `Insert` performs on an array `B` whose first `l` elements are live:
the elements from `i` on move one place to the right and `x` lands at `i`. -/
theorem insert_shift (B : List α) (l i : Nat) (x : α) (hl : l < B.length) (hi : i ≤ l) :
    List.take (l + 1) ((writeAt B (i + 1)
        (List.take (l - i) (List.take (l - i) (List.drop i B)))).set i x) =
      List.take i (List.take l B) ++ x :: List.drop i (List.take l B) := by
  have hsrc : (List.take (l - i) (List.take (l - i) (List.drop i B))).length = l - i := by
    simp; omega
  have hlen : (writeAt B (i + 1)
      (List.take (l - i) (List.take (l - i) (List.drop i B)))).length = B.length :=
    length_writeAt _ _ _ (by rw [hsrc]; omega)
  apply List.ext_getElem?
  intro j
  rw [List.getElem?_take, List.getElem?_set, hlen,
    getElem?_writeAt _ _ _ (by rw [hsrc]; omega), hsrc, List.getElem?_append,
    List.getElem?_take, List.getElem?_take]
  simp only [List.length_take, List.getElem?_take, List.getElem?_drop]
  have hm : i ⊓ (l ⊓ B.length) = i := by omega
  rw [hm]
  rcases Nat.lt_trichotomy j i with h | h | h
  · have c1 : j < l + 1 := by omega
    have c2 : ¬ i = j := by omega
    have c3 : j < i + 1 := by omega
    have c4 : j < l := by omega
    simp only [c1, c2, c3, c4, h, if_true, if_false]
  · subst h
    have c1 : j < l + 1 := by omega
    have c2 : j < B.length := by omega
    simp only [c1, c2, if_true, Nat.lt_irrefl, if_false, Nat.sub_self,
      List.getElem?_cons_zero]
  · by_cases hj : j < l + 1
    · have c2 : ¬ i = j := by omega
      have c3 : ¬ j < i + 1 := by omega
      have c4 : j < i + 1 + (l - i) := by omega
      have c7 : ¬ j < i := by omega
      obtain ⟨k, rfl⟩ : ∃ k, j = i + 1 + k := ⟨j - (i + 1), by omega⟩
      have c5 : i + 1 + k - (i + 1) < l - i := by omega
      have c8 : i + 1 + k - i = k + 1 := by omega
      have c9 : i + (i + 1 + k - (i + 1)) = i + k := by omega
      have c10 : i + k < l := by omega
      simp only [hj, c2, c3, c4, c5, c7, c8, c9, c10, if_true, if_false,
        List.getElem?_cons_succ, List.getElem?_drop, List.getElem?_take]
    · have c7 : ¬ j < i := by omega
      simp only [hj, c7, if_false]
      symm
      rw [List.getElem?_eq_none_iff]
      simp
      omega

theorem Machine.PushBack_unfold (m : Machine) (v : Vector α) (x : α) :
    m.PushBack v x =
      ((if v.size = v.capacity then m.Reserve v (m.growCapacity v) else pure v) >>= fun u =>
        m.append u.data [x] >>= fun data =>
          pure ⟨data, wrapInt (u.size + 1), data.cap⟩) := by
  unfold Machine.PushBack
  split <;> rfl

/-- What `PushBack` does on the machine, in every state the invariant allows. -/
theorem Machine.PushBack_cases (m : Machine) (v : Vector α) (x : α) (hv : m.Inv v) :
    (∃ w, m.PushBack v x = .ok w ∧ m.Inv w ∧ w.size = v.size + 1 ∧
      w.data.elems = v.data.elems ++ [x] ∧ w.capacity = (w.data.cap : Int) ∧
      v.capacity ≤ w.capacity) ∨
    (m.PushBack v x = .error .makeslice ∧ ¬ m.CanGrow v) ∨
    (m.PushBack v x = .error .growslice ∧ ¬ m.CanGrow v) := by
  have hme := m.maxElems_le
  rw [Machine.PushBack_unfold]
  rcases Machine.grow_cases m v hv with ⟨u, e, hu, k1, k2, k3, k4, k5, k6⟩ | ⟨e, k1, k2⟩
  · rw [e]
    obtain ⟨a, b, c, d, f⟩ := hu
    rcases Machine.append_cases m u.data [x] with ⟨e2, _⟩ | ⟨e2, h2, _⟩
    · left
      obtain ⟨_, q2, q3, q4, q5, q6⟩ := Machine.append_ok m u.data _ [x] e2 b f
      have hsz : wrapInt (u.size + 1) = u.size + 1 := by
        apply wrapInt_eq
        · omega
        · simp only [List.length_singleton] at q2
          omega
      refine ⟨⟨u.data.append m.toRuntime [x], u.size + 1,
        (u.data.append m.toRuntime [x]).cap⟩, ?_, ?_, ?_, ?_, rfl, ?_⟩
      · show (m.append u.data [x] >>= fun data =>
          (pure ⟨data, wrapInt (u.size + 1), data.cap⟩ : Except Panic (Vector α))) = _
        rw [e2, hsz]
        rfl
      · refine ⟨?_, q3, ?_, le_refl _, q5⟩
        · simp only [List.length_singleton] at q2
          simp only [q2]
          omega
        · simp only []
          omega
      · simp only [k1]
      · simp only [q6, k2]
      · simp only []
        omega
    · right; right
      refine ⟨?_, ?_⟩
      · show (m.append u.data [x] >>= fun data =>
          (pure ⟨data, wrapInt (u.size + 1), data.cap⟩ : Except Panic (Vector α))) = _
        rw [e2]
        rfl
      · intro hg
        have := k5 hg
        simp only [List.length_singleton] at h2
        omega
  · right; left
    rw [e]
    refine ⟨rfl, ?_⟩
    intro hg
    rcases hg with hg | ⟨_, hg⟩ <;> omega

theorem Machine.PushBack_total (m : Machine) (v : Vector α) (x : α) (hv : m.Inv v)
    (hg : m.CanGrow v) :
    ∃ w, m.PushBack v x = .ok w ∧ m.Inv w ∧ w.size = v.size + 1 ∧
      w.data.elems = v.data.elems ++ [x] ∧ w.capacity = (w.data.cap : Int) ∧
      v.capacity ≤ w.capacity := by
  rcases Machine.PushBack_cases m v x hv with h | ⟨_, h⟩ | ⟨_, h⟩
  · exact h
  · exact absurd hg h
  · exact absurd hg h

theorem Machine.Insert_unfold (m : Machine) (v : Vector α) (index : Int) (x : α)
    (h : ¬ (index < 0 ∨ index > v.size)) :
    m.Insert v index x =
      ((if v.size = v.capacity then m.Reserve v (m.growCapacity v) else pure v) >>= fun u =>
        m.append u.data [default] >>= fun data => do
          let dst ← data.window (wrapInt (index + 1)) data.len
          let src ← data.window index u.size
          let data := data.copyInto dst (data.read src)
          let data ← data.setIndex index x
          pure (⟨data, wrapInt (u.size + 1), u.capacity⟩, none)) := by
  unfold Machine.Insert
  rw [if_neg h]
  split <;> rfl

/-- The part of `Insert` after `append`: the shift and the store. -/
theorem Machine.Insert_rest (u : Vector α) (d : Slice α) (index : Int) (x : α)
    (h0 : 0 ≤ index) (h1 : index ≤ u.size) (hl : (u.data.len : Int) = u.size)
    (hd : d.len = u.data.len + 1) (hc : d.len ≤ d.cap) (hm : (d.cap : Int) ≤ maxInt) :
    ∃ w, (do
        let dst ← d.window (wrapInt (index + 1)) d.len
        let src ← d.window index u.size
        let data := d.copyInto dst (d.read src)
        let data ← data.setIndex index x
        pure ((⟨data, wrapInt (u.size + 1), u.capacity⟩ : Vector α), (none : Option String)))
        = Except.ok (w, none) ∧
      w.size = u.size + 1 ∧ w.capacity = u.capacity ∧ w.data.len = d.len ∧
      w.data.cap = d.cap ∧
      w.data.elems = (d.arr.take u.data.len).take index.toNat ++
        x :: (d.arr.take u.data.len).drop index.toNat := by
  obtain ⟨B, dl⟩ := d
  obtain ⟨⟨A, l⟩, sz, cp⟩ := u
  simp only [Slice.cap] at *
  subst hl
  subst hd
  lift index to ℕ using h0
  have hi : index ≤ l := by omega
  have hlB : l < B.length := by omega
  have e1 : wrapInt ((index : Int) + 1) = (index : Int) + 1 :=
    wrapInt_eq _ (by omega) (by omega)
  have e2 : wrapInt ((l : Int) + 1) = (l : Int) + 1 := wrapInt_eq _ (by omega) (by omega)
  have hw1 : (0 : Int) ≤ (index : Int) + 1 ∧ (index : Int) + 1 ≤ ((l + 1 : Nat) : Int)
      ∧ ((l + 1 : Nat) : Int) ≤ (B.length : Int) := by omega
  have hw2 : (0 : Int) ≤ (index : Int) ∧ (index : Int) ≤ (l : Int)
      ∧ (l : Int) ≤ (B.length : Int) := by omega
  have hsrc : (List.take (l - index) (List.take (l - index) (List.drop index B))).length
      = l - index := by
    simp; omega
  have hlen2 : (writeAt B (index + 1)
      (List.take (l - index) (List.take (l - index) (List.drop index B)))).length
      = B.length := length_writeAt _ _ _ (by rw [hsrc]; omega)
  have hs : (0 : Int) ≤ (index : Int) ∧ (index : Int) < ((l + 1 : Nat) : Int) ∧
      (index : Int) < (B.length : Int) := by omega
  have t1 : ((index : Int) + 1).toNat = index + 1 := by omega
  refine ⟨⟨⟨(writeAt B (index + 1)
      (List.take (l - index) (List.take (l - index) (List.drop index B)))).set index x,
      l + 1⟩, (l : Int) + 1, cp⟩, ?_, rfl, rfl, rfl, ?_, ?_⟩
  · rw [e1, e2]
    simp only [bind, Except.bind, pure, Except.pure, Slice.window, Slice.cap,
      Slice.copyInto, Slice.read, Slice.setIndex, hw1, hw2, and_self, if_true,
      Int.toNat_ofNat, Int.toNat_natCast, t1, Nat.add_sub_add_right, hlen2, hs]
  · simp only [Slice.cap, List.length_set, hlen2]
  · simp only [Slice.elems, Int.toNat_ofNat, Int.toNat_natCast]
    exact insert_shift B l index x hlB hi

theorem Machine.Insert_outOfRange (m : Machine) (v : Vector α) (index : Int) (x : α)
    (h : index < 0 ∨ index > v.size) : m.Insert v index x = .ok (v, some errOutOfRange) := by
  simp [Machine.Insert, h, pure, Except.pure]

/-- What an in-range `Insert` does on the machine, in every state the invariant allows. -/
theorem Machine.Insert_cases (m : Machine) (v : Vector α) (index : Int) (x : α)
    (hv : m.Inv v) (h0 : 0 ≤ index) (h1 : index ≤ v.size) :
    (∃ w, m.Insert v index x = .ok (w, none) ∧ m.Inv w ∧ w.size = v.size + 1 ∧
      w.data.elems = v.data.elems.take index.toNat ++ x :: v.data.elems.drop index.toNat ∧
      v.capacity ≤ w.capacity ∧ (v.size ≠ v.capacity → w.capacity = v.capacity)) ∨
    (m.Insert v index x = .error .makeslice ∧ ¬ m.CanGrow v) ∨
    (m.Insert v index x = .error .growslice ∧ ¬ m.CanGrow v) := by
  have hme := m.maxElems_le
  rw [Machine.Insert_unfold m v index x (by omega)]
  rcases Machine.grow_cases m v hv with ⟨u, e, hu, k1, k2, k3, k4, k5, k6⟩ | ⟨e, k1, k2⟩
  · rw [e]
    obtain ⟨a, b, c, d, f⟩ := hu
    rcases Machine.append_cases m u.data [default] with ⟨e2, _⟩ | ⟨e2, h2, _⟩
    · left
      obtain ⟨_, q2, q3, q4, q5, q6⟩ := Machine.append_ok m u.data _ [default] e2 b f
      simp only [List.length_singleton] at q2
      obtain ⟨w, e3, r1, r2, r3, r4, r5⟩ := Machine.Insert_rest u
        (u.data.append m.toRuntime [default]) index x h0 (by omega) a q2 q3 (by omega)
      have htake : (u.data.append m.toRuntime [default]).arr.take u.data.len
          = u.data.elems := by
        have hlen : u.data.elems.length = u.data.len := by
          simp only [Slice.elems, Slice.cap, List.length_take] at *
          omega
        have h3 : (u.data.append m.toRuntime [default]).elems.take u.data.len
            = u.data.elems := by
          rw [q6, ← hlen, List.take_left']
          rfl
        rw [← h3]
        simp only [Slice.elems, List.take_take, q2]
        congr 1
        omega
      refine ⟨w, ?_, ?_, by omega, ?_, by omega, ?_⟩
      · show (m.append u.data [default] >>= _) = _
        rw [e2]
        exact e3
      · refine ⟨by omega, by omega, by omega, by omega, by omega⟩
      · rw [r5, htake, k2]
      · intro hne
        rw [r2, k6 hne]
    · right; right
      refine ⟨?_, ?_⟩
      · show (m.append u.data [default] >>= _) = _
        rw [e2]
        rfl
      · intro hg
        have := k5 hg
        simp only [List.length_singleton] at h2
        omega
  · right; left
    rw [e]
    refine ⟨rfl, ?_⟩
    intro hg
    rcases hg with hg | ⟨_, hg⟩ <;> omega

theorem Machine.Insert_total (m : Machine) (v : Vector α) (index : Int) (x : α)
    (hv : m.Inv v) (h0 : 0 ≤ index) (h1 : index ≤ v.size) (hg : m.CanGrow v) :
    ∃ w, m.Insert v index x = .ok (w, none) ∧ m.Inv w ∧ w.size = v.size + 1 ∧
      w.data.elems = v.data.elems.take index.toNat ++ x :: v.data.elems.drop index.toNat ∧
      v.capacity ≤ w.capacity ∧ (v.size ≠ v.capacity → w.capacity = v.capacity) := by
  rcases Machine.Insert_cases m v index x hv h0 h1 with h | ⟨_, h⟩ | ⟨_, h⟩
  · exact h
  · exact absurd hg h
  · exact absurd hg h

/-- The part of `Resize` after `Reserve`: the slice is stretched to `n` elements and
the new positions are filled. -/
theorem Vector.Resize_tail (u : Vector α) (n : Int) (x : α)
    (hl : (u.data.len : Int) = u.size) (hn : u.size < n) (hc : n ≤ (u.data.cap : Int)) :
    ∃ w, (do
        let data ← u.data.reslice n
        let data ← Slice.fillLoop x (n - u.size).toNat u.size data
        pure (⟨data, n, u.capacity⟩ : Vector α)) = Except.ok w ∧
      w.size = n ∧ w.capacity = u.capacity ∧ (w.data.len : Int) = n ∧
      w.data.cap = u.data.cap ∧
      w.data.elems = u.data.elems ++ List.replicate (n - u.size).toNat x := by
  obtain ⟨⟨A, l⟩, sz, cp⟩ := u
  simp only [Slice.cap] at *
  subst hl
  lift n to ℕ using (by omega)
  have hr : (0 : Int) ≤ (n : Int) ∧ (n : Int) ≤ (A.length : Int) := by omega
  have hk : ((n : Int) - (l : Int)).toNat = n - l := by omega
  have hfill := Slice.fillLoop_spec x (n - l) l ⟨A, n⟩ (by simp only []; omega)
    (by simp only [Slice.cap]; omega)
  have hlen : (writeAt A l (List.replicate (n - l) x)).length = A.length :=
    length_writeAt _ _ _ (by simp; omega)
  refine ⟨⟨⟨writeAt A l (List.replicate (n - l) x), n⟩, n, cp⟩, ?_, rfl, rfl, rfl, ?_, ?_⟩
  · simp only [bind, Except.bind, pure, Except.pure, Slice.reslice, Slice.cap, hr, and_self,
      if_true, Int.toNat_ofNat, Int.toNat_natCast, hk, hfill]
  · simp only [Slice.cap, hlen]
  · simp only [Slice.elems, hk]
    apply List.ext_getElem?
    intro j
    rw [List.getElem?_take, getElem?_writeAt _ _ _ (by simp; omega), List.getElem?_append]
    simp only [List.getElem?_take, List.length_take, List.length_replicate,
      List.getElem?_replicate]
    have hm : l ⊓ A.length = l := by omega
    rw [hm]
    by_cases c1 : j < l
    · have c2 : j < n := by omega
      simp only [c1, c2, if_true]
    · by_cases c2 : j < n
      · have c3 : j < l + (n - l) := by omega
        have c4 : j - l < n - l := by omega
        simp only [c1, c2, c3, c4, if_true, if_false]
      · have c4 : ¬ j - l < n - l := by omega
        simp only [c1, c2, c4, if_false]

theorem Machine.Resize_down (m : Machine) (v : Vector α) (n : Int) (x : α)
    (hl : (v.data.len : Int) = v.size) (hc : v.data.len ≤ v.data.cap)
    (h : (if n < 0 then 0 else n) ≤ v.size) :
    m.Resize v n x = .ok ⟨⟨v.data.arr, (if n < 0 then 0 else n).toNat⟩,
      (if n < 0 then 0 else n), v.capacity⟩ := by
  have h0 : (0 : Int) ≤ (if n < 0 then 0 else n) := by split <;> omega
  have hr : (0 : Int) ≤ (if n < 0 then 0 else n) ∧
      (if n < 0 then 0 else n) ≤ (v.data.cap : Int) := by omega
  unfold Machine.Resize
  simp only [h, if_true, Slice.reslice, hr, and_self, bind, Except.bind, pure, Except.pure]

theorem Machine.Resize_unfold (m : Machine) (v : Vector α) (n : Int) (x : α)
    (h : ¬ (if n < 0 then 0 else n) ≤ v.size) :
    m.Resize v n x =
      ((if (if n < 0 then 0 else n) > v.capacity then m.Reserve v (if n < 0 then 0 else n)
        else pure v) >>= fun u => do
        let data ← u.data.reslice (if n < 0 then 0 else n)
        let data ← Slice.fillLoop x ((if n < 0 then 0 else n) - u.size).toNat u.size data
        pure ⟨data, (if n < 0 then 0 else n), u.capacity⟩) := by
  unfold Machine.Resize
  simp only [h, if_false]
  by_cases hc : (if n < 0 then 0 else n) > v.capacity
  · simp only [hc, if_true]
  · simp only [hc, if_false]

/-- What `Resize` does on the machine, in every state the invariant allows. -/
theorem Machine.Resize_cases (m : Machine) (v : Vector α) (n : Int) (x : α)
    (hv : m.Inv v) :
    (∃ w, m.Resize v n x = .ok w ∧ m.Inv w ∧ w.size = max n 0 ∧ v.capacity ≤ w.capacity ∧
      (max n 0 ≤ v.size → w.capacity = v.capacity ∧
        w.data.elems = v.data.elems.take (max n 0).toNat) ∧
      (v.size < max n 0 →
        w.data.elems = v.data.elems ++ List.replicate (max n 0 - v.size).toNat x ∧
        max n 0 ≤ w.capacity)) ∨
    (m.Resize v n x = .error .makeslice ∧ v.size < n ∧ v.capacity < n ∧
      (m.maxElems : Int) < n) := by
  have hv2 := hv
  obtain ⟨a, b, c, d, e⟩ := hv2
  have hm := clamp_eq_max n
  by_cases hs : (if n < 0 then 0 else n) ≤ v.size
  · left
    have e1 := Machine.Resize_down m v n x a b hs
    rw [hm] at e1 hs
    refine ⟨_, e1, ?_, rfl, le_refl _, ?_, ?_⟩
    · refine ⟨?_, ?_, c, d, e⟩
      · simp only []; omega
      · simp only [Slice.cap] at *; omega
    · intro _
      refine ⟨rfl, ?_⟩
      simp only [Slice.elems, List.take_take]
      congr 1
      omega
    · intro hlt
      omega
  · rw [hm] at hs
    have hn : max n 0 = n := by omega
    have hnn : (if n < 0 then 0 else n) = n := by rw [hm, hn]
    rw [Machine.Resize_unfold m v n x (by rw [hm]; exact hs), hnn]
    by_cases hc : n > v.capacity
    · rw [if_pos hc]
      rcases Machine.Reserve_cases m v n hv with
        ⟨u, e1, hu, k1, k2, k3, k4, _, k6⟩ | ⟨e1, _, k2⟩
      · left
        rw [e1]
        obtain ⟨q1, q2, _, _⟩ := k6 hc
        obtain ⟨ua, ub, uc, ud, ue⟩ := hu
        obtain ⟨w, e2, r1, r2, r3, r4, r5⟩ :=
          Vector.Resize_tail u n x ua (by omega) (by omega)
        refine ⟨w, e2, ?_, by rw [hn]; exact r1, by omega, ?_, ?_⟩
        · refine ⟨by omega, by omega, by omega, by omega, by omega⟩
        · intro hle
          omega
        · intro _
          rw [hn, r5, k2, k1]
          exact ⟨rfl, by omega⟩
      · right
        rw [e1]
        exact ⟨rfl, by omega, by omega, by omega⟩
    · left
      rw [if_neg hc]
      obtain ⟨w, e2, r1, r2, r3, r4, r5⟩ :=
        Vector.Resize_tail v n x a (by omega) (by omega)
      refine ⟨w, e2, ?_, by rw [hn]; exact r1, by omega, ?_, ?_⟩
      · refine ⟨by omega, by omega, by omega, by omega, by omega⟩
      · intro hle
        omega
      · intro _
        rw [hn, r5]
        exact ⟨rfl, by omega⟩

theorem Machine.WithCapacity_cases (m : Machine) (c : Int) (u : Vector α) :
    ((if c < 0 then 0 else c) ≤ (m.maxElems : Int) ∧
      m.WithCapacity c u = .ok ⟨⟨List.replicate (if c < 0 then 0 else c).toNat default, 0⟩,
        0, (if c < 0 then 0 else c)⟩) ∨
    ((m.maxElems : Int) < (if c < 0 then 0 else c) ∧
      m.WithCapacity c u = .error .makeslice) := by
  have h0 : (0 : Int) ≤ (if c < 0 then 0 else c) := by split <;> omega
  by_cases h : (if c < 0 then 0 else c) ≤ (m.maxElems : Int)
  · left
    refine ⟨h, ?_⟩
    have hm : ¬ ((0 : Int) < 0 ∨ (if c < 0 then 0 else c) < 0) := by omega
    unfold Machine.WithCapacity
    simp only [Machine.make_eq m _ _ h, Slice.make, hm, if_false, bind, Except.bind, pure,
      Except.pure]
    rfl
  · right
    refine ⟨by omega, ?_⟩
    unfold Machine.WithCapacity
    have hp : (m.make 0 (if c < 0 then 0 else c) : Except Panic (Slice α))
        = .error .makeslice := Machine.make_panic m 0 _ (Or.inr (Or.inr (by omega)))
    simp only [hp, bind, Except.bind]

theorem Machine.WithSize_cases (m : Machine) (n : Int) (d : α) (u : Vector α) :
    ((if n < 0 then 0 else n) ≤ (m.maxElems : Int) ∧
      m.WithSize n d u = vector.WithSize n d u) ∨
    ((m.maxElems : Int) < (if n < 0 then 0 else n) ∧
      m.WithSize n d u = .error .makeslice) := by
  by_cases h : (if n < 0 then 0 else n) ≤ (m.maxElems : Int)
  · left
    refine ⟨h, ?_⟩
    unfold Machine.WithSize vector.WithSize
    simp only [Machine.make_eq m _ _ h]
  · right
    refine ⟨by omega, ?_⟩
    unfold Machine.WithSize
    have hp : (m.make (if n < 0 then 0 else n) (if n < 0 then 0 else n) :
        Except Panic (Slice α)) = .error .makeslice :=
      Machine.make_panic m _ _ (Or.inr (Or.inr (by omega)))
    simp only [hp, bind, Except.bind]

theorem Machine.WithFill_eq (m : Machine) (n : Int) (d : α) :
    (m.WithFill n d : VOption α) = m.WithSize n d := rfl

theorem Machine.WithValues_cases (m : Machine) (vs : List α) (u : Vector α) :
    (m.WithValues vs u = vector.WithValues m.toRuntime vs u ∧
      (vs.length = 0 ∨ m.appendCap 0 vs.length ≤ m.maxElems)) ∨
    (m.WithValues vs u = .error .growslice ∧ m.appendCap 0 vs.length > m.maxElems) := by
  unfold Machine.WithValues vector.WithValues
  rcases Machine.append_cases m (Slice.nil : Slice α) vs with ⟨e, h⟩ | ⟨e, _, h⟩
  · left
    rw [e]
    refine ⟨rfl, ?_⟩
    simp only [Slice.nil, Slice.cap, List.length_nil, Nat.zero_add] at h
    omega
  · right
    rw [e]
    refine ⟨rfl, ?_⟩
    simp only [Slice.nil, Slice.cap, List.length_nil, Nat.zero_add] at h
    have h3 := m.appendCap_ge 0 vs.length
    have h4 := m.maxElems_le
    omega

theorem Machine.FromSlice_eq (m : Machine) (vs : List α) :
    (m.FromSlice vs : VOption α) = m.WithValues vs := rfl

/-- An in-range `Erase` on a vector whose slice has `size` elements, whatever the
recorded capacity is. -/
theorem Vector.Erase_weak (v : Vector α) (index : Int) (a : (v.data.len : Int) = v.size)
    (b : v.data.len ≤ v.data.cap) (h0 : 0 ≤ index) (h1 : index < v.size) :
    ∃ w, v.Erase index = .ok (w, none) ∧ (w.data.len : Int) = w.size ∧
      w.data.cap = v.data.cap ∧ w.size = v.size - 1 ∧
      w.data.elems = v.data.elems.eraseIdx index.toNat ∧ w.capacity = v.capacity := by
  obtain ⟨⟨A, l⟩, sz, cp⟩ := v
  simp only [Slice.cap] at a b h1 ⊢
  subst a
  lift index to ℕ using h0
  have hi : index < l := by omega
  have hc : ¬ ((index : Int) < 0 ∨ (index : Int) ≥ (l : Int)) := by omega
  have hw1 : (0 : Int) ≤ (index : Int) ∧ (index : Int) ≤ (l : Int)
      ∧ (l : Int) ≤ (A.length : Int) := by omega
  have hw2 : (0 : Int) ≤ (index : Int) + 1 ∧ (index : Int) + 1 ≤ (l : Int)
      ∧ (l : Int) ≤ (A.length : Int) := by omega
  have e1 : ((index : Int) + 1).toNat = index + 1 := by omega
  have e2 : ((l : Int) - 1).toNat = l - 1 := by omega
  have hsrc : (List.take (l - index)
      ((List.drop (index + 1) A).take (l - (index + 1)))).length = l - (index + 1) := by
    simp; omega
  have hlen2 : (writeAt A index (List.take (l - index)
      ((List.drop (index + 1) A).take (l - (index + 1))))).length = A.length := by
    rw [length_writeAt]
    rw [hsrc]; omega
  have hr : (0 : Int) ≤ (l : Int) - 1 ∧ (l : Int) - 1 ≤ (A.length : Int) := by omega
  refine ⟨⟨⟨writeAt A index (List.take (l - index)
      ((List.drop (index + 1) A).take (l - (index + 1)))), l - 1⟩, (l : Int) - 1, cp⟩,
      ?_, ?_, ?_, ?_, ?_, ?_⟩
  · simp only [Vector.Erase, hc, if_false, bind, Except.bind, pure, Except.pure, Slice.window,
      Slice.cap, Slice.copyInto, Slice.read, Slice.reslice, hw1, hw2, and_self, if_true,
      Int.toNat_ofNat, Int.toNat_natCast, e1, e2, hlen2, hr]
  · simp only []; omega
  · simp only [Slice.cap, hlen2]
  · rfl
  · simp only [Slice.elems, Int.toNat_ofNat, Int.toNat_natCast]
    apply List.ext_getElem?
    intro j
    rw [List.getElem?_take, getElem?_writeAt _ _ _ (by rw [hsrc]; omega), hsrc,
      List.getElem?_eraseIdx]
    simp only [List.getElem?_take, List.getElem?_drop]
    by_cases hj : j < index
    · have c1 : j < l - 1 := by omega
      have c2 : j < l := by omega
      simp only [hj, c1, c2, if_true]
    · by_cases hj2 : j < l - 1
      · have c1 : j < index + (l - (index + 1)) := by omega
        have c2 : j - index < l - index := by omega
        have c3 : j - index < l - (index + 1) := by omega
        have c4 : index + 1 + (j - index) = j + 1 := by omega
        have c5 : j + 1 < l := by omega
        simp only [hj, hj2, c1, c2, c3, c4, c5, if_true, if_false]
      · have c5 : ¬ j + 1 < l := by omega
        simp only [hj, hj2, c5, if_false]
  · rfl

theorem Vector.PopBack_weak (v : Vector α) (a : (v.data.len : Int) = v.size)
    (b : v.data.len ≤ v.data.cap) (hs : v.size ≠ 0) :
    v.PopBack = .ok (⟨⟨v.data.arr, (v.size - 1).toNat⟩, v.size - 1, v.capacity⟩, none) := by
  have hr : (0 : Int) ≤ v.size - 1 ∧ v.size - 1 ≤ (v.data.cap : Int) := by omega
  simp only [Vector.PopBack, hs, if_false, Slice.reslice, hr, and_self, if_true, bind,
    Except.bind, pure, Except.pure]

theorem Vector.Clear_weak (v : Vector α) :
    v.Clear = .ok ⟨⟨v.data.arr, 0⟩, 0, v.capacity⟩ := by
  have hr : (0 : Int) ≤ 0 ∧ (0 : Int) ≤ (v.data.cap : Int) := by omega
  simp only [Vector.Clear, Slice.reslice, hr, and_self, if_true, bind, Except.bind, pure,
    Except.pure]
  rfl

/-- The vector with its recorded capacity replaced by the capacity of its array. -/
theorem Machine.Inv.recap (m : Machine) (v : Vector α) (hv : m.Inv v) :
    (⟨v.data, v.size, v.data.cap⟩ : Vector α).Inv := by
  obtain ⟨a, b, _, _, _⟩ := hv
  exact ⟨a, by simp only []; omega, le_refl _⟩

theorem Machine.Data_value (m : Machine) (v : Vector α) (hv : m.Inv v) :
    ∃ d, v.Data = .ok d ∧ d.elems = v.data.elems ∧ (d.elems.length : Int) = v.size :=
  Vector.Data_spec ⟨v.data, v.size, v.data.cap⟩ (Machine.Inv.recap m v hv)

theorem Machine.live_value (m : Machine) (v : Vector α) (hv : m.Inv v) :
    v.live = .ok v.data.elems ∧ (v.data.elems.length : Int) = v.size :=
  Vector.live_spec ⟨v.data, v.size, v.data.cap⟩ (Machine.Inv.recap m v hv)

theorem Machine.At_value (m : Machine) (v : Vector α) (index : Int) (hv : m.Inv v)
    (h0 : 0 ≤ index) (h1 : index < v.size) :
    ∃ x, v.At index = .ok (x, none) ∧ v.data.elems[index.toNat]? = some x :=
  Vector.At_spec ⟨v.data, v.size, v.data.cap⟩ index (Machine.Inv.recap m v hv) h0 h1

theorem Machine.Front_value (m : Machine) (v : Vector α) (hv : m.Inv v) (hs : v.size ≠ 0) :
    ∃ x, v.Front = .ok (x, none) ∧ v.data.elems[0]? = some x :=
  Vector.Front_spec ⟨v.data, v.size, v.data.cap⟩ (Machine.Inv.recap m v hv) hs

theorem Machine.Back_value (m : Machine) (v : Vector α) (hv : m.Inv v) (hs : v.size ≠ 0) :
    ∃ x, v.Back = .ok (x, none) ∧ v.data.elems[(v.size - 1).toNat]? = some x :=
  Vector.Back_spec ⟨v.data, v.size, v.data.cap⟩ (Machine.Inv.recap m v hv) hs

theorem Machine.copy_cases (m : Machine) (vs : List α) :
    (∃ d, m.append (Slice.nil : Slice α) vs = .ok d ∧ d = Slice.nil.append m.toRuntime vs ∧
      d.len = vs.length ∧ d.elems = vs ∧
      m.Inv (⟨d, d.len, d.len⟩ : Vector α)) ∨
    (m.append (Slice.nil : Slice α) vs = .error .growslice ∧
      m.appendCap 0 vs.length > m.maxElems) := by
  rcases Machine.append_cases m (Slice.nil : Slice α) vs with ⟨e, _⟩ | ⟨e, _, h⟩
  · left
    obtain ⟨_, q2, q3, _, q5, q6⟩ := Machine.append_ok m Slice.nil _ vs e
      (by simp [Slice.nil]) (by simp [Slice.nil, Slice.cap])
    refine ⟨_, e, rfl, ?_, ?_, ?_⟩
    · rw [q2]; simp [Slice.nil]
    · rw [q6]; simp [Slice.nil, Slice.elems]
    · refine ⟨rfl, q3, ?_, ?_, q5⟩
      · simp only []; omega
      · simp only []; omega
  · right
    refine ⟨e, ?_⟩
    simp only [Slice.nil, Slice.cap, List.length_nil, Nat.zero_add] at h
    have h3 := m.appendCap_ge 0 vs.length
    have h4 := m.maxElems_le
    omega

theorem Machine.WithValues_run (m : Machine) (vs : List α) (u : Vector α) :
    (∃ d, m.WithValues vs u = .ok ⟨d, d.len, d.len⟩ ∧ d.len = vs.length ∧ d.elems = vs ∧
      m.Inv (⟨d, d.len, d.len⟩ : Vector α)) ∨
    (m.WithValues vs u = .error .growslice ∧ m.appendCap 0 vs.length > m.maxElems) := by
  unfold Machine.WithValues
  rcases Machine.copy_cases m vs with ⟨d, e, _, h1, h2, h3⟩ | ⟨e, h⟩
  · left
    rw [e]
    exact ⟨d, rfl, h1, h2, h3⟩
  · right
    rw [e]
    exact ⟨rfl, h⟩

theorem Machine.fill_holds (m : Machine) (k : Int) (d : α) (h0 : 0 ≤ k)
    (h1 : k ≤ (m.maxElems : Int)) :
    m.Inv (⟨⟨writeAt (List.replicate k.toNat default) 0 (List.replicate k.toNat d),
      k.toNat⟩, k, k⟩ : Vector α) := by
  have hlen : (writeAt (List.replicate k.toNat (default : α)) 0
      (List.replicate k.toNat d)).length = k.toNat := by
    rw [length_writeAt _ _ _ (by simp)]
    simp
  refine ⟨?_, ?_, h0, ?_, ?_⟩
  · simp only []; omega
  · simp only [Slice.cap, hlen]; omega
  · simp only [Slice.cap, hlen]; omega
  · simp only [Slice.cap, hlen]; omega

theorem Machine.WithSize_run (m : Machine) (n : Int) (d : α) (u : Vector α) :
    (max n 0 ≤ (m.maxElems : Int) ∧
      m.WithSize n d u = .ok ⟨⟨writeAt (List.replicate (max n 0).toNat default) 0
        (List.replicate (max n 0).toNat d), (max n 0).toNat⟩, max n 0, max n 0⟩) ∨
    ((m.maxElems : Int) < max n 0 ∧ m.WithSize n d u = .error .makeslice) := by
  rcases Machine.WithSize_cases m n d u with ⟨h, e⟩ | ⟨h, e⟩
  · left
    rw [clamp_eq_max] at h
    refine ⟨h, ?_⟩
    rw [e, WithSize_spec, clamp_eq_max]
  · right
    rw [clamp_eq_max] at h
    exact ⟨h, e⟩

theorem Machine.WithCapacity_run (m : Machine) (c : Int) (u : Vector α) :
    (max c 0 ≤ (m.maxElems : Int) ∧
      m.WithCapacity c u = .ok ⟨⟨List.replicate (max c 0).toNat default, 0⟩, 0, max c 0⟩) ∨
    ((m.maxElems : Int) < max c 0 ∧ m.WithCapacity c u = .error .makeslice) := by
  rcases Machine.WithCapacity_cases m c u with ⟨h, e⟩ | ⟨h, e⟩
  · left
    rw [clamp_eq_max] at h e
    exact ⟨h, e⟩
  · right
    rw [clamp_eq_max] at h
    exact ⟨h, e⟩

/-- An option of the package either builds a vector that satisfies the invariant or
panics in `make` or `append`. -/
theorem Machine.Builtin.cases (m : Machine) (o : VOption α) (h : m.Builtin o)
    (u : Vector α) :
    (∃ w, o u = .ok w ∧ m.Inv w) ∨ o u = .error .makeslice ∨ o u = .error .growslice := by
  cases h with
  | withCapacity c =>
    rcases Machine.WithCapacity_run m c u with ⟨h, e⟩ | ⟨_, e⟩
    · left
      refine ⟨_, e, rfl, ?_, ?_, ?_, ?_⟩
      · simp only [Slice.cap, List.length_replicate]; omega
      · simp only []; omega
      · simp only [Slice.cap, List.length_replicate]; omega
      · simp only [Slice.cap, List.length_replicate]; omega
    · exact Or.inr (Or.inl e)
  | withValues vs =>
    rcases Machine.WithValues_run m vs u with ⟨d, e, _, _, hd⟩ | ⟨e, _⟩
    · exact Or.inl ⟨_, e, hd⟩
    · exact Or.inr (Or.inr e)
  | withSize n d =>
    rcases Machine.WithSize_run m n d u with ⟨h, e⟩ | ⟨_, e⟩
    · exact Or.inl ⟨_, e, Machine.fill_holds m _ d (by omega) h⟩
    · exact Or.inr (Or.inl e)
  | withFill n d =>
    rcases Machine.WithSize_run m n d u with ⟨h, e⟩ | ⟨_, e⟩
    · exact Or.inl ⟨_, e, Machine.fill_holds m _ d (by omega) h⟩
    · exact Or.inr (Or.inl e)
  | fromSlice vs =>
    rcases Machine.WithValues_run m vs u with ⟨d, e, _, _, hd⟩ | ⟨e, _⟩
    · exact Or.inl ⟨_, e, hd⟩
    · exact Or.inr (Or.inr e)

theorem Machine.foldOptions_cases (m : Machine) (options : List (VOption α)) :
    (∀ o ∈ options, m.Builtin o) → ∀ u : Vector α, m.Inv u →
    (∃ w, options.foldlM (fun v option => option v) u = Except.ok w ∧ m.Inv w) ∨
    options.foldlM (fun v option => option v) u = Except.error Panic.makeslice ∨
    options.foldlM (fun v option => option v) u = Except.error Panic.growslice := by
  induction options with
  | nil =>
    intro _ u hu
    exact Or.inl ⟨u, rfl, hu⟩
  | cons o os ih =>
    intro h u _
    rw [List.foldlM_cons]
    rcases Machine.Builtin.cases m o (h o (by simp)) u with ⟨w, e, hw⟩ | e | e
    · rw [e]
      exact ih (fun o2 ho2 => h o2 (by simp [ho2])) w hw
    · rw [e]
      exact Or.inr (Or.inl rfl)
    · rw [e]
      exact Or.inr (Or.inr rfl)

theorem Machine.New_unfold (m : Machine) (options : List (VOption α)) :
    m.New options = options.foldlM (fun v option => option v) ⟨⟨[], 0⟩, 0, 0⟩ := by
  unfold Machine.New
  have h : (m.make 0 0 : Except Panic (Slice α)) = .ok ⟨[], 0⟩ := by
    rw [Machine.make_eq m 0 0 (by omega)]
    rfl
  rw [h]
  rfl

theorem Machine.empty_inv (m : Machine) : m.Inv (⟨⟨[], 0⟩, 0, 0⟩ : Vector α) :=
  ⟨rfl, le_refl _, le_refl _, le_refl _, Nat.zero_le _⟩

theorem Machine.New_cases (m : Machine) (options : List (VOption α))
    (h : ∀ o ∈ options, m.Builtin o) :
    (∃ w, m.New options = .ok w ∧ m.Inv w) ∨ m.New options = .error .makeslice ∨
      m.New options = .error .growslice := by
  rw [Machine.New_unfold]
  exact Machine.foldOptions_cases m options h _ (Machine.empty_inv m)

theorem Machine.Assign_eq (m : Machine) (v : Vector α) (vs : List α) :
    m.Assign v vs = m.WithValues vs v := rfl

/-- The invariant of the machine holds in every reachable state. -/
theorem Machine.Reachable.holds (m : Machine) (v : Vector α) (h : m.Reachable v) :
    m.Inv v := by
  induction h with
  | new options v hb e =>
    rcases Machine.New_cases m options hb with ⟨w, e2, hw⟩ | e2 | e2
    · rw [e2] at e
      cases e
      exact hw
    · rw [e2] at e; cases e
    · rw [e2] at e; cases e
  | pushBack v w x _ e ih =>
    rcases Machine.PushBack_cases m v x ih with ⟨w2, e2, hw, _⟩ | ⟨e2, _⟩ | ⟨e2, _⟩
    · rw [e2] at e
      cases e
      exact hw
    · rw [e2] at e; cases e
    · rw [e2] at e; cases e
  | popBack v w err _ e ih =>
    obtain ⟨a, b, c, d, f⟩ := ih
    by_cases hs : v.size = 0
    · rw [Vector.PopBack_empty v hs] at e
      cases e
      exact ⟨a, b, c, d, f⟩
    · rw [Vector.PopBack_weak v a b hs] at e
      cases e
      refine ⟨?_, ?_, c, d, f⟩
      · simp only []; omega
      · simp only [Slice.cap] at *; omega
  | insert v w index x err _ e ih =>
    by_cases hs : index < 0 ∨ index > v.size
    · rw [Machine.Insert_outOfRange m v index x hs] at e
      cases e
      exact ih
    · rcases Machine.Insert_cases m v index x ih (by omega) (by omega) with
        ⟨w2, e2, hw, _⟩ | ⟨e2, _⟩ | ⟨e2, _⟩
      · rw [e2] at e
        cases e
        exact hw
      · rw [e2] at e; cases e
      · rw [e2] at e; cases e
  | erase v w index err _ e ih =>
    by_cases hs : index < 0 ∨ index ≥ v.size
    · rw [Vector.Erase_range v index hs] at e
      cases e
      exact ih
    · obtain ⟨a, b, c, d, f⟩ := ih
      obtain ⟨w2, e2, k1, k2, k3, _, k5⟩ :=
        Vector.Erase_weak v index a b (by omega) (by omega)
      rw [e2] at e
      cases e
      exact ⟨k1, by omega, by omega, by omega, by omega⟩
  | clear v w _ e ih =>
    obtain ⟨a, b, c, d, f⟩ := ih
    rw [Vector.Clear_weak v] at e
    cases e
    exact ⟨rfl, Nat.zero_le _, c, d, f⟩
  | reserve v w n _ e ih =>
    rcases Machine.Reserve_cases m v n ih with ⟨w2, e2, hw, _⟩ | ⟨e2, _⟩
    · rw [e2] at e
      cases e
      exact hw
    · rw [e2] at e; cases e
  | resize v w n x _ e ih =>
    rcases Machine.Resize_cases m v n x ih with ⟨w2, e2, hw, _⟩ | ⟨e2, _⟩
    · rw [e2] at e
      cases e
      exact hw
    · rw [e2] at e; cases e
  | assign v w vs _ e _ =>
    rw [Machine.Assign_eq] at e
    rcases Machine.WithValues_run m vs v with ⟨d, e2, _, _, hd⟩ | ⟨e2, _⟩
    · rw [e2] at e
      cases e
      exact hd
    · rw [e2] at e; cases e
  | swapReceiver v o _ _ _ ih2 => exact ih2
  | swapOther v o _ _ ih1 _ => exact ih1

/-- When doubling the capacity overflows, the growth step of `PushBack` and `Insert`
does nothing. -/
theorem Machine.grow_wrapped (m : Machine) (v : Vector α) (hv : m.Inv v)
    (hbig : maxInt < 2 * v.capacity) :
    (if v.size = v.capacity then m.Reserve v (m.growCapacity v) else pure v)
      = Except.ok v := by
  obtain ⟨a, b, c, d, e⟩ := hv
  have hme := m.maxElems_le
  by_cases hs : v.size = v.capacity
  · rw [if_pos hs]
    have hg : m.growCapacity v ≤ v.capacity := by
      unfold Machine.growCapacity
      split
      · unfold maxInt at hbig; omega
      · rcases wrapInt_double v.capacity (by unfold maxInt at hbig; omega) (by omega) with
          ⟨h1, _⟩ | ⟨_, h2⟩
        · omega
        · omega
    unfold Machine.Reserve
    rw [if_pos hg]
    rfl
  · rw [if_neg hs]
    rfl

/-- An in-range `Insert` on a full vector whose capacity can no longer be doubled:
the recorded capacity stays, whatever `append` does. -/
theorem Machine.Insert_wrapped (m : Machine) (v : Vector α) (index : Int) (x : α)
    (hv : m.Inv v) (h0 : 0 ≤ index) (h1 : index ≤ v.size)
    (hbig : maxInt < 2 * v.capacity) :
    (m.appendCap v.data.cap (v.data.len + 1) ≤ m.maxElems ∧
      ∃ w, m.Insert v index x = .ok (w, none) ∧ w.size = v.size + 1 ∧
        w.capacity = v.capacity) ∨
    (¬ v.data.len + 1 ≤ v.data.cap ∧ m.appendCap v.data.cap (v.data.len + 1) > m.maxElems ∧
      m.Insert v index x = .error .growslice) ∨
    (v.data.len + 1 ≤ v.data.cap ∧
      ∃ w, m.Insert v index x = .ok (w, none) ∧ w.size = v.size + 1 ∧
        w.capacity = v.capacity) := by
  have hme := m.maxElems_le
  rw [Machine.Insert_unfold m v index x (by omega), Machine.grow_wrapped m v hv hbig]
  obtain ⟨a, b, c, d, f⟩ := hv
  have hok : m.append v.data [default] = .ok (v.data.append m.toRuntime [default]) →
      ∃ w, (Except.ok v >>= fun u => m.append u.data [default] >>= fun data => do
          let dst ← data.window (wrapInt (index + 1)) data.len
          let src ← data.window index u.size
          let data := data.copyInto dst (data.read src)
          let data ← data.setIndex index x
          pure ((⟨data, wrapInt (u.size + 1), u.capacity⟩ : Vector α),
            (none : Option String))) = .ok (w, none) ∧
        w.size = v.size + 1 ∧ w.capacity = v.capacity := by
    intro e2
    obtain ⟨_, q2, q3, q4, q5, q6⟩ := Machine.append_ok m v.data _ [default] e2 b f
    simp only [List.length_singleton] at q2
    obtain ⟨w, e3, r1, r2, _⟩ := Machine.Insert_rest v
      (v.data.append m.toRuntime [default]) index x h0 h1 a q2 q3 (by omega)
    refine ⟨w, ?_, r1, r2⟩
    show (m.append v.data [default] >>= _) = _
    rw [e2]
    exact e3
  rcases Machine.append_cases m v.data [default] with ⟨e2, h2⟩ | ⟨e2, h2, h3⟩
  · simp only [List.length_singleton] at h2
    rcases h2 with h2 | h2
    · exact Or.inr (Or.inr ⟨h2, hok e2⟩)
    · exact Or.inl ⟨h2, hok e2⟩
  · simp only [List.length_singleton] at h2 h3
    right; left
    refine ⟨h2, ?_, ?_⟩
    · have h4 := m.appendCap_ge v.data.cap (v.data.len + 1)
      rcases h3 with h3 | h3
      · omega
      · exact h3
    · show (m.append v.data [default] >>= _) = _
      rw [e2]
      rfl

/-- `PushBack` on a full vector whose array is full and cannot be replaced by a
larger one panics. -/
theorem Machine.PushBack_wrapped_panic (m : Machine) (v : Vector α) (x : α)
    (hv : m.Inv v) (hbig : maxInt < 2 * v.capacity) (hfull : ¬ v.data.len + 1 ≤ v.data.cap)
    (hcap : m.appendCap v.data.cap (v.data.len + 1) > m.maxElems) :
    m.PushBack v x = .error .growslice := by
  rw [Machine.PushBack_unfold, Machine.grow_wrapped m v hv hbig]
  rcases Machine.append_cases m v.data [x] with ⟨_, h2⟩ | ⟨e2, _, _⟩
  · simp only [List.length_singleton] at h2
    omega
  · show (m.append v.data [x] >>= _) = _
    rw [e2]
    rfl

/-- The vector `New(FromSlice(vs))` for a non-empty `vs` the allocator can hold. -/
theorem Machine.New_fromSlice (m : Machine) (vs : List α) (hne : 0 < vs.length)
    (hfit : m.appendCap 0 vs.length ≤ m.maxElems) :
    ∃ v, m.New [m.FromSlice vs] = .ok v ∧ m.Reachable v ∧ m.Inv v ∧
      v.size = (vs.length : Int) ∧ v.capacity = (vs.length : Int) ∧
      v.data.len = vs.length ∧ v.data.cap = m.appendCap 0 vs.length ∧
      v.data.elems = vs := by
  rcases Machine.WithValues_run m vs ⟨⟨[], 0⟩, 0, 0⟩ with ⟨d, e, h1, h2, h3⟩ | ⟨_, h⟩
  · have hnew : m.New [m.FromSlice vs] = .ok ⟨d, d.len, d.len⟩ := by
      rw [Machine.New_unfold, List.foldlM_cons, Machine.FromSlice_eq, e]
      rfl
    rcases Machine.copy_cases m vs with ⟨d2, e2, hd2, _, _, _⟩ | ⟨_, h⟩
    · have hdd : d = d2 := by
        have e3 : m.WithValues vs ⟨⟨[], 0⟩, 0, 0⟩ = .ok ⟨d2, d2.len, d2.len⟩ := by
          unfold Machine.WithValues
          rw [e2]
          rfl
        rw [e] at e3
        cases e3
        rfl
      refine ⟨_, hnew, ?_, h3, ?_, ?_, h1, ?_, h2⟩
      · exact Machine.Reachable.new [m.FromSlice vs] _
          (by intro o ho; rw [List.mem_singleton.mp ho]; exact Machine.Builtin.fromSlice _)
          hnew
      · simp only [h1]
      · simp only [h1]
      · rw [hdd, hd2, Slice.append_cap_grow _ _ _
          (by simp only [Slice.nil, Slice.cap, List.length_nil]; omega)
          (by simp [Slice.nil])]
        simp [Slice.nil, Slice.cap]
    · omega
  · omega

/-- `PushBack` on a full vector whose capacity can no longer be doubled, when `append`
can still allocate: the capacity is read back from the new array. -/
theorem Machine.PushBack_wrapped (m : Machine) (v : Vector α) (x : α)
    (hv : m.Inv v) (hbig : maxInt < 2 * v.capacity)
    (hfit : m.appendCap v.data.cap (v.data.len + 1) ≤ m.maxElems) :
    ∃ w, m.PushBack v x = .ok w ∧ m.Inv w ∧ w.size = v.size + 1 ∧
      w.capacity = (w.data.cap : Int) := by
  have hme := m.maxElems_le
  rw [Machine.PushBack_unfold, Machine.grow_wrapped m v hv hbig]
  obtain ⟨a, b, c, d, f⟩ := hv
  have e2 := Machine.append_fits m v.data [x] (by simpa using hfit)
  obtain ⟨_, q2, q3, q4, q5, q6⟩ := Machine.append_ok m v.data _ [x] e2 b f
  simp only [List.length_singleton] at q2
  have hsz : wrapInt (v.size + 1) = v.size + 1 := wrapInt_eq _ (by omega) (by omega)
  refine ⟨⟨v.data.append m.toRuntime [x], v.size + 1,
    (v.data.append m.toRuntime [x]).cap⟩, ?_, ?_, rfl, rfl⟩
  · show (m.append v.data [x] >>= fun data =>
      (pure ⟨data, wrapInt (v.size + 1), data.cap⟩ : Except Panic (Vector α))) = _
    rw [e2, hsz]
    rfl
  · refine ⟨?_, q3, ?_, le_refl _, q5⟩
    · simp only [q2]; omega
    · simp only []; omega

theorem unitMachine_appendCap (c n : Nat) : unitMachine.appendCap c n = n := rfl

theorem unitMachine_maxElems : unitMachine.maxElems = 9223372036854775807 := rfl

/-- The largest vector of elements of size zero: `New(FromSlice(s))` with
`len(s) = 2^63 - 1`.  It is full, its capacity cannot be doubled, and `append` cannot
make it longer: `Insert` and `PushBack` panic. -/
theorem unit_full_vector :
    ∃ v0, unitMachine.New
        [unitMachine.FromSlice (List.replicate 9223372036854775807 ())] = .ok v0 ∧
      unitMachine.Reachable v0 ∧ v0.size = 9223372036854775807 ∧
      v0.capacity = 9223372036854775807 ∧
      unitMachine.Insert v0 0 () = .error .growslice ∧
      unitMachine.PushBack v0 () = .error .growslice := by
  have hlen : (List.replicate 9223372036854775807 ()).length = 9223372036854775807 :=
    List.length_replicate _ _
  obtain ⟨v0, e0, r0, i0, s0, c0, l0, k0, _⟩ := Machine.New_fromSlice unitMachine
    (List.replicate 9223372036854775807 ()) (by rw [hlen]; omega)
    (by rw [unitMachine_appendCap, hlen, unitMachine_maxElems])
  rw [hlen] at s0 c0 l0
  rw [unitMachine_appendCap, hlen] at k0
  have hbig : maxInt < 2 * v0.capacity := by
    rw [c0]
    unfold maxInt
    omega
  have hfull : ¬ v0.data.len + 1 ≤ v0.data.cap := by
    rw [l0, k0]
    omega
  have hcap : unitMachine.appendCap v0.data.cap (v0.data.len + 1)
      > unitMachine.maxElems := by
    rw [unitMachine_appendCap, unitMachine_maxElems, l0]
    omega
  refine ⟨v0, e0, r0, s0, c0, ?_,
    Machine.PushBack_wrapped_panic unitMachine v0 () i0 hbig hfull hcap⟩
  rcases Machine.Insert_wrapped unitMachine v0 0 () i0 (le_refl _) (by rw [s0]; omega) hbig
    with ⟨h, _⟩ | ⟨_, _, e⟩ | ⟨h, _⟩
  · omega
  · exact e
  · exact absurd h hfull

/-! ## Sample vectors on the machine -/

/-- A vector of three integers, as `New(WithValues(1, 2, 3))` builds it on the
machine. -/
theorem machine_reachable_values :
    intMachine.Reachable (⟨⟨[1, 2, 3], 3⟩, 3, 3⟩ : Vector Int) :=
  Machine.Reachable.new [intMachine.WithValues [1, 2, 3]] _
    (by intro o ho; rw [List.mem_singleton.mp ho]; exact Machine.Builtin.withValues _) rfl

/-- A vector that holds stale elements past its size, on the machine. -/
theorem machine_reachable_stale :
    intMachine.Reachable (⟨⟨[7, 7, 7], 1⟩, 1, 3⟩ : Vector Int) :=
  Machine.Reachable.resize ⟨⟨[7, 7, 7], 3⟩, 3, 3⟩ _ 1 0
    (Machine.Reachable.new [intMachine.WithSize 3 7] _
      (by intro o ho; rw [List.mem_singleton.mp ho]; exact Machine.Builtin.withSize _ _)
      rfl) rfl

theorem machine_canGrow_values :
    intMachine.CanGrow (⟨⟨[1, 2, 3], 3⟩, 3, 3⟩ : Vector Int) :=
  Or.inr ⟨rfl, by decide⟩

/-! ## Construction on the machine -/

theorem Machine.Fits.builtin (m : Machine) (o : VOption α) (h : m.Fits o) : m.Builtin o := by
  cases h with
  | withCapacity c _ => exact Machine.Builtin.withCapacity c
  | withValues vs _ => exact Machine.Builtin.withValues vs
  | withSize n d _ => exact Machine.Builtin.withSize n d
  | withFill n d _ => exact Machine.Builtin.withFill n d
  | fromSlice vs _ => exact Machine.Builtin.fromSlice vs

/-- An option whose array the allocator can provide builds its vector. -/
theorem Machine.Fits.run (m : Machine) (o : VOption α) (h : m.Fits o) (u : Vector α) :
    ∃ w, o u = .ok w ∧ m.Inv w := by
  rcases Machine.Builtin.cases m o (Machine.Fits.builtin m o h) u with hok | hbad
  · exact hok
  · exfalso
    cases h with
    | withCapacity c hc =>
      rcases Machine.WithCapacity_run m c u with ⟨_, e⟩ | ⟨hlt, _⟩
      · rw [e] at hbad
        rcases hbad with hbad | hbad <;> cases hbad
      · have := m.maxElems_pos
        omega
    | withValues vs hc =>
      rcases Machine.WithValues_run m vs u with ⟨d, e, _⟩ | ⟨_, hlt⟩
      · rw [e] at hbad
        rcases hbad with hbad | hbad <;> cases hbad
      · omega
    | withSize n d hc =>
      rcases Machine.WithSize_run m n d u with ⟨_, e⟩ | ⟨hlt, _⟩
      · rw [e] at hbad
        rcases hbad with hbad | hbad <;> cases hbad
      · have := m.maxElems_pos
        omega
    | withFill n d hc =>
      rcases Machine.WithSize_run m n d u with ⟨_, e⟩ | ⟨hlt, _⟩
      · rw [Machine.WithFill_eq, e] at hbad
        rcases hbad with hbad | hbad <;> cases hbad
      · have := m.maxElems_pos
        omega
    | fromSlice vs hc =>
      rcases Machine.WithValues_run m vs u with ⟨d, e, _⟩ | ⟨_, hlt⟩
      · rw [Machine.FromSlice_eq, e] at hbad
        rcases hbad with hbad | hbad <;> cases hbad
      · omega

theorem Machine.foldOptions_fits (m : Machine) (options : List (VOption α)) :
    (∀ o ∈ options, m.Fits o) → ∀ u : Vector α, m.Inv u →
    ∃ w, options.foldlM (fun v option => option v) u = Except.ok w ∧ m.Inv w := by
  induction options with
  | nil =>
    intro _ u hu
    exact ⟨u, rfl, hu⟩
  | cons o os ih =>
    intro h u _
    obtain ⟨w, e, hw⟩ := Machine.Fits.run m o (h o (by simp)) u
    obtain ⟨w2, e2, hw2⟩ := ih (fun o2 ho2 => h o2 (by simp [ho2])) w hw
    refine ⟨w2, ?_, hw2⟩
    rw [List.foldlM_cons, e]
    exact e2

/-- Every `PushBack` on the machine returns with the value at position `size` and a
capacity not below the old one, or panics in `make` or `append`. -/
theorem Machine.PushBack_outcome (m : Machine) (v : Vector α) (x : α) (hv : m.Inv v) :
    (∃ w, m.PushBack v x = .ok w ∧ v.capacity ≤ w.capacity ∧
      w.data.elems[v.size.toNat]? = some x) ∨
    m.PushBack v x = .error .makeslice ∨ m.PushBack v x = .error .growslice := by
  rcases Machine.PushBack_cases m v x hv with ⟨w, e, _, _, k2, _, k4⟩ | ⟨e, _⟩ | ⟨e, _⟩
  · left
    refine ⟨w, e, k4, ?_⟩
    have hlen := (Machine.live_value m v hv).2
    have hn : v.size.toNat = v.data.elems.length := by omega
    rw [k2, hn, List.getElem?_append_right (le_refl _)]
    simp
  · exact Or.inr (Or.inl e)
  · exact Or.inr (Or.inr e)

/-- Every `Insert` on the machine returns, with or without an error, with a capacity
not below the old one, or panics in `make` or `append`. -/
theorem Machine.Insert_outcome (m : Machine) (v : Vector α) (index : Int) (x : α)
    (hv : m.Inv v) :
    (∃ w e, m.Insert v index x = .ok (w, e) ∧ v.capacity ≤ w.capacity) ∨
    m.Insert v index x = .error .makeslice ∨ m.Insert v index x = .error .growslice := by
  by_cases hr : index < 0 ∨ index > v.size
  · exact Or.inl ⟨v, _, Machine.Insert_outOfRange m v index x hr, le_refl _⟩
  · rcases Machine.Insert_cases m v index x hv (by omega) (by omega) with
      ⟨w, e, _, _, _, k, _⟩ | ⟨e, _⟩ | ⟨e, _⟩
    · exact Or.inl ⟨w, none, e, k⟩
    · exact Or.inr (Or.inl e)
    · exact Or.inr (Or.inr e)

theorem Machine.Insert_returns (m : Machine) (v : Vector α) (index : Int) (x : α)
    (hv : m.Inv v) (hg : m.CanGrow v) : ∃ w e, m.Insert v index x = .ok (w, e) := by
  by_cases hr : index < 0 ∨ index > v.size
  · exact ⟨v, _, Machine.Insert_outOfRange m v index x hr⟩
  · obtain ⟨w, e, _⟩ := Machine.Insert_total m v index x hv (by omega) (by omega) hg
    exact ⟨w, none, e⟩

theorem Machine.PopBack_outcome (m : Machine) (v : Vector α) (hv : m.Inv v) :
    ∃ w e, v.PopBack = .ok (w, e) ∧ w.capacity = v.capacity := by
  by_cases hs : v.size = 0
  · exact ⟨v, _, Vector.PopBack_empty v hs, rfl⟩
  · exact ⟨_, none, Vector.PopBack_weak v hv.1 hv.2.1 hs, rfl⟩

theorem Machine.Erase_outcome (m : Machine) (v : Vector α) (index : Int) (hv : m.Inv v) :
    ∃ w e, v.Erase index = .ok (w, e) ∧ w.capacity = v.capacity := by
  by_cases hr : index < 0 ∨ index ≥ v.size
  · exact ⟨v, _, Vector.Erase_range v index hr, rfl⟩
  · obtain ⟨w, e, _, _, _, _, k⟩ :=
      Vector.Erase_weak v index hv.1 hv.2.1 (by omega) (by omega)
    exact ⟨w, none, e, k⟩

theorem Machine.Reserve_outcome (m : Machine) (v : Vector α) (n : Int) (hv : m.Inv v) :
    ((∃ w, m.Reserve v n = .ok w ∧ v.capacity ≤ w.capacity) ∨
      m.Reserve v n = .error .makeslice) ∧
    (v.size ≤ v.capacity → n ≤ (m.maxElems : Int) → ∃ w, m.Reserve v n = .ok w) := by
  rcases Machine.Reserve_cases m v n hv with ⟨w, e, _, _, _, _, k, _⟩ | ⟨e, k1, k2⟩
  · exact ⟨Or.inl ⟨w, e, k⟩, fun _ _ => ⟨w, e⟩⟩
  · refine ⟨Or.inr e, ?_⟩
    intro hs hn
    omega

theorem Machine.Resize_outcome (m : Machine) (v : Vector α) (n : Int) (x : α)
    (hv : m.Inv v) :
    ((∃ w, m.Resize v n x = .ok w ∧ v.capacity ≤ w.capacity) ∨
      m.Resize v n x = .error .makeslice) ∧
    (n ≤ (m.maxElems : Int) → ∃ w, m.Resize v n x = .ok w) := by
  rcases Machine.Resize_cases m v n x hv with ⟨w, e, _, _, k, _⟩ | ⟨e, _, _, k⟩
  · exact ⟨Or.inl ⟨w, e, k⟩, fun _ => ⟨w, e⟩⟩
  · refine ⟨Or.inr e, ?_⟩
    intro hn
    omega

theorem Machine.At_returns (m : Machine) (v : Vector α) (index : Int) (hv : m.Inv v) :
    ∃ r, v.At index = .ok r := by
  by_cases hr : index < 0 ∨ index ≥ v.size
  · exact ⟨_, Vector.At_range v index hr⟩
  · obtain ⟨x, e, _⟩ := Machine.At_value m v index hv (by omega) (by omega)
    exact ⟨_, e⟩

theorem Machine.Front_returns (m : Machine) (v : Vector α) (hv : m.Inv v) :
    (∃ r, v.Front = .ok r) ∧ ∃ r, v.Back = .ok r := by
  by_cases hs : v.size = 0
  · exact ⟨⟨_, Vector.Front_empty v hs⟩, ⟨_, Vector.Back_empty v hs⟩⟩
  · obtain ⟨x, e, _⟩ := Machine.Front_value m v hv hs
    obtain ⟨y, e2, _⟩ := Machine.Back_value m v hv hs
    exact ⟨⟨_, e⟩, ⟨_, e2⟩⟩

/-! ## The properties that depend on the limits of the machine

The properties below speak of sizes, capacities and allocations without a bound, so
they are settled on the 64-bit reading of the program (`Machine`). -/

/-- C1 at a failing input, for elements of size zero: `New(FromSlice(s))` with
`len(s) = 2^62` has size and capacity `2^62`; `Insert(0, x)` finds the vector full,
`capacity * 2` wraps to a negative number, `Reserve` does nothing, `append` allocates
a larger array, and the vector is left with `Size() = 2^62 + 1 > Capacity() = 2^62`.
`PushBack(x)` on the same vector reads the capacity back from the array and keeps
`Size() ≤ Capacity()`. -/
theorem C1_size_exceeds_capacity :
    ∃ v0 w w2, unitMachine.New
        [unitMachine.FromSlice (List.replicate 4611686018427387904 ())] = .ok v0 ∧
      v0.Size = 4611686018427387904 ∧ v0.Capacity = 4611686018427387904 ∧
      unitMachine.Insert v0 0 () = .ok (w, none) ∧ unitMachine.Reachable w ∧
      w.Size = 4611686018427387905 ∧ w.Capacity = 4611686018427387904 ∧
      w.Capacity < w.Size ∧
      unitMachine.PushBack v0 () = .ok w2 ∧ w2.Size ≤ w2.Capacity := by
  have hlen : (List.replicate 4611686018427387904 ()).length = 4611686018427387904 :=
    List.length_replicate _ _
  obtain ⟨v0, e0, r0, i0, s0, c0, l0, k0, _⟩ := Machine.New_fromSlice unitMachine
    (List.replicate 4611686018427387904 ()) (by rw [hlen]; omega)
    (by rw [unitMachine_appendCap, hlen, unitMachine_maxElems]; omega)
  rw [hlen] at s0 c0 l0
  rw [unitMachine_appendCap, hlen] at k0
  have hbig : maxInt < 2 * v0.capacity := by
    rw [c0]
    unfold maxInt
    omega
  have hfit : unitMachine.appendCap v0.data.cap (v0.data.len + 1)
      ≤ unitMachine.maxElems := by
    rw [unitMachine_appendCap, unitMachine_maxElems, l0]
    omega
  obtain ⟨w2, e2, i2, _, q2⟩ := Machine.PushBack_wrapped unitMachine v0 () i0 hbig hfit
  have hw2 : w2.Size ≤ w2.Capacity := by
    obtain ⟨a, b, _, _, _⟩ := i2
    simp only [Vector.Size, Vector.Capacity]
    omega
  rcases Machine.Insert_wrapped unitMachine v0 0 () i0 (le_refl _) (by rw [s0]; omega) hbig
    with ⟨_, w, e1, q1, q3⟩ | ⟨_, h, _⟩ | ⟨h, _⟩
  · refine ⟨v0, w, w2, e0, ?_, ?_, e1, Machine.Reachable.insert v0 w 0 () none r0 e1,
      ?_, ?_, ?_, e2, hw2⟩
    · simp only [Vector.Size, s0]; rfl
    · simp only [Vector.Capacity, c0]; rfl
    · simp only [Vector.Size, q1, s0]; rfl
    · simp only [Vector.Capacity, q3, c0]; rfl
    · simp only [Vector.Size, Vector.Capacity, q1, q3, s0, c0]
      omega
  · exact absurd hfit (by omega)
  · rw [l0, k0] at h
    omega

/-- C7 fails as stated: on the full vector of `2^63 - 1` elements of size zero, the
in-range `Insert(0, x)` panics in `append` instead of returning. -/
theorem C7_insert_panics :
    ∃ v0, unitMachine.New
        [unitMachine.FromSlice (List.replicate 9223372036854775807 ())] = .ok v0 ∧
      unitMachine.Reachable v0 ∧ v0.Size = 9223372036854775807 ∧
      ¬ ((0 : Int) < 0 ∨ (0 : Int) > v0.Size) ∧
      unitMachine.Insert v0 0 () = .error .growslice := by
  obtain ⟨v0, e0, r0, s0, _, e1, _⟩ := unit_full_vector
  refine ⟨v0, e0, r0, s0, ?_, e1⟩
  simp only [Vector.Size, s0]
  omega

/-- C7, amended: on a reachable vector with live sequence `L` of size `s`,
`Insert(index, x)` returns the OutOfRange error and changes nothing when `index < 0`
or `index > s`; otherwise, whenever it returns, it returns no error, the size is
`s + 1` and the live sequence is `L[0..index)`, `x`, `L[index..s)`; and it does return
when the vector has room or can double its capacity. -/
theorem C7_insert_on_machine (m : Machine) (v : Vector α) (h : m.Reachable v)
    (index : Int) (x : α) :
    ∃ L, v.live = .ok L ∧ (L.length : Int) = v.Size ∧
      ((index < 0 ∨ index > v.Size) → m.Insert v index x = .ok (v, some errOutOfRange)) ∧
      (¬ (index < 0 ∨ index > v.Size) →
        (m.CanGrow v → ∃ w, m.Insert v index x = .ok (w, none)) ∧
        ∀ w e, m.Insert v index x = .ok (w, e) → e = none ∧ w.Size = v.Size + 1 ∧
          w.live = .ok (L.take index.toNat ++ x :: L.drop index.toNat)) := by
  have hv := Machine.Reachable.holds m v h
  obtain ⟨hl, hlen⟩ := Machine.live_value m v hv
  refine ⟨_, hl, hlen, fun hr => Machine.Insert_outOfRange m v index x hr, ?_⟩
  intro hr
  simp only [Vector.Size] at hr
  constructor
  · intro hg
    obtain ⟨w, e, _⟩ := Machine.Insert_total m v index x hv (by omega) (by omega) hg
    exact ⟨w, e⟩
  · intro w e he
    rcases Machine.Insert_cases m v index x hv (by omega) (by omega) with
      ⟨w2, e2, hw, k1, k2, _⟩ | ⟨e2, _⟩ | ⟨e2, _⟩
    · rw [e2] at he
      cases he
      refine ⟨rfl, k1, ?_⟩
      rw [(Machine.live_value m w hw).1, k2]
    · rw [e2] at he; cases he
    · rw [e2] at he; cases he

/-- An instance of C7: `Insert(1, 99)` on `[1, 2, 3]`. -/
theorem C7_insert_on_machine_witness :
    (∃ L, (⟨⟨[1, 2, 3], 3⟩, 3, 3⟩ : Vector Int).live = .ok L ∧
      (L.length : Int) = (⟨⟨[1, 2, 3], 3⟩, 3, 3⟩ : Vector Int).Size ∧
      (((1 : Int) < 0 ∨ (1 : Int) > (⟨⟨[1, 2, 3], 3⟩, 3, 3⟩ : Vector Int).Size) →
        intMachine.Insert (⟨⟨[1, 2, 3], 3⟩, 3, 3⟩ : Vector Int) 1 99 =
          .ok (⟨⟨[1, 2, 3], 3⟩, 3, 3⟩, some errOutOfRange)) ∧
      (¬ ((1 : Int) < 0 ∨ (1 : Int) > (⟨⟨[1, 2, 3], 3⟩, 3, 3⟩ : Vector Int).Size) →
        (intMachine.CanGrow (⟨⟨[1, 2, 3], 3⟩, 3, 3⟩ : Vector Int) →
          ∃ w, intMachine.Insert (⟨⟨[1, 2, 3], 3⟩, 3, 3⟩ : Vector Int) 1 99 = .ok (w, none)) ∧
        ∀ w e, intMachine.Insert (⟨⟨[1, 2, 3], 3⟩, 3, 3⟩ : Vector Int) 1 99 = .ok (w, e) →
          e = none ∧ w.Size = (⟨⟨[1, 2, 3], 3⟩, 3, 3⟩ : Vector Int).Size + 1 ∧
          w.live = .ok (L.take (1 : Int).toNat ++ 99 :: L.drop (1 : Int).toNat))) ∧
    intMachine.CanGrow (⟨⟨[1, 2, 3], 3⟩, 3, 3⟩ : Vector Int) ∧
    (intMachine.Insert (⟨⟨[1, 2, 3], 3⟩, 3, 3⟩ : Vector Int) 1 99 >>= fun r => r.1.live)
      = .ok [1, 99, 2, 3] :=
  ⟨C7_insert_on_machine intMachine _ machine_reachable_values 1 99,
    machine_canGrow_values, rfl⟩

/-- C9 fails as stated: on the full vector of `2^63 - 1` elements of size zero,
`Insert(0, x)` does not succeed, although 0 is a valid index. -/
theorem C9_insert_panics :
    ∃ v0, unitMachine.New
        [unitMachine.FromSlice (List.replicate 9223372036854775807 ())] = .ok v0 ∧
      unitMachine.Reachable v0 ∧ (0 : Int) ≤ 0 ∧ (0 : Int) ≤ v0.Size ∧
      ∀ w, unitMachine.Insert v0 0 () ≠ .ok (w, none) := by
  obtain ⟨v0, e0, r0, s0, _, e1, _⟩ := unit_full_vector
  refine ⟨v0, e0, r0, le_refl _, ?_, ?_⟩
  · simp only [Vector.Size, s0]
    omega
  · intro w hw
    rw [e1] at hw
    cases hw

/-- C9, amended: on a reachable vector of size `s`, for `0 ≤ i ≤ s`, whenever
`Insert(i, x)` returns it succeeds, and `Erase(i)` after it succeeds and leaves
`Size()` and the live sequence `Data()` as they were before the `Insert`; `Insert`
does return when the vector has room or can double its capacity. -/
theorem C9_insert_then_erase_on_machine (m : Machine) (v : Vector α)
    (h : m.Reachable v) (i : Int) (x : α) (h0 : 0 ≤ i) (h1 : i ≤ v.Size) :
    (m.CanGrow v → ∃ w, m.Insert v i x = .ok (w, none)) ∧
    ∀ w e, m.Insert v i x = .ok (w, e) → e = none ∧
      ∃ u L, w.Erase i = .ok (u, none) ∧ u.Size = v.Size ∧ v.live = .ok L ∧
        u.live = .ok L := by
  have hv := Machine.Reachable.holds m v h
  obtain ⟨hl, hlen⟩ := Machine.live_value m v hv
  simp only [Vector.Size] at h1
  constructor
  · intro hg
    obtain ⟨w, e, _⟩ := Machine.Insert_total m v i x hv h0 h1 hg
    exact ⟨w, e⟩
  · intro w e he
    rcases Machine.Insert_cases m v i x hv h0 h1 with
      ⟨w2, e2, hw, k1, k2, _⟩ | ⟨e2, _⟩ | ⟨e2, _⟩
    · rw [e2] at he
      cases he
      refine ⟨rfl, ?_⟩
      obtain ⟨a, b, c, d, f⟩ := hw
      obtain ⟨u, e3, q1, q2, q3, q4, q5⟩ := Vector.Erase_weak w i a b h0 (by omega)
      have hu : m.Inv u := ⟨q1, by omega, by omega, by omega, by omega⟩
      refine ⟨u, _, e3, ?_, hl, ?_⟩
      · simp only [Vector.Size]; omega
      · rw [(Machine.live_value m u hu).1, q4, k2]
        have hi : i.toNat ≤ v.data.elems.length := by omega
        rw [List.eraseIdx_append_of_length_le (by simp [hi])]
        simp [hi]
    · rw [e2] at he; cases he
    · rw [e2] at he; cases he

/-- An instance of C9: `Insert(1, 99)` then `Erase(1)` on `[1, 2, 3]`. -/
theorem C9_insert_then_erase_on_machine_witness :
    ((intMachine.CanGrow (⟨⟨[1, 2, 3], 3⟩, 3, 3⟩ : Vector Int) →
      ∃ w, intMachine.Insert (⟨⟨[1, 2, 3], 3⟩, 3, 3⟩ : Vector Int) 1 99 = .ok (w, none)) ∧
    ∀ w e, intMachine.Insert (⟨⟨[1, 2, 3], 3⟩, 3, 3⟩ : Vector Int) 1 99 = .ok (w, e) →
      e = none ∧
      ∃ u L, w.Erase 1 = .ok (u, none) ∧
        u.Size = (⟨⟨[1, 2, 3], 3⟩, 3, 3⟩ : Vector Int).Size ∧
        (⟨⟨[1, 2, 3], 3⟩, 3, 3⟩ : Vector Int).live = .ok L ∧ u.live = .ok L) ∧
    intMachine.CanGrow (⟨⟨[1, 2, 3], 3⟩, 3, 3⟩ : Vector Int) :=
  ⟨C9_insert_then_erase_on_machine intMachine _ machine_reachable_values 1 99
    (by decide) (by decide), machine_canGrow_values⟩

/-- C10 fails as stated: on the full vector of `2^63 - 1` elements of size zero,
`PushBack(x)` panics in `append`. -/
theorem C10_pushBack_panics :
    ∃ v0, unitMachine.New
        [unitMachine.FromSlice (List.replicate 9223372036854775807 ())] = .ok v0 ∧
      unitMachine.Reachable v0 ∧ unitMachine.PushBack v0 () = .error .growslice := by
  obtain ⟨v0, e0, r0, _, _, _, e1⟩ := unit_full_vector
  exact ⟨v0, e0, r0, e1⟩

/-- C10, amended: on a reachable vector, whenever `PushBack(x)` returns, the
`PopBack()` right after it succeeds and restores the prior `Size()`, and every element
at a position in `[0, Size())` is the same as before the `PushBack`; `PushBack` does
return when the vector has room or can double its capacity. -/
theorem C10_push_then_pop_on_machine (m : Machine) (v : Vector α) (h : m.Reachable v)
    (x : α) :
    (m.CanGrow v → ∃ w, m.PushBack v x = .ok w) ∧
    ∀ w, m.PushBack v x = .ok w →
      ∃ u L, w.PopBack = .ok (u, none) ∧ u.Size = v.Size ∧ v.live = .ok L ∧
        u.live = .ok L ∧
        ∀ i : Int, 0 ≤ i → i < v.Size →
          ∃ y, v.At i = .ok (y, none) ∧ u.At i = .ok (y, none) := by
  have hv := Machine.Reachable.holds m v h
  obtain ⟨hl, hlen⟩ := Machine.live_value m v hv
  constructor
  · intro hg
    obtain ⟨w, e, _⟩ := Machine.PushBack_total m v x hv hg
    exact ⟨w, e⟩
  · intro w he
    rcases Machine.PushBack_cases m v x hv with
      ⟨w2, e2, hw, k1, k2, k3, _⟩ | ⟨e2, _⟩ | ⟨e2, _⟩
    · rw [e2] at he
      cases he
      have hv0 : 0 ≤ v.size := by
        obtain ⟨a, _, _, _, _⟩ := hv
        omega
      obtain ⟨a, b, c, d, f⟩ := hw
      have hwi : w.Inv := ⟨a, by omega, d⟩
      obtain ⟨u, e3, hu, q1, _, _, q2⟩ := Vector.PopBack_spec w hwi (by omega)
      have hsz : u.size = v.size := by omega
      have hel : u.data.elems = v.data.elems := by
        rw [q2, k2, k1]
        have : (v.size + 1 - 1).toNat = v.data.elems.length := by omega
        rw [this, List.take_left']
        rfl
      refine ⟨u, _, e3, hsz, hl, ?_, ?_⟩
      · rw [(Vector.live_spec u hu).1, hel]
      · intro i i0 i1
        simp only [Vector.Size] at i1
        obtain ⟨y, ey, hy⟩ := Machine.At_value m v i hv i0 i1
        obtain ⟨z, ez, hz⟩ := Vector.At_spec u i hu i0 (by omega)
        rw [hel, hy] at hz
        cases hz
        exact ⟨y, ey, ez⟩
    · rw [e2] at he; cases he
    · rw [e2] at he; cases he

/-- An instance of C10: `PushBack(4)` then `PopBack()` on `[1, 2, 3]`. -/
theorem C10_push_then_pop_on_machine_witness :
    ((intMachine.CanGrow (⟨⟨[1, 2, 3], 3⟩, 3, 3⟩ : Vector Int) →
      ∃ w, intMachine.PushBack (⟨⟨[1, 2, 3], 3⟩, 3, 3⟩ : Vector Int) 4 = .ok w) ∧
    ∀ w, intMachine.PushBack (⟨⟨[1, 2, 3], 3⟩, 3, 3⟩ : Vector Int) 4 = .ok w →
      ∃ u L, w.PopBack = .ok (u, none) ∧
        u.Size = (⟨⟨[1, 2, 3], 3⟩, 3, 3⟩ : Vector Int).Size ∧
        (⟨⟨[1, 2, 3], 3⟩, 3, 3⟩ : Vector Int).live = .ok L ∧ u.live = .ok L ∧
        ∀ i : Int, 0 ≤ i → i < (⟨⟨[1, 2, 3], 3⟩, 3, 3⟩ : Vector Int).Size →
          ∃ y, (⟨⟨[1, 2, 3], 3⟩, 3, 3⟩ : Vector Int).At i = .ok (y, none) ∧
            u.At i = .ok (y, none)) ∧
    intMachine.CanGrow (⟨⟨[1, 2, 3], 3⟩, 3, 3⟩ : Vector Int) :=
  ⟨C10_push_then_pop_on_machine intMachine _ machine_reachable_values 4,
    machine_canGrow_values⟩

/-- C19: on a reachable vector of the machine none of `PushBack`, `PopBack`, `Insert`,
`Erase`, `Clear`, `Reserve` and `Resize`, successful or failing, yields a smaller
capacity: `PopBack`, `Erase` and `Clear` always return and leave the capacity
unchanged, and `Clear` sets the size to 0; each of `PushBack`, `Insert`, `Reserve` and
`Resize` returns with a capacity not below the old one, or panics in `make` or
`append` and yields nothing.  The four return when the array they need can be
allocated. -/
theorem C19_capacity_monotone_on_machine (m : Machine) (v : Vector α)
    (h : m.Reachable v) :
    (∀ x : α, (∃ w, m.PushBack v x = .ok w ∧ v.Capacity ≤ w.Capacity) ∨
      m.PushBack v x = .error .makeslice ∨ m.PushBack v x = .error .growslice) ∧
    (∃ w e, v.PopBack = .ok (w, e) ∧ w.Capacity = v.Capacity) ∧
    (∀ (index : Int) (x : α),
      (∃ w e, m.Insert v index x = .ok (w, e) ∧ v.Capacity ≤ w.Capacity) ∨
      m.Insert v index x = .error .makeslice ∨ m.Insert v index x = .error .growslice) ∧
    (∀ index : Int, ∃ w e, v.Erase index = .ok (w, e) ∧ w.Capacity = v.Capacity) ∧
    (∃ w, v.Clear = .ok w ∧ w.Capacity = v.Capacity ∧ w.Size = 0) ∧
    (∀ n : Int, (∃ w, m.Reserve v n = .ok w ∧ v.Capacity ≤ w.Capacity) ∨
      m.Reserve v n = .error .makeslice) ∧
    (∀ (n : Int) (x : α), (∃ w, m.Resize v n x = .ok w ∧ v.Capacity ≤ w.Capacity) ∨
      m.Resize v n x = .error .makeslice) ∧
    (m.CanGrow v → (∀ x : α, ∃ w, m.PushBack v x = .ok w) ∧
      ∀ (index : Int) (x : α), ∃ w e, m.Insert v index x = .ok (w, e)) ∧
    (∀ n : Int, n ≤ (m.maxElems : Int) →
      (v.Size ≤ v.Capacity → ∃ w, m.Reserve v n = .ok w) ∧
      ∀ x : α, ∃ w, m.Resize v n x = .ok w) := by
  have hv := Machine.Reachable.holds m v h
  refine ⟨?_, Machine.PopBack_outcome m v hv, fun index x => Machine.Insert_outcome m v index x hv,
    fun index => Machine.Erase_outcome m v index hv, ⟨_, Vector.Clear_weak v, rfl, rfl⟩,
    fun n => (Machine.Reserve_outcome m v n hv).1,
    fun n x => (Machine.Resize_outcome m v n x hv).1, ?_, ?_⟩
  · intro x
    rcases Machine.PushBack_outcome m v x hv with ⟨w, e, k, _⟩ | e
    · exact Or.inl ⟨w, e, k⟩
    · exact Or.inr e
  · intro hg
    refine ⟨?_, fun index x => Machine.Insert_returns m v index x hv hg⟩
    intro x
    obtain ⟨w, e, _⟩ := Machine.PushBack_total m v x hv hg
    exact ⟨w, e⟩
  · intro n hn
    exact ⟨fun hs => (Machine.Reserve_outcome m v n hv).2 hs hn,
      fun x => (Machine.Resize_outcome m v n x hv).2 hn⟩

/-- An instance of C19 on the vector `[1, 2, 3]` of integers, which is full and can
double its capacity. -/
theorem C19_capacity_monotone_on_machine_witness :
    intMachine.CanGrow (⟨⟨[1, 2, 3], 3⟩, 3, 3⟩ : Vector Int) ∧
    ((∀ x : Int, (∃ w, intMachine.PushBack (⟨⟨[1, 2, 3], 3⟩, 3, 3⟩ : Vector Int) x = .ok w ∧
        (⟨⟨[1, 2, 3], 3⟩, 3, 3⟩ : Vector Int).Capacity ≤ w.Capacity) ∨
      intMachine.PushBack (⟨⟨[1, 2, 3], 3⟩, 3, 3⟩ : Vector Int) x = .error .makeslice ∨
      intMachine.PushBack (⟨⟨[1, 2, 3], 3⟩, 3, 3⟩ : Vector Int) x = .error .growslice) ∧
    (∃ w e, (⟨⟨[1, 2, 3], 3⟩, 3, 3⟩ : Vector Int).PopBack = .ok (w, e) ∧
      w.Capacity = (⟨⟨[1, 2, 3], 3⟩, 3, 3⟩ : Vector Int).Capacity) ∧
    (∀ (index : Int) (x : Int),
      (∃ w e, intMachine.Insert (⟨⟨[1, 2, 3], 3⟩, 3, 3⟩ : Vector Int) index x = .ok (w, e) ∧
        (⟨⟨[1, 2, 3], 3⟩, 3, 3⟩ : Vector Int).Capacity ≤ w.Capacity) ∨
      intMachine.Insert (⟨⟨[1, 2, 3], 3⟩, 3, 3⟩ : Vector Int) index x = .error .makeslice ∨
      intMachine.Insert (⟨⟨[1, 2, 3], 3⟩, 3, 3⟩ : Vector Int) index x = .error .growslice) ∧
    (∀ index : Int, ∃ w e,
      (⟨⟨[1, 2, 3], 3⟩, 3, 3⟩ : Vector Int).Erase index = .ok (w, e) ∧
      w.Capacity = (⟨⟨[1, 2, 3], 3⟩, 3, 3⟩ : Vector Int).Capacity) ∧
    (∃ w, (⟨⟨[1, 2, 3], 3⟩, 3, 3⟩ : Vector Int).Clear = .ok w ∧
      w.Capacity = (⟨⟨[1, 2, 3], 3⟩, 3, 3⟩ : Vector Int).Capacity ∧ w.Size = 0) ∧
    (∀ n : Int, (∃ w, intMachine.Reserve (⟨⟨[1, 2, 3], 3⟩, 3, 3⟩ : Vector Int) n = .ok w ∧
        (⟨⟨[1, 2, 3], 3⟩, 3, 3⟩ : Vector Int).Capacity ≤ w.Capacity) ∨
      intMachine.Reserve (⟨⟨[1, 2, 3], 3⟩, 3, 3⟩ : Vector Int) n = .error .makeslice) ∧
    (∀ (n : Int) (x : Int),
      (∃ w, intMachine.Resize (⟨⟨[1, 2, 3], 3⟩, 3, 3⟩ : Vector Int) n x = .ok w ∧
        (⟨⟨[1, 2, 3], 3⟩, 3, 3⟩ : Vector Int).Capacity ≤ w.Capacity) ∨
      intMachine.Resize (⟨⟨[1, 2, 3], 3⟩, 3, 3⟩ : Vector Int) n x = .error .makeslice) ∧
    (intMachine.CanGrow (⟨⟨[1, 2, 3], 3⟩, 3, 3⟩ : Vector Int) →
      (∀ x : Int, ∃ w, intMachine.PushBack (⟨⟨[1, 2, 3], 3⟩, 3, 3⟩ : Vector Int) x = .ok w) ∧
      ∀ (index : Int) (x : Int), ∃ w e,
        intMachine.Insert (⟨⟨[1, 2, 3], 3⟩, 3, 3⟩ : Vector Int) index x = .ok (w, e)) ∧
    (∀ n : Int, n ≤ (intMachine.maxElems : Int) →
      ((⟨⟨[1, 2, 3], 3⟩, 3, 3⟩ : Vector Int).Size ≤
          (⟨⟨[1, 2, 3], 3⟩, 3, 3⟩ : Vector Int).Capacity →
        ∃ w, intMachine.Reserve (⟨⟨[1, 2, 3], 3⟩, 3, 3⟩ : Vector Int) n = .ok w) ∧
      ∀ x : Int, ∃ w, intMachine.Resize (⟨⟨[1, 2, 3], 3⟩, 3, 3⟩ : Vector Int) n x = .ok w)) ∧
    intMachine.PushBack (⟨⟨[1, 2, 3], 3⟩, 3, 3⟩ : Vector Int) 4 =
      .ok ⟨⟨[1, 2, 3, 4, 0, 0], 4⟩, 4, 6⟩ :=
  ⟨machine_canGrow_values,
    C19_capacity_monotone_on_machine intMachine _ machine_reachable_values, rfl⟩

/-- C20 fails as stated, operations do panic: on the reachable vector `[1, 2, 3]` of
integers `Reserve(1 << 47)` and `Resize(1 << 47, 0)` panic in `make`,
`New(WithCapacity(1 << 47))` panics in `make`, and on the vector of `2^63 - 1`
elements of size zero `PushBack` panics in `append`. -/
theorem C20_operations_panic :
    intMachine.Reachable (⟨⟨[1, 2, 3], 3⟩, 3, 3⟩ : Vector Int) ∧
    intMachine.Reserve (⟨⟨[1, 2, 3], 3⟩, 3, 3⟩ : Vector Int) 140737488355328 =
      .error .makeslice ∧
    intMachine.Resize (⟨⟨[1, 2, 3], 3⟩, 3, 3⟩ : Vector Int) 140737488355328 0 =
      .error .makeslice ∧
    intMachine.New ([intMachine.WithCapacity 140737488355328] : List (VOption Int)) =
      .error .makeslice ∧
    ∃ v0 : Vector Unit, unitMachine.Reachable v0 ∧ v0.Size = 9223372036854775807 ∧
      unitMachine.PushBack v0 () = .error .growslice := by
  obtain ⟨v0, _, r0, s0, _, _, p0⟩ := unit_full_vector
  exact ⟨machine_reachable_values, rfl, rfl, rfl, v0, r0, s0, p0⟩

/-- C20, amended: in every state reachable on the machine `len(data) == size` and
`capacity ≤ cap(data)`; hence no slice expression or index of the operations is out
of bounds: `Data`, `At`, `Front`, `Back`, `PopBack`, `Erase` and `Clear` return
without a panic; `PushBack`, `Insert`, `Reserve`, `Resize` and `New` return or panic
in `make` or `append`, never on a slice bound or an index, and they return when the
array they need can be allocated; the `append` of `PushBack` puts the value at
position `size`. -/
theorem C20_bounds_on_machine (m : Machine) (v : Vector α) (h : m.Reachable v) :
    (v.data.len : Int) = v.Size ∧ v.Capacity ≤ (v.data.cap : Int) ∧
    (∃ d, v.Data = .ok d ∧ (d.elems.length : Int) = v.Size) ∧
    (∀ index : Int, ∃ r, v.At index = .ok r) ∧
    (∃ r, v.Front = .ok r) ∧ (∃ r, v.Back = .ok r) ∧
    (∀ x : α, (∃ w, m.PushBack v x = .ok w ∧ w.data.elems[v.Size.toNat]? = some x) ∨
      m.PushBack v x = .error .makeslice ∨ m.PushBack v x = .error .growslice) ∧
    (∃ r, v.PopBack = .ok r) ∧
    (∀ (index : Int) (x : α), (∃ r, m.Insert v index x = .ok r) ∨
      m.Insert v index x = .error .makeslice ∨ m.Insert v index x = .error .growslice) ∧
    (∀ index : Int, ∃ r, v.Erase index = .ok r) ∧
    (∃ w, v.Clear = .ok w) ∧
    (∀ n : Int, (∃ w, m.Reserve v n = .ok w) ∨ m.Reserve v n = .error .makeslice) ∧
    (∀ (n : Int) (x : α), (∃ w, m.Resize v n x = .ok w) ∨
      m.Resize v n x = .error .makeslice) ∧
    (∀ options : List (VOption α), (∀ o ∈ options, m.Builtin o) →
      (∃ w, m.New options = .ok w) ∨ m.New options = .error .makeslice ∨
        m.New options = .error .growslice) ∧
    (m.CanGrow v → (∀ x : α, ∃ w, m.PushBack v x = .ok w) ∧
      ∀ (index : Int) (x : α), ∃ r, m.Insert v index x = .ok r) ∧
    (∀ n : Int, n ≤ (m.maxElems : Int) →
      (v.Size ≤ v.Capacity → ∃ w, m.Reserve v n = .ok w) ∧
      ∀ x : α, ∃ w, m.Resize v n x = .ok w) ∧
    (∀ options : List (VOption α), (∀ o ∈ options, m.Fits o) →
      ∃ w, m.New options = .ok w) := by
  have hv := Machine.Reachable.holds m v h
  refine ⟨hv.1, hv.2.2.2.1, ?_, fun index => Machine.At_returns m v index hv,
    (Machine.Front_returns m v hv).1, (Machine.Front_returns m v hv).2, ?_, ?_, ?_, ?_,
    ⟨_, Vector.Clear_weak v⟩, ?_, ?_, ?_, ?_, ?_, ?_⟩
  · obtain ⟨d, e, _, k⟩ := Machine.Data_value m v hv
    exact ⟨d, e, k⟩
  · intro x
    rcases Machine.PushBack_outcome m v x hv with ⟨w, e, _, k⟩ | e
    · exact Or.inl ⟨w, e, k⟩
    · exact Or.inr e
  · obtain ⟨w, e, k, _⟩ := Machine.PopBack_outcome m v hv
    exact ⟨_, k⟩
  · intro index x
    rcases Machine.Insert_outcome m v index x hv with ⟨w, e, k, _⟩ | e
    · exact Or.inl ⟨_, k⟩
    · exact Or.inr e
  · intro index
    obtain ⟨w, e, k, _⟩ := Machine.Erase_outcome m v index hv
    exact ⟨_, k⟩
  · intro n
    rcases (Machine.Reserve_outcome m v n hv).1 with ⟨w, e, _⟩ | e
    · exact Or.inl ⟨w, e⟩
    · exact Or.inr e
  · intro n x
    rcases (Machine.Resize_outcome m v n x hv).1 with ⟨w, e, _⟩ | e
    · exact Or.inl ⟨w, e⟩
    · exact Or.inr e
  · intro options ho
    rcases Machine.New_cases m options ho with ⟨w, e, _⟩ | e
    · exact Or.inl ⟨w, e⟩
    · exact Or.inr e
  · intro hg
    refine ⟨?_, ?_⟩
    · intro x
      obtain ⟨w, e, _⟩ := Machine.PushBack_total m v x hv hg
      exact ⟨w, e⟩
    · intro index x
      obtain ⟨w, e, k⟩ := Machine.Insert_returns m v index x hv hg
      exact ⟨_, k⟩
  · intro n hn
    exact ⟨fun hs => (Machine.Reserve_outcome m v n hv).2 hs hn,
      fun x => (Machine.Resize_outcome m v n x hv).2 hn⟩
  · intro options ho
    rw [Machine.New_unfold]
    obtain ⟨w, e, _⟩ := Machine.foldOptions_fits m options ho _ (Machine.empty_inv m)
    exact ⟨w, e⟩

/-- An instance of C20 on a vector of integers whose array holds stale elements and
has room for two more. -/
theorem C20_bounds_on_machine_witness :
    intMachine.CanGrow (⟨⟨[7, 7, 7], 1⟩, 1, 3⟩ : Vector Int) ∧
    (((⟨⟨[7, 7, 7], 1⟩, 1, 3⟩ : Vector Int).data.len : Int) = (⟨⟨[7, 7, 7], 1⟩, 1, 3⟩ : Vector Int).Size ∧
    (⟨⟨[7, 7, 7], 1⟩, 1, 3⟩ : Vector Int).Capacity ≤ ((((⟨⟨[7, 7, 7], 1⟩, 1, 3⟩ : Vector Int).data.cap : Nat)) : Int) ∧
    (∃ d, (⟨⟨[7, 7, 7], 1⟩, 1, 3⟩ : Vector Int).Data = .ok d ∧ (d.elems.length : Int) = (⟨⟨[7, 7, 7], 1⟩, 1, 3⟩ : Vector Int).Size) ∧
    (∀ index : Int, ∃ r, (⟨⟨[7, 7, 7], 1⟩, 1, 3⟩ : Vector Int).At index = .ok r) ∧
    (∃ r, (⟨⟨[7, 7, 7], 1⟩, 1, 3⟩ : Vector Int).Front = .ok r) ∧ (∃ r, (⟨⟨[7, 7, 7], 1⟩, 1, 3⟩ : Vector Int).Back = .ok r) ∧
    (∀ x : Int, (∃ w, intMachine.PushBack (⟨⟨[7, 7, 7], 1⟩, 1, 3⟩ : Vector Int) x = .ok w ∧
        w.data.elems[(⟨⟨[7, 7, 7], 1⟩, 1, 3⟩ : Vector Int).Size.toNat]? = some x) ∨
      intMachine.PushBack (⟨⟨[7, 7, 7], 1⟩, 1, 3⟩ : Vector Int) x = .error .makeslice ∨
      intMachine.PushBack (⟨⟨[7, 7, 7], 1⟩, 1, 3⟩ : Vector Int) x = .error .growslice) ∧
    (∃ r, (⟨⟨[7, 7, 7], 1⟩, 1, 3⟩ : Vector Int).PopBack = .ok r) ∧
    (∀ (index : Int) (x : Int), (∃ r, intMachine.Insert (⟨⟨[7, 7, 7], 1⟩, 1, 3⟩ : Vector Int) index x = .ok r) ∨
      intMachine.Insert (⟨⟨[7, 7, 7], 1⟩, 1, 3⟩ : Vector Int) index x = .error .makeslice ∨
      intMachine.Insert (⟨⟨[7, 7, 7], 1⟩, 1, 3⟩ : Vector Int) index x = .error .growslice) ∧
    (∀ index : Int, ∃ r, (⟨⟨[7, 7, 7], 1⟩, 1, 3⟩ : Vector Int).Erase index = .ok r) ∧
    (∃ w, (⟨⟨[7, 7, 7], 1⟩, 1, 3⟩ : Vector Int).Clear = .ok w) ∧
    (∀ n : Int, (∃ w, intMachine.Reserve (⟨⟨[7, 7, 7], 1⟩, 1, 3⟩ : Vector Int) n = .ok w) ∨
      intMachine.Reserve (⟨⟨[7, 7, 7], 1⟩, 1, 3⟩ : Vector Int) n = .error .makeslice) ∧
    (∀ (n : Int) (x : Int), (∃ w, intMachine.Resize (⟨⟨[7, 7, 7], 1⟩, 1, 3⟩ : Vector Int) n x = .ok w) ∨
      intMachine.Resize (⟨⟨[7, 7, 7], 1⟩, 1, 3⟩ : Vector Int) n x = .error .makeslice) ∧
    (∀ options : List (VOption Int), (∀ o ∈ options, intMachine.Builtin o) →
      (∃ w, intMachine.New options = .ok w) ∨ intMachine.New options = .error .makeslice ∨
        intMachine.New options = .error .growslice) ∧
    (intMachine.CanGrow (⟨⟨[7, 7, 7], 1⟩, 1, 3⟩ : Vector Int) →
      (∀ x : Int, ∃ w, intMachine.PushBack (⟨⟨[7, 7, 7], 1⟩, 1, 3⟩ : Vector Int) x = .ok w) ∧
      ∀ (index : Int) (x : Int), ∃ r, intMachine.Insert (⟨⟨[7, 7, 7], 1⟩, 1, 3⟩ : Vector Int) index x = .ok r) ∧
    (∀ n : Int, n ≤ (intMachine.maxElems : Int) →
      ((⟨⟨[7, 7, 7], 1⟩, 1, 3⟩ : Vector Int).Size ≤ (⟨⟨[7, 7, 7], 1⟩, 1, 3⟩ : Vector Int).Capacity → ∃ w, intMachine.Reserve (⟨⟨[7, 7, 7], 1⟩, 1, 3⟩ : Vector Int) n = .ok w) ∧
      ∀ x : Int, ∃ w, intMachine.Resize (⟨⟨[7, 7, 7], 1⟩, 1, 3⟩ : Vector Int) n x = .ok w) ∧
    (∀ options : List (VOption Int), (∀ o ∈ options, intMachine.Fits o) →
      ∃ w, intMachine.New options = .ok w)) ∧
    intMachine.PushBack (⟨⟨[7, 7, 7], 1⟩, 1, 3⟩ : Vector Int) 4 = .ok ⟨⟨[7, 4, 7], 2⟩, 2, 3⟩ :=
  ⟨Or.inl (by decide), C20_bounds_on_machine intMachine _ machine_reachable_stale, rfl⟩

end vector
